import Mathlib

/-!
Advanced multi-qubit gates of the qubitverse simulator.

A shallow embedding of `src/qubitverse/simulator/gates/advanced_gates.cc`.

* The state vector `std::complex<double>* state` of `len` amplitudes is a `List α`; the
  permutation gates move amplitudes without computing on them, so they are generic in `α`;
  the phase gate multiplies by `-1.0` and is stated over a ring.
* `std::size_t` values are natural numbers; the only operation that can leave the 64-bit
  range, `1ULL << target`, is reduced modulo `2 ^ 64`.
* A call either returns normally with the new state, or prints a diagnostic and calls
  `std::exit(EXIT_FAILURE)`, or reads or writes outside the buffer (undefined behaviour).
* The Fourier transform and Grover's algorithm (`grover_test.cc`) compute on the amplitudes:
  they are stated over the complex numbers with exact arithmetic.
* Where a property depends on them, the shift `index >> ctrl` with a count of 64 or more is
  undefined (`are_controls_set_checked`), and the angle of `qft_phase_factor` is computed in
  binary64 arithmetic from the constant `M_PI` (`qft_phase_factor_double`).
-/

namespace simulator

/-! ## Outcomes of a gate call -/

/-- The diagnostic written to `stderr` before `std::exit(EXIT_FAILURE)`: the gate named in the
message, the minimum number of qubits it asks for and the number of qubits it reports. -/
structure Diagnostic where
  gate : String
  required : Nat
  actual : Nat
deriving DecidableEq

/-- Outcome of a gate call: it returns with the mutated state vector; or the process exits
after printing a diagnostic (the buffer is recorded as it is at that moment); or the behaviour
is undefined (an access outside the buffer, or the conversion of `-inf` to `std::size_t`). -/
inductive Outcome (α : Type) where
  | returned (state : List α)
  | exited (msg : Diagnostic) (state : List α)
  | undefined
deriving DecidableEq

/-- Sequencing of statements: the continuation runs only after a normal return. -/
def Outcome.andThen {α : Type} (r : Outcome α) (k : List α → Outcome α) : Outcome α :=
  match r with
  | .returned state => k state
  | .exited msg state => .exited msg state
  | .undefined => .undefined

/-- Replace the gate name in a diagnostic, keeping the reported numbers and the buffer. -/
def Outcome.relabel {α : Type} (name : String) : Outcome α → Outcome α
  | .returned state => .returned state
  | .exited msg state => .exited { msg with gate := name } state
  | .undefined => .undefined

/-- Whether the call ended in `std::exit` after printing a diagnostic. -/
def Outcome.has_exited {α : Type} : Outcome α → Bool
  | .exited _ _ => true
  | _ => false

/-! ## Machine arithmetic -/

/-- The expression `(i >> q) & 1` converted to `bool`. -/
def bit_is_set (i q : Nat) : Bool := ((i >>> q) &&& 1) != 0

/-- The expression `1ULL << q` in 64-bit unsigned arithmetic. -/
def shl_one (q : Nat) : Nat := (1 <<< q) % 2 ^ 64

/-- The comparison `std::log2(len) < k` for a constant `k` (`3.0` in the source): the real
logarithm is strictly increasing and `std::log2(0)` is `-inf`, so it holds exactly when
`len < 2 ^ k`. -/
def log2_lt (len k : Nat) : Bool := decide (len < 2 ^ k)

/-- Integer part of the base-2 logarithm of `n ≥ 1`, as the number of halvings that bring `n`
down to `1`; `fuel` bounds the number of halvings (`fuel = n` is always enough). -/
def floor_log2 : Nat → Nat → Nat
  | 0, _ => 0
  | fuel + 1, n => if 2 ≤ n then floor_log2 fuel (n / 2) + 1 else 0

/-- The expression `static_cast<std::size_t>(std::log2(len))`: the integer part of the base-2
logarithm; for `len = 0` the logarithm is `-inf`, whose conversion is undefined. -/
def log2_size_t (len : Nat) : Option Nat :=
  if len = 0 then none else some (floor_log2 len len)

/-! ## Buffer accesses and the index loop -/

/-- The statement `std::swap(state[i], state[j])`. -/
def swap_amplitudes {α : Type} (state : List α) (i j : Nat) : Outcome α :=
  match state[i]?, state[j]? with
  | some a, some b => .returned ((state.set i b).set j a)
  | _, _ => .undefined

/-- The statement `state[i] *= -1.0`. -/
def negate_amplitude {α : Type} [Ring α] (state : List α) (i : Nat) : Outcome α :=
  match state[i]? with
  | some a => .returned (state.set i (a * (-1)))
  | none => .undefined

/-- The loop `for (std::size_t i = 0; i < n; ++i) body`: iterations `0, …, n - 1` in order,
stopping at the first fault. -/
def for_index {α : Type} (body : List α → Nat → Outcome α) : Nat → List α → Outcome α
  | 0, state => .returned state
  | n + 1, state => (for_index body n state).andThen fun s => body s n

/-! ## The gates -/

/-- The function `are_controls_set(index, controls)`, with the shift `index >> ctrl` read as
the shift of natural numbers: what the function computes for controls below 64, the width of
`std::size_t`. -/
def are_controls_set (index : Nat) : List Nat → Bool
  | [] => true
  | ctrl :: rest => if ((index >>> ctrl) &&& 1) == 0 then false else are_controls_set index rest

/-- The expression `index >> q` where the shift count is not known to be below 64: the shift
is undefined for `q ≥ 64`. -/
def shr_checked (index q : Nat) : Option Nat := if q < 64 then some (index >>> q) else none

/-- The function `are_controls_set(index, controls)` for arbitrary controls: `none` when the
loop evaluates `index >> ctrl` for a control `ctrl ≥ 64`, where the shift is undefined. -/
def are_controls_set_checked (index : Nat) : List Nat → Option Bool
  | [] => some true
  | ctrl :: rest =>
    match shr_checked index ctrl with
    | some shifted =>
      if (shifted &&& 1) == 0 then some false else are_controls_set_checked index rest
    | none => none

/-- Body of the loop of `apply_toffoli_gate`. -/
def toffoli_body {α : Type} (ctrl1 ctrl2 target : Nat) (state : List α) (i : Nat) : Outcome α :=
  let ctrl1_set := bit_is_set i ctrl1
  let ctrl2_set := bit_is_set i ctrl2
  if ctrl1_set && ctrl2_set then
    let flipped_index := i ^^^ shl_one target
    if i < flipped_index then swap_amplitudes state i flipped_index else .returned state
  else .returned state

/-- The function `apply_toffoli_gate(state, len, ctrl1, ctrl2, target)`. -/
def apply_toffoli_gate {α : Type} (state : List α) (len ctrl1 ctrl2 target : Nat) : Outcome α :=
  if log2_lt len 3 then
    match log2_size_t len with
    | some actual => .exited ⟨"Toffoli", 3, actual⟩ state
    | none => .undefined
  else for_index (toffoli_body ctrl1 ctrl2 target) len state

/-- Body of the loop of `apply_fredkin_gate`. -/
def fredkin_body {α : Type} (ctrl target1 target2 : Nat) (state : List α) (i : Nat) : Outcome α :=
  let ctrl_set := bit_is_set i ctrl
  if ctrl_set then
    let swapped_index := (i ^^^ shl_one target1) ^^^ shl_one target2
    if i < swapped_index then swap_amplitudes state i swapped_index else .returned state
  else .returned state

/-- The function `apply_fredkin_gate(state, len, ctrl, target1, target2)`. -/
def apply_fredkin_gate {α : Type} (state : List α) (len ctrl target1 target2 : Nat) : Outcome α :=
  if log2_lt len 3 then
    match log2_size_t len with
    | some actual => .exited ⟨"Fredkin", 3, actual⟩ state
    | none => .undefined
  else for_index (fredkin_body ctrl target1 target2) len state

/-- Body of the loop of `apply_multi_controlled_x`. -/
def multi_controlled_x_body {α : Type} (controls : List Nat) (target : Nat)
    (state : List α) (i : Nat) : Outcome α :=
  if are_controls_set i controls then
    let flipped_index := i ^^^ shl_one target
    if i < flipped_index then swap_amplitudes state i flipped_index else .returned state
  else .returned state

/-- The function `apply_multi_controlled_x(state, len, controls, target)`. -/
def apply_multi_controlled_x {α : Type} (state : List α) (len : Nat) (controls : List Nat)
    (target : Nat) : Outcome α :=
  match log2_size_t len with
  | none => .undefined
  | some num_qubits =>
    if num_qubits < controls.length + 1 then
      .exited ⟨"Multi-controlled X", controls.length + 1, num_qubits⟩ state
    else for_index (multi_controlled_x_body controls target) len state

/-- Body of the loop of `apply_multi_controlled_z`. -/
def multi_controlled_z_body {α : Type} [Ring α] (controls : List Nat) (target : Nat)
    (state : List α) (i : Nat) : Outcome α :=
  if are_controls_set i controls then
    let target_set := bit_is_set i target
    if target_set then negate_amplitude state i else .returned state
  else .returned state

/-- The function `apply_multi_controlled_z(state, len, controls, target)`. -/
def apply_multi_controlled_z {α : Type} [Ring α] (state : List α) (len : Nat)
    (controls : List Nat) (target : Nat) : Outcome α :=
  match log2_size_t len with
  | none => .undefined
  | some num_qubits =>
    if num_qubits < controls.length + 1 then
      .exited ⟨"Multi-controlled Z", controls.length + 1, num_qubits⟩ state
    else for_index (multi_controlled_z_body controls target) len state

/-! ## The shape shared by the permutation gates -/

/-- Loop body that swaps the amplitudes at `i` and `f i` when `cond i` holds and `i < f i`:
the three permutation gates are instances of it. -/
def pair_body {α : Type} (cond : Nat → Bool) (f : Nat → Nat) (state : List α) (i : Nat) :
    Outcome α :=
  if cond i then
    if i < f i then swap_amplitudes state i (f i) else .returned state
  else .returned state

/-- Index whose input amplitude sits at position `k` after the iterations `0, …, m - 1` of
`pair_body cond f`. -/
def pair_index (cond : Nat → Bool) (f : Nat → Nat) (m k : Nat) : Nat :=
  if (k < m ∧ cond k = true ∧ k < f k) ∨ (f k < m ∧ cond (f k) = true ∧ f k < f (f k))
  then f k else k

/-- Loop body that negates the amplitude at `i` when `cond i` holds: the shape of the loop
of the phase gate. -/
def phase_body {α : Type} [Ring α] (cond : Nat → Bool) (state : List α) (i : Nat) : Outcome α :=
  if cond i then negate_amplitude state i else .returned state

/-! ## The controlled swap as the documentation describes it -/

/-- The index `i` with bit `q` given the value `b`. -/
def with_bit (i q : Nat) (b : Bool) : Nat :=
  if b then i ||| (1 <<< q) else i - (i &&& (1 <<< q))

/-- The index obtained from `i` by exchanging the values of bits `q1` and `q2`. -/
def exchange_bits (i q1 q2 : Nat) : Nat :=
  with_bit (with_bit i q1 (Nat.testBit i q2)) q2 (Nat.testBit i q1)

/-! ## The quantum Fourier transform, direct-matrix form

Amplitudes are complex numbers; the conversions to `double` and the functions `cos`, `sin`
and `sqrt` are taken exact, so the definitions of this section are not executable. -/

/-- The function `qft_phase_factor(k, n, N)` in exact real arithmetic, with π for the
constant `M_PI`; the product `k * n` is a 64-bit product. -/
noncomputable def qft_phase_factor (k n N : Nat) : ℂ :=
  let angle : ℝ := 2 * Real.pi * (((k * n) % 2 ^ 64 : Nat) : ℝ) / ((shl_one N : Nat) : ℝ)
  ⟨Real.cos angle, Real.sin angle⟩

/-- A loop `for (std::size_t i = 0; i < n; ++i) body` over local variables that cannot
fault. -/
def for_count {σ : Type} (body : σ → Nat → σ) : Nat → σ → σ
  | 0, s => s
  | n + 1, s => body (for_count body n s) n

/-- Body of the loop of `apply_qft` over the register bits `i`, acting on the pair
`(full_input, full_output)`: `std::find` is membership and `std::distance` to the found
position is the index of the first occurrence. -/
def qft_scatter_body (qubits : List Nat) (input output : Nat) (full : Nat × Nat) (i : Nat) :
    Nat × Nat :=
  let is_in_qft := decide (i ∈ qubits)
  if is_in_qft then
    let qft_idx := qubits.indexOf i
    let full_input := if bit_is_set input qft_idx then full.1 ||| shl_one i else full.1
    let full_output := if bit_is_set output qft_idx then full.2 ||| shl_one i else full.2
    (full_input, full_output)
  else full

/-- The pair `(full_input, full_output)` computed for a pair `(input, output)`. -/
def qft_scatter (qubits : List Nat) (num_qubits input output : Nat) : Nat × Nat :=
  for_count (qft_scatter_body qubits input output) num_qubits (0, 0)

/-- The statement `new_state[full_output] += state[full_input] * phase * normalization`. -/
noncomputable def qft_accumulate (state new_state : List ℂ) (full_input full_output : Nat)
    (phase : ℂ) (normalization : ℝ) : Outcome ℂ :=
  match state[full_input]?, new_state[full_output]? with
  | some a, some b => .returned (new_state.set full_output (b + a * phase * normalization))
  | _, _ => .undefined

/-- Body of the loop of `apply_qft` over `input`, for a fixed `output`. -/
noncomputable def qft_input_body (state : List ℂ) (qubits : List Nat) (num_qubits n : Nat)
    (inverse : Bool) (normalization : ℝ) (output : Nat) (new_state : List ℂ) (input : Nat) :
    Outcome ℂ :=
  let phase := qft_phase_factor output input n
  let phase := if inverse then (starRingEnd ℂ) phase else phase
  let full := qft_scatter qubits num_qubits input output
  qft_accumulate state new_state full.1 full.2 phase normalization

/-- Body of the loop of `apply_qft` over `output`. -/
noncomputable def qft_output_body (state : List ℂ) (qubits : List Nat) (num_qubits n : Nat)
    (inverse : Bool) (normalization : ℝ) (new_state : List ℂ) (output : Nat) : Outcome ℂ :=
  for_index (qft_input_body state qubits num_qubits n inverse normalization output)
    (shl_one n) new_state

/-- Body of the final loop of `apply_qft`: the statement `state[i] = new_state[i]`. -/
def qft_copy_body {α : Type} (new_state state : List α) (i : Nat) : Outcome α :=
  match new_state[i]?, state[i]? with
  | some a, some _ => .returned (state.set i a)
  | _, _ => .undefined

/-- The function `apply_qft(state, len, qubits, inverse)`. -/
noncomputable def apply_qft (state : List ℂ) (len : Nat) (qubits : List Nat) (inverse : Bool) :
    Outcome ℂ :=
  match log2_size_t len with
  | none => .undefined
  | some num_qubits =>
    let n := qubits.length
    if n = 0 then .returned state
    else
      let new_state := List.replicate len (0 : ℂ)
      let normalization : ℝ := 1 / Real.sqrt ((shl_one n : Nat) : ℝ)
      (for_index (qft_output_body state qubits num_qubits n inverse normalization)
        (shl_one n) new_state).andThen
        fun new_state => for_index (qft_copy_body new_state) len state

/-- Register index whose bit `i` (for `i < num_qubits` in `qubits`) is the bit of `x` at the
position of `i` in `qubits`, all other bits clear: the value each component of `qft_scatter`
takes. -/
def scatter_bits (qubits : List Nat) (x : Nat) : Nat → Nat
  | 0 => 0
  | i + 1 =>
    if i ∈ qubits ∧ bit_is_set x (qubits.indexOf i) = true
    then scatter_bits qubits x i ||| shl_one i else scatter_bits qubits x i

/-- Coefficient with which `apply_qft` adds `state[full_input]` to `new_state[full_output]`
for the pair `(output, input)`: the phase, conjugated for the inverse transform, times the
normalization. -/
noncomputable def qft_coefficient (n : Nat) (inverse : Bool) (output input : Nat) : ℂ :=
  (if inverse then (starRingEnd ℂ) (qft_phase_factor output input n)
    else qft_phase_factor output input n) *
    ((1 / Real.sqrt ((shl_one n : Nat) : ℝ) : ℝ) : ℂ)

/-! ## Grover's algorithm (`grover_test.cc`) -/

/-- Modelled from the spec: the Hadamard primitive
`qubit::apply_predefined_gate_public(state, len, qubit::gate_type::HADAMARD, q)` declared in
`gates.hh`, whose implementation is not among the sources. It is taken as the standard
single-qubit Hadamard on qubit `q` with exact arithmetic: for each pair of indices that differ
only in bit `q`, the amplitudes `a` (bit clear) and `b` (bit set) become `(a + b) / sqrt 2`
and `(a - b) / sqrt 2`. The call is undefined when the buffer does not have `len` entries or
the partner index falls outside it. -/
noncomputable def apply_hadamard (state : List ℂ) (len q : Nat) : Outcome ℂ :=
  if state.length = len ∧ ∀ k, k < len → k ^^^ shl_one q < len then
    .returned ((List.range len).map fun k =>
      if bit_is_set k q then (state.getD (k ^^^ shl_one q) 0 - state.getD k 0) / Real.sqrt 2
      else (state.getD k 0 + state.getD (k ^^^ shl_one q) 0) / Real.sqrt 2)
  else .undefined

/-- The function `grover_oracle(state, len, target_state)`. -/
def grover_oracle {α : Type} [Ring α] (state : List α) (_len target_state : Nat) : Outcome α :=
  negate_amplitude state target_state

/-- The function `grover_diffusion(state, len)`. -/
noncomputable def grover_diffusion (state : List ℂ) (len : Nat) : Outcome ℂ :=
  match log2_size_t len with
  | none => .undefined
  | some num_qubits =>
    (for_index (fun s i => apply_hadamard s len i) num_qubits state).andThen fun s =>
      (negate_amplitude s 0).andThen fun s =>
        for_index (fun s i => apply_hadamard s len i) num_qubits s

/-- Body of the measurement loop of `run_grover_algorithm`, acting on the pair
`(max_prob, measured_state)`; `std::norm` is the squared magnitude. -/
noncomputable def grover_measure_body (state : List ℂ) (acc : Option (ℝ × Nat)) (i : Nat) :
    Option (ℝ × Nat) :=
  match acc, state[i]? with
  | some (max_prob, measured_state), some a =>
    let prob := Complex.normSq a
    if prob > max_prob then some (prob, i) else some (max_prob, measured_state)
  | _, _ => none

/-- The part of `run_grover_algorithm` before the measurement: allocation of the zeroed
buffer of `len` amplitudes, `state[0] = 1`, the Hadamard loop, and the Grover iterations. -/
noncomputable def grover_evolve (len num_qubits target_state iterations : Nat) : Outcome ℂ :=
  let state := List.replicate len (0 : ℂ)
  (if 0 < state.length then Outcome.returned (state.set 0 1) else Outcome.undefined).andThen
    fun s =>
      (for_index (fun s i => apply_hadamard s len i) num_qubits s).andThen fun s =>
        for_index (fun s _ =>
          (grover_oracle s len target_state).andThen fun s => grover_diffusion s len)
          iterations s

/-- The measurement loop of `run_grover_algorithm`, returning `measured_state`. -/
noncomputable def grover_measure (state : List ℂ) (len : Nat) : Option Nat :=
  (for_count (grover_measure_body state) len (some (0, 0))).map Prod.snd

/-- The function `run_grover_algorithm(num_qubits, target_state, iterations)`; `none` when the
run has undefined behaviour. -/
noncomputable def run_grover_algorithm (num_qubits target_state iterations : Nat) : Option Nat :=
  let len := shl_one num_qubits
  match grover_evolve len num_qubits target_state iterations with
  | .returned state => grover_measure state len
  | _ => none

/-! ## The parser (`parser.cc`) -/

/-- Modelled from the spec: the tags of `gate_type` returned by `get_gate_type()`, declared in
`parser.hh`, which is not among the sources. The nine tags that `parser::debug_print` tests
are named as in `parser.cc`; the tag of a measure-nth instruction is the tenth alternative of
the gate descriptor of the spec, distinct from the other nine. -/
inductive gate_type where
  | SINGLE_GATE
  | CNOT_GATE
  | CZ_GATE
  | SWAP_GATE
  | MEASURE_NTH
  | TOFFOLI_GATE
  | FREDKIN_GATE
  | MULTI_CONTROLLED_X_GATE
  | MULTI_CONTROLLED_Z_GATE
  | QFT_GATE
deriving DecidableEq

/-- Modelled from the spec: the node classes `ast_*_node` of `parser.hh`, which is not among
the sources, one constructor per class built by `parser::perform`, with the members that
`parser::debug_print` reads. The type `θ` is the `double` rotation angle. -/
inductive ast_node (θ : Type) where
  | ast_single_gate_node (M_gate : String) (M_qubit : Nat) (M_theta : θ)
  | ast_cnot_gate_node (M_control M_target : Nat)
  | ast_cz_gate_node (M_control M_target : Nat)
  | ast_swap_gate_node (M_qubit1 M_qubit2 : Nat)
  | ast_measure_nth_node (M_qubit : Nat)
  | ast_toffoli_gate_node (M_ctrl1 M_ctrl2 M_target : Nat)
  | ast_fredkin_gate_node (M_ctrl M_target1 M_target2 : Nat)
  | ast_multi_controlled_x_gate_node (M_controls : List Nat) (M_target : Nat)
  | ast_multi_controlled_z_gate_node (M_controls : List Nat) (M_target : Nat)
  | ast_qft_gate_node (M_qubits : List Nat) (M_inverse : Bool)

/-- Modelled from the spec: the method `get_gate_type()` of the node classes. -/
def ast_node.get_gate_type {θ : Type} : ast_node θ → gate_type
  | .ast_single_gate_node _ _ _ => .SINGLE_GATE
  | .ast_cnot_gate_node _ _ => .CNOT_GATE
  | .ast_cz_gate_node _ _ => .CZ_GATE
  | .ast_swap_gate_node _ _ => .SWAP_GATE
  | .ast_measure_nth_node _ => .MEASURE_NTH
  | .ast_toffoli_gate_node _ _ _ => .TOFFOLI_GATE
  | .ast_fredkin_gate_node _ _ _ => .FREDKIN_GATE
  | .ast_multi_controlled_x_gate_node _ _ => .MULTI_CONTROLLED_X_GATE
  | .ast_multi_controlled_z_gate_node _ _ => .MULTI_CONTROLLED_Z_GATE
  | .ast_qft_gate_node _ _ => .QFT_GATE

/-- The loop of `parser::debug_print` that prints an index list: `printf("%zu", v[j])`
followed by `printf(",")` when `j < v.size() - 1`. -/
def print_index_list (v : List Nat) : String :=
  for_count (fun out j =>
    let out := out ++ toString (v.getD j 0)
    if j < v.length - 1 then out ++ "," else out) v.length ""

/-- What one iteration of the loop of `parser::debug_print` writes to the standard output for
the node `i`; `fmt_lf` renders a `double` as `%lf` does. -/
def debug_print_node {θ : Type} (fmt_lf : θ → String) (i : ast_node θ) : String :=
  if i.get_gate_type = gate_type.SINGLE_GATE then
    match i with
    | .ast_single_gate_node M_gate M_qubit M_theta =>
      "SINGLE_GATE: [GATE: " ++ M_gate ++ ", QUBIT: " ++ toString M_qubit ++ ", THETA: " ++
        fmt_lf M_theta ++ "]\n"
    | _ => ""
  else if i.get_gate_type = gate_type.CNOT_GATE then
    match i with
    | .ast_cnot_gate_node M_control M_target =>
      "CNOT_GATE: [CONTROL: " ++ toString M_control ++ ", TARGET: " ++ toString M_target ++
        "]\n"
    | _ => ""
  else if i.get_gate_type = gate_type.CZ_GATE then
    match i with
    | .ast_cz_gate_node M_control M_target =>
      "CZ_GATE: [CONTROL: " ++ toString M_control ++ ", TARGET: " ++ toString M_target ++ "]\n"
    | _ => ""
  else if i.get_gate_type = gate_type.SWAP_GATE then
    match i with
    | .ast_swap_gate_node M_qubit1 M_qubit2 =>
      "SWAP_GATE: [QUBIT1: " ++ toString M_qubit1 ++ ", QUBIT2: " ++ toString M_qubit2 ++ "]\n"
    | _ => ""
  else if i.get_gate_type = gate_type.TOFFOLI_GATE then
    match i with
    | .ast_toffoli_gate_node M_ctrl1 M_ctrl2 M_target =>
      "TOFFOLI_GATE: [CTRL1: " ++ toString M_ctrl1 ++ ", CTRL2: " ++ toString M_ctrl2 ++
        ", TARGET: " ++ toString M_target ++ "]\n"
    | _ => ""
  else if i.get_gate_type = gate_type.FREDKIN_GATE then
    match i with
    | .ast_fredkin_gate_node M_ctrl M_target1 M_target2 =>
      "FREDKIN_GATE: [CTRL: " ++ toString M_ctrl ++ ", TARGET1: " ++ toString M_target1 ++
        ", TARGET2: " ++ toString M_target2 ++ "]\n"
    | _ => ""
  else if i.get_gate_type = gate_type.MULTI_CONTROLLED_X_GATE then
    match i with
    | .ast_multi_controlled_x_gate_node M_controls M_target =>
      "MULTI_CONTROLLED_X_GATE: [CONTROLS: " ++ print_index_list M_controls ++ ", TARGET: " ++
        toString M_target ++ "]\n"
    | _ => ""
  else if i.get_gate_type = gate_type.MULTI_CONTROLLED_Z_GATE then
    match i with
    | .ast_multi_controlled_z_gate_node M_controls M_target =>
      "MULTI_CONTROLLED_Z_GATE: [CONTROLS: " ++ print_index_list M_controls ++ ", TARGET: " ++
        toString M_target ++ "]\n"
    | _ => ""
  else if i.get_gate_type = gate_type.QFT_GATE then
    match i with
    | .ast_qft_gate_node M_qubits M_inverse =>
      "QFT_GATE: [QUBITS: " ++ print_index_list M_qubits ++ ", INVERSE: " ++
        (if M_inverse then "true" else "false") ++ "]\n"
    | _ => ""
  else ""

/-- The function `parser::debug_print()`, as the text it writes to the standard output for the
gate list `M_gatelist`. -/
def debug_print {θ : Type} (fmt_lf : θ → String) (M_gatelist : List (ast_node θ)) : String :=
  M_gatelist.foldl (fun out i => out ++ debug_print_node fmt_lf i) ""

/-- Number of lines of a text: the number of newline characters. -/
def line_count (text : String) : Nat := (text.toList.filter (fun c => c == '\n')).length

/-- Result of a library conversion that either yields a value or throws
`std::invalid_argument` or `std::out_of_range`. -/
inductive Thrown (α : Type) where
  | ok (value : α)
  | invalid_argument
  | out_of_range
deriving DecidableEq

/-- The characters `std::isspace` accepts in the C locale. -/
def is_space (c : Char) : Bool :=
  c == ' ' || c == '\t' || c == '\n' || c == '\r' || c.toNat == 11 || c.toNat == 12

/-- The number written by a run of decimal digits. -/
def decimal_value (digits : List Char) : Nat :=
  digits.foldl (fun acc c => 10 * acc + (c.toNat - '0'.toNat)) 0

/-- The library function `std::stoul(str)` (base 10, `unsigned long` of 64 bits), as the C++
standard defines it through `strtoul`: leading white space is skipped, an optional sign is
read, then the longest run of digits; no digit throws `std::invalid_argument`, a value above
`ULONG_MAX` throws `std::out_of_range`, a minus sign negates modulo `2 ^ 64`, and what follows
the digits is ignored. -/
def stoul (str : List Char) : Thrown Nat :=
  let s := str.dropWhile is_space
  let negative := s.head? == some '-'
  let s := if s.head? == some '-' || s.head? == some '+' then s.tail else s
  let digits := s.takeWhile Char.isDigit
  if digits.isEmpty then .invalid_argument
  else
    let value := decimal_value digits
    if 2 ^ 64 ≤ value then .out_of_range
    else .ok (if negative then (2 ^ 64 - value) % 2 ^ 64 else value)

/-- The call `controls_str.find(',')`: the position of the first comma, or `none` for
`std::string::npos`. -/
def find_comma (str : List Char) : Option Nat :=
  if str.indexOf ',' < str.length then some (str.indexOf ',') else none

/-- The loop of `parser::perform` that reads a comma-separated index list (the same text in
the `mcnot`, `mcz` and `qft` branches), with the final `push_back(std::stoul(controls_str))`:
`none` when `fuel` iterations do not finish the loop. -/
def parse_index_loop : Nat → List Char → List Nat → Option (Thrown (List Nat))
  | 0, _, _ => none
  | fuel + 1, controls_str, controls =>
    match find_comma controls_str with
    | some pos =>
      let token := controls_str.take pos
      match stoul token with
      | .ok value => parse_index_loop fuel (controls_str.drop (pos + 1)) (controls ++ [value])
      | .invalid_argument => some .invalid_argument
      | .out_of_range => some .out_of_range
    | none =>
      match stoul controls_str with
      | .ok value => some (.ok (controls ++ [value]))
      | .invalid_argument => some .invalid_argument
      | .out_of_range => some .out_of_range

/-- The index list that `parser::perform` reads from the operand `toks[i].M_val` of a `mcnot`,
`mcz` or `qft` instruction; every iteration erases at least one character, so one more
iteration than the operand has characters is enough. -/
def parse_index_list (operand : String) : Option (Thrown (List Nat)) :=
  parse_index_loop (operand.length + 1) operand.toList []

/-- Conversion of the fields of an operand in order, stopping at the first field that
`std::stoul` rejects. -/
def convert_fields : List (List Char) → List Nat → Thrown (List Nat)
  | [], controls => .ok controls
  | field :: rest, controls =>
    match stoul field with
    | .ok value => convert_fields rest (controls ++ [value])
    | .invalid_argument => .invalid_argument
    | .out_of_range => .out_of_range

/-- The operand made of the given fields separated by single commas. -/
def join_fields : List (List Char) → List Char
  | [] => []
  | [field] => field
  | field :: rest => field ++ ',' :: join_fields rest

/-! ## The quantum Fourier transform, decomposed form -/

/-- A call that `apply_qft_decomposed` makes to a primitive of `gates.hh`:
`apply_predefined_gate_public(state, len, HADAMARD, qubit)`,
`apply_theta_gate_public(state, len, PHASE_GENERAL_SHIFT, angle, qubit)` or
`apply_2qubit_gate_public(state, len, SWAP_GATE, qubit1, qubit2)`. -/
inductive primitive_call where
  | hadamard (qubit : Nat)
  | phase_shift (angle : ℝ) (qubit : Nat)
  | swap (qubit1 qubit2 : Nat)

/-- Whether a call is a Hadamard. -/
def primitive_call.is_hadamard : primitive_call → Bool
  | .hadamard _ => true
  | _ => false

/-- Whether a call is a phase shift. -/
def primitive_call.is_phase_shift : primitive_call → Bool
  | .phase_shift _ _ => true
  | _ => false

/-- Whether a call is a SWAP. -/
def primitive_call.is_swap : primitive_call → Bool
  | .swap _ _ => true
  | _ => false

/-- The expression `1ULL << q` where the shift count is not known to be below 64: the shift
is undefined for `q ≥ 64`. -/
def shl_one_checked (q : Nat) : Option Nat := if q < 64 then some (1 <<< q) else none

/-- A loop `for (std::size_t j = start; j < start + count; ++j) body` over the list of calls
issued so far; `none` as soon as an iteration is undefined. -/
def for_from {σ : Type} (body : σ → Nat → Option σ) (start : Nat) : Nat → σ → Option σ
  | 0, s => some s
  | count + 1, s => (for_from body start count s).bind fun s => body s (start + count)

/-- Body of the loop of `apply_qft_decomposed` over `j`: the phase shift on `qubits[i]` of
angle `(inverse ? -1.0 : 1.0) * M_PI / static_cast<double>(1ULL << (j - i))`. -/
noncomputable def qft_decomposed_phase_body (qubits : List Nat) (inverse : Bool) (i : Nat)
    (calls : List primitive_call) (j : Nat) : Option (List primitive_call) :=
  match shl_one_checked (j - i), qubits[i]? with
  | some power, some q =>
    some (calls ++ [.phase_shift ((if inverse then -1 else 1) * Real.pi / (power : ℝ)) q])
  | _, _ => none

/-- Body of the loop of `apply_qft_decomposed` over `i`: the Hadamard on `qubits[i]`, then the
loop over `j` from `i + 1` to `n - 1`. -/
noncomputable def qft_decomposed_rotation_body (qubits : List Nat) (inverse : Bool)
    (calls : List primitive_call) (i : Nat) : Option (List primitive_call) :=
  match qubits[i]? with
  | some q =>
    for_from (qft_decomposed_phase_body qubits inverse i) (i + 1) (qubits.length - (i + 1))
      (calls ++ [.hadamard q])
  | none => none

/-- Body of the final loop of `apply_qft_decomposed`: the SWAP of `qubits[i]` and
`qubits[n - 1 - i]`. -/
def qft_decomposed_swap_body (qubits : List Nat) (calls : List primitive_call) (i : Nat) :
    Option (List primitive_call) :=
  match qubits[i]?, qubits[qubits.length - 1 - i]? with
  | some q1, some q2 => some (calls ++ [.swap q1 q2])
  | _, _ => none

/-- The function `apply_qft_decomposed(state, len, qubits, inverse)`, as the sequence of calls
it makes to the primitives of `gates.hh`, in order; the sequence does not depend on `state`
or `len`, and the primitives, which are not among the sources, are taken to return. The
result is `none` when the behaviour is undefined. -/
noncomputable def apply_qft_decomposed (qubits : List Nat) (inverse : Bool) :
    Option (List primitive_call) :=
  let n := qubits.length
  if n = 0 then some []
  else
    (for_from (qft_decomposed_rotation_body qubits inverse) 0 n []).bind fun calls =>
      if !inverse then for_from (qft_decomposed_swap_body qubits) 0 (n / 2) calls
      else some calls

/-- The sequence of calls the description of the decomposed transform asks for: for
`i = 0, …, n - 1` one Hadamard on `qubits[i]` followed by one phase shift on `qubits[i]` of
angle `± π / 2 ^ (j - i)` for each `j = i + 1, …, n - 1`; then, when not inverse, the SWAPs of
`qubits[k]` and `qubits[n - 1 - k]` for `k = 0, …, ⌊n / 2⌋ - 1`. -/
noncomputable def qft_decomposed_expected (qubits : List Nat) (inverse : Bool) :
    List primitive_call :=
  (List.range qubits.length).flatMap (fun i =>
      primitive_call.hadamard (qubits.getD i 0) ::
        (List.range' (i + 1) (qubits.length - (i + 1))).map (fun j =>
          primitive_call.phase_shift ((if inverse then -1 else 1) * Real.pi / 2 ^ (j - i))
            (qubits.getD i 0))) ++
    if inverse then []
    else (List.range (qubits.length / 2)).map (fun k =>
      primitive_call.swap (qubits.getD k 0) (qubits.getD (qubits.length - 1 - k) 0))

/-! ## The Hadamard transform on amplitude functions -/

/-- The amplitudes of a state vector as a function of the index, zero outside the vector. -/
def amplitudes (state : List ℂ) : Nat → ℂ := fun k => state.getD k 0

/-- The action of `apply_hadamard` on qubit `q`, on amplitude functions. -/
noncomputable def hadamard_fn (q : Nat) (g : Nat → ℂ) : Nat → ℂ := fun k =>
  if Nat.testBit k q then (g (k ^^^ 2 ^ q) - g k) / Real.sqrt 2
  else (g k + g (k ^^^ 2 ^ q)) / Real.sqrt 2

/-- The action of `apply_hadamard` on the qubits `0, …, m - 1` in this order. -/
noncomputable def hadamard_all : Nat → (Nat → ℂ) → Nat → ℂ
  | 0, g => g
  | m + 1, g => hadamard_fn m (hadamard_all m g)

/-! ## The angle of the phase factor in binary64 arithmetic -/

/-- The integer nearest to a rational number, the even one of the two when the number lies
half-way between two integers. -/
def round_half_even (y : ℚ) : ℤ :=
  if y - ⌊y⌋ < 1 / 2 then ⌊y⌋
  else if 1 / 2 < y - ⌊y⌋ then ⌊y⌋ + 1
  else if ⌊y⌋ % 2 = 0 then ⌊y⌋ else ⌊y⌋ + 1

/-- The value of type `double` (IEEE 754 binary64) that an exact result is rounded to: the
nearest number with a significand of 53 bits, ties to the even significand. The exponent is
not bounded here; every value of the computation of `qft_phase_factor` is zero or lies
between `2 ^ (-62)` and `2 ^ 68`, well inside the range of normal binary64 numbers. -/
def round_double (x : ℚ) : ℚ :=
  if x = 0 then 0
  else round_half_even (x / 2 ^ (Int.log 2 |x| - 52)) * 2 ^ (Int.log 2 |x| - 52)

/-- The constant `M_PI` of type `double`: the binary64 number nearest to π, with the bits
`0x400921FB54442D18`. -/
def M_PI : ℚ := 884279719003555 / 281474976710656

/-- The variable `angle` of `qft_phase_factor(k, n, N)` as the source computes it:
`2.0 * M_PI * static_cast<double>(k * n) / static_cast<double>(1ULL << N)` with the 64-bit
product `k * n` and every conversion, product and quotient rounded to `double`. -/
def qft_angle_double (k n N : Nat) : ℚ :=
  round_double
    (round_double (round_double (2 * M_PI) * round_double (((k * n) % 2 ^ 64 : Nat) : ℚ)) /
      round_double ((shl_one N : Nat) : ℚ))

/-- The function `qft_phase_factor(k, n, N)` with the angle in binary64 arithmetic and the
functions `cos` and `sin` exact. -/
noncomputable def qft_phase_factor_double (k n N : Nat) : ℂ :=
  ⟨Real.cos (qft_angle_double k n N : ℝ), Real.sin (qft_angle_double k n N : ℝ)⟩

/-! ## Arithmetic facts -/

theorem floor_log2_eq_log2 (fuel n : Nat) (h : n ≤ fuel) : floor_log2 fuel n = Nat.log2 n := by
  induction fuel generalizing n with
  | zero =>
    have hn : n = 0 := by omega
    subst hn
    rw [Nat.log2]
    simp [floor_log2]
  | succ fuel ih =>
    rw [Nat.log2]
    simp only [floor_log2]
    by_cases h2 : 2 ≤ n
    · have hle : n / 2 ≤ fuel := by omega
      simp [h2, ih (n / 2) hle]
    · simp [h2]

theorem log2_size_t_two_pow (N : Nat) : log2_size_t (2 ^ N) = some N := by
  have hpos : 2 ^ N ≠ 0 := by positivity
  simp [log2_size_t, hpos, floor_log2_eq_log2, Nat.log2_two_pow]

theorem log2_size_t_of_pos (len : Nat) (h : len ≠ 0) : log2_size_t len = some (Nat.log2 len) := by
  simp [log2_size_t, h, floor_log2_eq_log2]

theorem log2_lt_two_pow (N k : Nat) : log2_lt (2 ^ N) k = decide (N < k) := by
  simp only [log2_lt]
  congr 1
  exact propext (Nat.pow_lt_pow_iff_right (by norm_num))

theorem shl_one_lt (t N : Nat) (h : t < N) : shl_one t < 2 ^ N := by
  have h1 : (1 <<< t) % 2 ^ 64 ≤ 1 <<< t := Nat.mod_le _ _
  have h2 : 1 <<< t = 2 ^ t := by simp [Nat.shiftLeft_eq]
  have h3 : 2 ^ t < 2 ^ N := Nat.pow_lt_pow_right (by norm_num) h
  unfold shl_one
  omega

theorem xor_shl_one_lt (k t N : Nat) (hk : k < 2 ^ N) (h : t < N) :
    k ^^^ shl_one t < 2 ^ N :=
  Nat.xor_lt_two_pow hk (shl_one_lt t N h)

/-! ## The pair loop -/

theorem pair_index_zero (cond : Nat → Bool) (f : Nat → Nat) (k : Nat) :
    pair_index cond f 0 k = k := by
  simp [pair_index]

theorem pair_index_succ_of_skip (cond : Nat → Bool) (f : Nat → Nat) (m k : Nat)
    (h : ¬ (cond m = true ∧ m < f m)) :
    pair_index cond f (m + 1) k = pair_index cond f m k := by
  unfold pair_index
  have hiff : ((k < m + 1 ∧ cond k = true ∧ k < f k) ∨
        (f k < m + 1 ∧ cond (f k) = true ∧ f k < f (f k))) ↔
      ((k < m ∧ cond k = true ∧ k < f k) ∨ (f k < m ∧ cond (f k) = true ∧ f k < f (f k))) := by
    constructor
    · rintro (⟨h1, h2, h3⟩ | ⟨h1, h2, h3⟩)
      · by_cases hk : k = m
        · subst hk; exact absurd ⟨h2, h3⟩ h
        · exact Or.inl ⟨by omega, h2, h3⟩
      · by_cases hk : f k = m
        · rw [hk] at h2 h3; exact absurd ⟨h2, h3⟩ h
        · exact Or.inr ⟨by omega, h2, h3⟩
    · rintro (⟨h1, h2, h3⟩ | ⟨h1, h2, h3⟩)
      · exact Or.inl ⟨by omega, h2, h3⟩
      · exact Or.inr ⟨by omega, h2, h3⟩
  simp only [hiff]

theorem pair_index_succ_of_other (cond : Nat → Bool) (f : Nat → Nat) (m k : Nat)
    (hkm : k ≠ m) (hfk : f k ≠ m) :
    pair_index cond f (m + 1) k = pair_index cond f m k := by
  unfold pair_index
  have e1 : k < m + 1 ↔ k < m := by omega
  have e2 : f k < m + 1 ↔ f k < m := by omega
  simp only [e1, e2]

theorem pair_index_succ_self (cond : Nat → Bool) (f : Nat → Nat) (m : Nat)
    (hc : cond m = true) (hlt : m < f m) :
    pair_index cond f (m + 1) m = f m := by
  unfold pair_index
  rw [if_pos (Or.inl ⟨by omega, hc, hlt⟩)]

theorem pair_index_succ_partner (cond : Nat → Bool) (f : Nat → Nat) (m : Nat)
    (hc : cond m = true) (hlt : m < f m) (hff : f (f m) = m) :
    pair_index cond f (m + 1) (f m) = m := by
  unfold pair_index
  rw [if_pos (Or.inr ⟨by omega, by rw [hff]; exact hc, by rw [hff]; exact hlt⟩), hff]

theorem pair_index_self_of_lt (cond : Nat → Bool) (f : Nat → Nat) (m : Nat) (hlt : m < f m) :
    pair_index cond f m m = m := by
  unfold pair_index
  rw [if_neg]
  rintro (⟨h1, _, _⟩ | ⟨h1, _, _⟩) <;> omega

theorem pair_index_partner_of_lt (cond : Nat → Bool) (f : Nat → Nat) (m : Nat) (hlt : m < f m)
    (hff : f (f m) = m) :
    pair_index cond f m (f m) = f m := by
  unfold pair_index
  rw [if_neg]
  rw [hff]
  rintro (⟨h1, _, _⟩ | ⟨h1, _, _⟩) <;> omega

theorem swap_amplitudes_returned {α : Type} (s : List α) (i j : Nat) (hi : i < s.length)
    (hj : j < s.length) :
    swap_amplitudes s i j = .returned ((s.set i s[j]).set j s[i]) := by
  simp [swap_amplitudes, List.getElem?_eq_getElem hi, List.getElem?_eq_getElem hj]

/-- Loop invariant of the pair loop: after the iterations `0, …, m - 1` the loop has returned,
the buffer has kept its length, and position `k` holds the input amplitude of index
`pair_index cond f m k`. -/
theorem for_index_pair {α : Type} (cond : Nat → Bool) (f : Nat → Nat) (len : Nat)
    (state : List α) (hlen : state.length = len) (hf : ∀ k, k < len → f k < len)
    (hff : ∀ k, k < len → f (f k) = k) (m : Nat) (hm : m ≤ len) :
    ∃ s, for_index (pair_body cond f) m state = .returned s ∧ s.length = len ∧
      ∀ k, k < len → s[k]? = state[pair_index cond f m k]? := by
  induction m with
  | zero =>
    exact ⟨state, rfl, hlen, fun k _ => by rw [pair_index_zero]⟩
  | succ m ih =>
    obtain ⟨s, hrun, hslen, hs⟩ := ih (by omega)
    have hmlen : m < len := by omega
    simp only [for_index, hrun, Outcome.andThen, pair_body]
    by_cases hc : cond m = true ∧ m < f m
    · obtain ⟨hc1, hc2⟩ := hc
      have hfm : f m < len := hf m hmlen
      rw [if_pos hc1, if_pos hc2,
        swap_amplitudes_returned s m (f m) (by omega) (by omega)]
      refine ⟨_, rfl, by simp [hslen], ?_⟩
      intro k hk
      have hsm : s[m]? = state[m]? := by
        rw [hs m hmlen, pair_index_self_of_lt cond f m hc2]
      have hsf : s[f m]? = state[f m]? := by
        rw [hs (f m) hfm, pair_index_partner_of_lt cond f m hc2 (hff m hmlen)]
      have hgm : some s[m] = s[m]? := (List.getElem?_eq_getElem (by omega)).symm
      have hgf : some s[f m] = s[f m]? := (List.getElem?_eq_getElem (by omega)).symm
      by_cases hk1 : k = f m
      · subst hk1
        rw [pair_index_succ_partner cond f m hc1 hc2 (hff m hmlen)]
        simp [List.getElem?_set, hslen, hfm, hgm, hsm]
      · by_cases hk2 : k = m
        · subst hk2
          rw [pair_index_succ_self cond f k hc1 hc2]
          simp [List.getElem?_set, hslen, hmlen, hgf, hsf, Ne.symm hk1]
        · have hfk : f k ≠ m := by
            intro h
            apply hk1
            rw [← h, hff k hk]
          rw [pair_index_succ_of_other cond f m k hk2 hfk, ← hs k hk]
          simp [List.getElem?_set, Ne.symm hk1, Ne.symm hk2]
    · have hbody : (if cond m = true then
            if m < f m then swap_amplitudes s m (f m) else Outcome.returned s
          else Outcome.returned s) = Outcome.returned s := by
        by_cases h1 : cond m = true
        · have h2 : ¬ m < f m := fun h => hc ⟨h1, h⟩
          rw [if_pos h1, if_neg h2]
        · rw [if_neg h1]
      rw [hbody]
      refine ⟨s, rfl, hslen, ?_⟩
      intro k hk
      rw [pair_index_succ_of_skip cond f m k hc]
      exact hs k hk

theorem pair_index_lt (cond : Nat → Bool) (f : Nat → Nat) (len k : Nat)
    (hf : ∀ k, k < len → f k < len) (hk : k < len) : pair_index cond f len k < len := by
  unfold pair_index
  split
  · exact hf k hk
  · exact hk

theorem pair_index_involutive (cond : Nat → Bool) (f : Nat → Nat) (len k : Nat)
    (hff : ∀ k, k < len → f (f k) = k) (hk : k < len) :
    pair_index cond f len (pair_index cond f len k) = k := by
  have hffk := hff k hk
  by_cases hP : (k < len ∧ cond k = true ∧ k < f k) ∨
      (f k < len ∧ cond (f k) = true ∧ f k < f (f k))
  · have h1 : pair_index cond f len k = f k := by
      unfold pair_index
      rw [if_pos hP]
    rw [h1]
    unfold pair_index
    rw [hffk] at hP ⊢
    rw [if_pos hP.symm]
  · have h1 : pair_index cond f len k = k := by
      unfold pair_index
      rw [if_neg hP]
    rw [h1, h1]

/-- Running the pair loop over the whole buffer twice restores the buffer, for any condition
and any map `f` that is an involution of the index range. -/
theorem for_index_pair_twice {α : Type} (cond : Nat → Bool) (f : Nat → Nat) (len : Nat)
    (state : List α) (hlen : state.length = len) (hf : ∀ k, k < len → f k < len)
    (hff : ∀ k, k < len → f (f k) = k) :
    (for_index (pair_body cond f) len state).andThen
      (fun s => for_index (pair_body cond f) len s) = .returned state := by
  obtain ⟨s1, hrun1, hlen1, hs1⟩ :=
    for_index_pair cond f len state hlen hf hff len (Nat.le_refl _)
  obtain ⟨s2, hrun2, hlen2, hs2⟩ :=
    for_index_pair cond f len s1 hlen1 hf hff len (Nat.le_refl _)
  simp only [hrun1, Outcome.andThen, hrun2]
  congr 1
  apply List.ext_getElem?
  intro k
  by_cases hk : k < len
  · rw [hs2 k hk, hs1 _ (pair_index_lt cond f len k hf hk),
      pair_index_involutive cond f len k hff hk]
  · rw [List.getElem?_eq_none (by omega), List.getElem?_eq_none (by omega)]

/-! ## The phase loop -/

theorem negate_amplitude_returned {α : Type} [Ring α] (s : List α) (i : Nat)
    (hi : i < s.length) : negate_amplitude s i = .returned (s.set i (s[i] * (-1))) := by
  simp [negate_amplitude, List.getElem?_eq_getElem hi]

/-- Loop invariant of the phase loop: after the iterations `0, …, m - 1` the loop has returned,
the buffer has kept its length, and exactly the amplitudes at the indices `k < m` with `cond k`
have been multiplied by `-1`. -/
theorem for_index_phase {α : Type} [Ring α] (cond : Nat → Bool) (len : Nat) (state : List α)
    (hlen : state.length = len) (m : Nat) (hm : m ≤ len) :
    ∃ s, for_index (phase_body cond) m state = .returned s ∧ s.length = len ∧
      ∀ k, k < len →
        s[k]? = state[k]?.map (fun a => if k < m ∧ cond k = true then a * (-1) else a) := by
  induction m with
  | zero =>
    refine ⟨state, rfl, hlen, fun k _ => ?_⟩
    simp
  | succ m ih =>
    obtain ⟨s, hrun, hslen, hs⟩ := ih (by omega)
    have hmlen : m < len := by omega
    simp only [for_index, hrun, Outcome.andThen, phase_body]
    by_cases hc : cond m = true
    · rw [if_pos hc, negate_amplitude_returned s m (by omega)]
      refine ⟨_, rfl, by simp [hslen], ?_⟩
      intro k hk
      by_cases hkm : k = m
      · subst hkm
        have hsk := hs k hk
        have hget : some s[k] = s[k]? := (List.getElem?_eq_getElem (by omega)).symm
        have hst : state[k]? = some (state[k]) := List.getElem?_eq_getElem (by omega)
        rw [hst] at hsk ⊢
        rw [← hget] at hsk
        simp at hsk
        simp [List.getElem?_set, hslen, hk, hc, hsk]
      · have e : (k < m + 1 ∧ cond k = true) ↔ (k < m ∧ cond k = true) := by
          constructor
          · rintro ⟨h1, h2⟩; exact ⟨by omega, h2⟩
          · rintro ⟨h1, h2⟩; exact ⟨by omega, h2⟩
        simp only [e]
        rw [← hs k hk]
        simp [List.getElem?_set, Ne.symm hkm]
    · rw [if_neg hc]
      refine ⟨s, rfl, hslen, ?_⟩
      intro k hk
      have e : (k < m + 1 ∧ cond k = true) ↔ (k < m ∧ cond k = true) := by
        constructor
        · rintro ⟨h1, h2⟩
          refine ⟨?_, h2⟩
          by_cases hkm : k = m
          · subst hkm; exact absurd h2 hc
          · omega
        · rintro ⟨h1, h2⟩; exact ⟨by omega, h2⟩
      simp only [e]
      exact hs k hk

/-- Running the phase loop over the whole buffer twice restores the buffer. -/
theorem for_index_phase_twice {α : Type} [Ring α] (cond : Nat → Bool) (len : Nat)
    (state : List α) (hlen : state.length = len) :
    (for_index (phase_body cond) len state).andThen
      (fun s => for_index (phase_body cond) len s) = .returned state := by
  obtain ⟨s1, hrun1, hlen1, hs1⟩ := for_index_phase cond len state hlen len (Nat.le_refl _)
  obtain ⟨s2, hrun2, hlen2, hs2⟩ := for_index_phase cond len s1 hlen1 len (Nat.le_refl _)
  simp only [hrun1, Outcome.andThen, hrun2]
  congr 1
  apply List.ext_getElem?
  intro k
  by_cases hk : k < len
  · rw [hs2 k hk, hs1 k hk]
    have hst : state[k]? = some (state[k]) := List.getElem?_eq_getElem (by omega)
    rw [hst]
    by_cases hc : cond k = true
    · simp [hk, hc]
    · simp [hc]
  · rw [List.getElem?_eq_none (by omega), List.getElem?_eq_none (by omega)]

/-! ## The gates as instances of the two loops -/

theorem bit_is_set_eq_testBit (i q : Nat) : bit_is_set i q = Nat.testBit i q := by
  simp [bit_is_set, Nat.testBit, Nat.and_comm]

theorem are_controls_set_pair (i c1 c2 : Nat) :
    are_controls_set i [c1, c2] = (bit_is_set i c1 && bit_is_set i c2) := by
  simp only [are_controls_set, bit_is_set]
  generalize (i >>> c1 &&& 1) = x
  generalize (i >>> c2 &&& 1) = y
  by_cases h1 : x = 0 <;> by_cases h2 : y = 0 <;> simp [h1, h2, bne]

theorem toffoli_body_eq_pair_body {α : Type} (ctrl1 ctrl2 target : Nat) :
    @toffoli_body α ctrl1 ctrl2 target =
      pair_body (fun i => bit_is_set i ctrl1 && bit_is_set i ctrl2)
        (fun i => i ^^^ shl_one target) := rfl

theorem fredkin_body_eq_pair_body {α : Type} (ctrl target1 target2 : Nat) :
    @fredkin_body α ctrl target1 target2 =
      pair_body (fun i => bit_is_set i ctrl)
        (fun i => (i ^^^ shl_one target1) ^^^ shl_one target2) := rfl

theorem multi_controlled_x_body_eq_pair_body {α : Type} (controls : List Nat) (target : Nat) :
    @multi_controlled_x_body α controls target =
      pair_body (fun i => are_controls_set i controls) (fun i => i ^^^ shl_one target) := rfl

theorem multi_controlled_z_body_eq_phase_body {α : Type} [Ring α] (controls : List Nat)
    (target : Nat) :
    @multi_controlled_z_body α _ controls target =
      phase_body (fun i => are_controls_set i controls && bit_is_set i target) := by
  funext state i
  simp only [multi_controlled_z_body, phase_body]
  by_cases h1 : are_controls_set i controls = true <;>
    by_cases h2 : bit_is_set i target = true <;> simp [h1, h2]

theorem toffoli_body_eq_multi_controlled_x_body {α : Type} (ctrl1 ctrl2 target : Nat) :
    @toffoli_body α ctrl1 ctrl2 target = multi_controlled_x_body [ctrl1, ctrl2] target := by
  funext state i
  simp only [toffoli_body, multi_controlled_x_body, are_controls_set_pair]

theorem apply_toffoli_gate_of_size {α : Type} (N : Nat) (hN : 3 ≤ N) (s : List α)
    (ctrl1 ctrl2 target : Nat) :
    apply_toffoli_gate s (2 ^ N) ctrl1 ctrl2 target =
      for_index (pair_body (fun i => bit_is_set i ctrl1 && bit_is_set i ctrl2)
        (fun i => i ^^^ shl_one target)) (2 ^ N) s := by
  have hcheck : log2_lt (2 ^ N) 3 = false := by
    rw [log2_lt_two_pow]
    exact decide_eq_false (by omega)
  simp only [apply_toffoli_gate, hcheck, toffoli_body_eq_pair_body]
  rfl

theorem apply_fredkin_gate_of_size {α : Type} (N : Nat) (hN : 3 ≤ N) (s : List α)
    (ctrl target1 target2 : Nat) :
    apply_fredkin_gate s (2 ^ N) ctrl target1 target2 =
      for_index (pair_body (fun i => bit_is_set i ctrl)
        (fun i => (i ^^^ shl_one target1) ^^^ shl_one target2)) (2 ^ N) s := by
  have hcheck : log2_lt (2 ^ N) 3 = false := by
    rw [log2_lt_two_pow]
    exact decide_eq_false (by omega)
  simp only [apply_fredkin_gate, hcheck, fredkin_body_eq_pair_body]
  rfl

theorem apply_multi_controlled_x_of_size {α : Type} (N : Nat) (controls : List Nat)
    (hN : controls.length + 1 ≤ N) (s : List α) (target : Nat) :
    apply_multi_controlled_x s (2 ^ N) controls target =
      for_index (pair_body (fun i => are_controls_set i controls)
        (fun i => i ^^^ shl_one target)) (2 ^ N) s := by
  have hcheck : ¬ N < controls.length + 1 := by omega
  simp only [apply_multi_controlled_x, log2_size_t_two_pow, if_neg hcheck,
    multi_controlled_x_body_eq_pair_body]

theorem apply_multi_controlled_z_of_size {α : Type} [Ring α] (N : Nat) (controls : List Nat)
    (hN : controls.length + 1 ≤ N) (s : List α) (target : Nat) :
    apply_multi_controlled_z s (2 ^ N) controls target =
      for_index (phase_body (fun i => are_controls_set i controls && bit_is_set i target))
        (2 ^ N) s := by
  have hcheck : ¬ N < controls.length + 1 := by omega
  simp only [apply_multi_controlled_z, log2_size_t_two_pow, if_neg hcheck,
    multi_controlled_z_body_eq_phase_body]

theorem xor_shl_one_involutive (k t : Nat) : (k ^^^ shl_one t) ^^^ shl_one t = k :=
  Nat.xor_cancel_right _ _

theorem xor_two_shl_one_lt (k t1 t2 N : Nat) (hk : k < 2 ^ N) (h1 : t1 < N) (h2 : t2 < N) :
    (k ^^^ shl_one t1) ^^^ shl_one t2 < 2 ^ N :=
  Nat.xor_lt_two_pow (Nat.xor_lt_two_pow hk (shl_one_lt t1 N h1)) (shl_one_lt t2 N h2)

theorem xor_two_shl_one_involutive (k t1 t2 : Nat) :
    (((k ^^^ shl_one t1) ^^^ shl_one t2) ^^^ shl_one t1) ^^^ shl_one t2 = k := by
  rw [Nat.xor_assoc (k ^^^ shl_one t1), Nat.xor_comm (shl_one t2), ← Nat.xor_assoc,
    Nat.xor_cancel_right, Nat.xor_cancel_right]

theorem swap_amplitudes_has_exited {α : Type} (s : List α) (i j : Nat) :
    (swap_amplitudes s i j).has_exited = false := by
  unfold swap_amplitudes
  split <;> rfl

theorem negate_amplitude_has_exited {α : Type} [Ring α] (s : List α) (i : Nat) :
    (negate_amplitude s i).has_exited = false := by
  unfold negate_amplitude
  split <;> rfl

theorem pair_body_has_exited {α : Type} (cond : Nat → Bool) (f : Nat → Nat) (s : List α)
    (i : Nat) : (pair_body cond f s i).has_exited = false := by
  unfold pair_body
  split
  · split
    · exact swap_amplitudes_has_exited s i (f i)
    · rfl
  · rfl

theorem phase_body_has_exited {α : Type} [Ring α] (cond : Nat → Bool) (s : List α) (i : Nat) :
    (phase_body cond s i).has_exited = false := by
  unfold phase_body
  split
  · exact negate_amplitude_has_exited s i
  · rfl

/-- A loop whose body never exits never exits. -/
theorem for_index_has_exited {α : Type} (body : List α → Nat → Outcome α)
    (hbody : ∀ s i, (body s i).has_exited = false) (m : Nat) (state : List α) :
    (for_index body m state).has_exited = false := by
  induction m with
  | zero => rfl
  | succ m ih =>
    simp only [for_index]
    cases h : for_index body m state with
    | returned s => exact hbody s m
    | exited d s =>
      rw [h] at ih
      exact absurd ih (by simp [Outcome.has_exited])
    | undefined => rfl

theorem relabel_of_not_exited {α : Type} (name : String) (r : Outcome α)
    (h : r.has_exited = false) : r.relabel name = r := by
  cases r with
  | returned s => rfl
  | exited d s => exact absurd h (by simp [Outcome.has_exited])
  | undefined => rfl

theorem relabel_has_exited {α : Type} (name : String) (r : Outcome α) :
    (r.relabel name).has_exited = r.has_exited := by
  cases r <;> rfl

/-! ## Toffoli as a multi-controlled X -/

/-- C1: for every length, state and operands, `apply_toffoli_gate(state, len, c1, c2, t)` and
`apply_multi_controlled_x(state, len, [c1, c2], t)` have the same outcome up to the gate name
printed in the diagnostic: one returns a vector exactly when the other returns that same
vector, and one exits on the size check exactly when the other does, reporting the same
required and actual qubit counts. -/
theorem toffoli_eq_multi_controlled_x {α : Type} (state : List α) (len c1 c2 t : Nat) :
    (apply_toffoli_gate state len c1 c2 t).relabel "Multi-controlled X" =
        apply_multi_controlled_x state len [c1, c2] t ∧
      (∀ s, apply_toffoli_gate state len c1 c2 t = .returned s ↔
        apply_multi_controlled_x state len [c1, c2] t = .returned s) ∧
      (apply_toffoli_gate state len c1 c2 t).has_exited =
        (apply_multi_controlled_x state len [c1, c2] t).has_exited := by
  have key : (apply_toffoli_gate state len c1 c2 t).relabel "Multi-controlled X" =
      apply_multi_controlled_x state len [c1, c2] t := by
    by_cases h0 : len = 0
    · subst h0
      simp [apply_toffoli_gate, apply_multi_controlled_x, log2_lt, log2_size_t,
        Outcome.relabel]
    · have hlog : Nat.log2 len < 3 ↔ len < 2 ^ 3 := Nat.log2_lt h0
      simp only [apply_toffoli_gate, apply_multi_controlled_x, log2_lt,
        log2_size_t_of_pos len h0, List.length_cons, List.length_nil]
      by_cases h8 : len < 2 ^ 3
      · have hl : Nat.log2 len < 0 + 1 + 1 + 1 := hlog.mpr h8
        rw [if_pos (decide_eq_true h8), if_pos hl]
        rfl
      · have hl : ¬ Nat.log2 len < 0 + 1 + 1 + 1 := fun h => h8 (hlog.mp h)
        rw [if_neg (by simpa using h8), if_neg hl, toffoli_body_eq_multi_controlled_x_body,
          multi_controlled_x_body_eq_pair_body]
        exact relabel_of_not_exited _ _
          (for_index_has_exited _ (pair_body_has_exited _ _) len state)
  refine ⟨key, ?_, ?_⟩
  · intro s
    rw [← key]
    cases apply_toffoli_gate state len c1 c2 t <;> simp [Outcome.relabel]
  · rw [← key, relabel_has_exited]

/-! ## Self-inverse laws -/

/-- C2: for every `N ≥ 3`, every state vector of length `2 ^ N` and all `ctrl1`, `ctrl2`,
`target` below `N`, two successive calls of `apply_toffoli_gate` with the same operands both
return, and the second returns exactly the original state vector. -/
theorem toffoli_twice {α : Type} (N : Nat) (state : List α) (ctrl1 ctrl2 target : Nat)
    (hN : 3 ≤ N) (hlen : state.length = 2 ^ N) (_h1 : ctrl1 < N) (_h2 : ctrl2 < N)
    (ht : target < N) :
    (apply_toffoli_gate state (2 ^ N) ctrl1 ctrl2 target).andThen
      (fun s => apply_toffoli_gate s (2 ^ N) ctrl1 ctrl2 target) = .returned state := by
  simp only [apply_toffoli_gate_of_size N hN]
  exact for_index_pair_twice _ _ (2 ^ N) state hlen
    (fun k hk => xor_shl_one_lt k target N hk ht)
    (fun k _ => xor_shl_one_involutive k target)

theorem toffoli_twice_witness :
    (apply_toffoli_gate [10, 11, 12, 13, 14, 15, 16, (17 : Int)] (2 ^ 3) 0 1 2).andThen
      (fun s => apply_toffoli_gate s (2 ^ 3) 0 1 2)
      = .returned [10, 11, 12, 13, 14, 15, 16, 17] :=
  toffoli_twice 3 [10, 11, 12, 13, 14, 15, 16, 17] 0 1 2 (by decide) (by decide) (by decide)
    (by decide) (by decide)

/-- C3: for every `N ≥ 3`, every state vector of length `2 ^ N` and all `ctrl`, `target1`,
`target2` below `N`, two successive calls of `apply_fredkin_gate` with the same operands both
return, and the second returns exactly the original state vector. -/
theorem fredkin_twice {α : Type} (N : Nat) (state : List α) (ctrl target1 target2 : Nat)
    (hN : 3 ≤ N) (hlen : state.length = 2 ^ N) (_hc : ctrl < N) (h1 : target1 < N)
    (h2 : target2 < N) :
    (apply_fredkin_gate state (2 ^ N) ctrl target1 target2).andThen
      (fun s => apply_fredkin_gate s (2 ^ N) ctrl target1 target2) = .returned state := by
  simp only [apply_fredkin_gate_of_size N hN]
  exact for_index_pair_twice _ _ (2 ^ N) state hlen
    (fun k hk => xor_two_shl_one_lt k target1 target2 N hk h1 h2)
    (fun k _ => xor_two_shl_one_involutive k target1 target2)

theorem fredkin_twice_witness :
    (apply_fredkin_gate [10, 11, 12, 13, 14, 15, 16, (17 : Int)] (2 ^ 3) 2 0 1).andThen
      (fun s => apply_fredkin_gate s (2 ^ 3) 2 0 1)
      = .returned [10, 11, 12, 13, 14, 15, 16, 17] :=
  fredkin_twice 3 [10, 11, 12, 13, 14, 15, 16, 17] 2 0 1 (by decide) (by decide) (by decide)
    (by decide) (by decide)

/-- C4: for every register of `N` qubits, every control list with `|controls| + 1 ≤ N` and
entries below `N`, and every target below `N`, two successive calls of
`apply_multi_controlled_x` with the same operands both return, and the second returns exactly
the original state vector. -/
theorem multi_controlled_x_twice {α : Type} (N : Nat) (state : List α) (controls : List Nat)
    (target : Nat) (hlen : state.length = 2 ^ N) (hsize : controls.length + 1 ≤ N)
    (_hctrl : ∀ c, c ∈ controls → c < N) (ht : target < N) :
    (apply_multi_controlled_x state (2 ^ N) controls target).andThen
      (fun s => apply_multi_controlled_x s (2 ^ N) controls target) = .returned state := by
  simp only [apply_multi_controlled_x_of_size N controls hsize]
  exact for_index_pair_twice _ _ (2 ^ N) state hlen
    (fun k hk => xor_shl_one_lt k target N hk ht)
    (fun k _ => xor_shl_one_involutive k target)

theorem multi_controlled_x_twice_witness :
    (apply_multi_controlled_x [10, 11, 12, 13, 14, 15, 16, (17 : Int)] (2 ^ 3) [0, 1] 2).andThen
      (fun s => apply_multi_controlled_x s (2 ^ 3) [0, 1] 2)
      = .returned [10, 11, 12, 13, 14, 15, 16, 17] :=
  multi_controlled_x_twice 3 [10, 11, 12, 13, 14, 15, 16, 17] [0, 1] 2 (by decide) (by decide)
    (by decide) (by decide)

/-- C5: for every register of `N` qubits, every control list with `|controls| + 1 ≤ N` and
entries below `N`, and every target below `N`, two successive calls of
`apply_multi_controlled_z` with the same operands both return, and the second returns exactly
the original state vector. -/
theorem multi_controlled_z_twice {α : Type} [Ring α] (N : Nat) (state : List α)
    (controls : List Nat) (target : Nat) (hlen : state.length = 2 ^ N)
    (hsize : controls.length + 1 ≤ N) (_hctrl : ∀ c, c ∈ controls → c < N)
    (_ht : target < N) :
    (apply_multi_controlled_z state (2 ^ N) controls target).andThen
      (fun s => apply_multi_controlled_z s (2 ^ N) controls target) = .returned state := by
  simp only [apply_multi_controlled_z_of_size N controls hsize]
  exact for_index_phase_twice _ (2 ^ N) state hlen

theorem multi_controlled_z_twice_witness :
    (apply_multi_controlled_z [10, 11, 12, 13, 14, 15, 16, (17 : Int)] (2 ^ 3) [0, 1] 2).andThen
      (fun s => apply_multi_controlled_z s (2 ^ 3) [0, 1] 2)
      = .returned [10, 11, 12, 13, 14, 15, 16, 17] :=
  multi_controlled_z_twice 3 [10, 11, 12, 13, 14, 15, 16, 17] [0, 1] 2 (by decide) (by decide)
    (by decide) (by decide)

/-! ## The concrete scenarios -/

/-- C6, as stated, fails: from amplitude 1 at index 6, `apply_toffoli_gate` with `ctrl1 = 0`,
`ctrl2 = 1`, `target = 2` does not return the state with amplitude 1 at index 7. -/
theorem toffoli_basis_six_not_seven :
    apply_toffoli_gate [0, 0, 0, 0, 0, 0, (1 : Int), 0] 8 0 1 2 ≠
      .returned [0, 0, 0, 0, 0, 0, 0, 1] := by
  decide

/-- C6 (amended): on a 3-qubit register (`len = 8`) whose only non-zero amplitude is `one` at
index 6, `apply_toffoli_gate` with `ctrl1 = 0`, `ctrl2 = 1`, `target = 2` returns the state
unchanged, with amplitude `one` at index 6 and `zero` at every other index: qubit `k` is bit
`k` of the index and bit 0 of the index 6 is clear, so the first control is not set. -/
theorem toffoli_basis_six {α : Type} (zero one : α) :
    apply_toffoli_gate [zero, zero, zero, zero, zero, zero, one, zero] 8 0 1 2 =
      .returned [zero, zero, zero, zero, zero, zero, one, zero] := by
  rfl

/-- C7, as stated, fails: from amplitude 1 at index 7, `apply_multi_controlled_x` with
controls `[0, 1]` and target 2 does not return the state with amplitude 1 at index 6. -/
theorem multi_controlled_x_basis_seven_not_six :
    apply_multi_controlled_x [0, 0, 0, 0, 0, 0, 0, (1 : Int)] 8 [0, 1] 2 ≠
      .returned [0, 0, 0, 0, 0, 0, 1, 0] := by
  decide

/-- C7 (amended): on a 3-qubit register (`len = 8`) whose only non-zero amplitude is `one` at
index 7, `apply_multi_controlled_x` with controls `[0, 1]` and target 2 returns the state with
amplitude `one` at index 3 (bit 2 of the index is flipped) and `zero` at every other index. -/
theorem multi_controlled_x_basis_seven {α : Type} (zero one : α) :
    apply_multi_controlled_x [zero, zero, zero, zero, zero, zero, zero, one] 8 [0, 1] 2 =
      .returned [zero, zero, zero, one, zero, zero, zero, zero] := by
  rfl

/-- C8: on a 3-qubit register with amplitude `one` at index 4 only (control bit 2 set, target
bits 0 and 1 both clear), `apply_fredkin_gate` with `ctrl = 2`, `target1 = 0`, `target2 = 1`
moves the amplitude to index 7, although exchanging the equal bits 0 and 1 of the index 4
gives 4 again, so a controlled swap keeps the amplitude at index 4. -/
theorem fredkin_equal_target_bits {α : Type} (zero one : α) :
    apply_fredkin_gate [zero, zero, zero, zero, one, zero, zero, zero] (2 ^ 3) 2 0 1 =
        .returned [zero, zero, zero, zero, zero, zero, zero, one] ∧
      bit_is_set 4 2 = true ∧ exchange_bits 4 0 1 = 4 := by
  refine ⟨rfl, by decide, by decide⟩

/-! ## The size check -/

/-- C9: on a length `2 ^ N`, `apply_toffoli_gate` and `apply_fredkin_gate` exit on the size
check if and only if `N < 3`; when they do, the diagnostic names the gate, the required
minimum 3 and the actual qubit count `N`, and the state vector is the one passed in. -/
theorem toffoli_fredkin_size_check {α : Type} (N : Nat) (state : List α) (a b c : Nat) :
    ((apply_toffoli_gate state (2 ^ N) a b c).has_exited = true ↔ N < 3) ∧
      ((apply_fredkin_gate state (2 ^ N) a b c).has_exited = true ↔ N < 3) ∧
      (N < 3 → apply_toffoli_gate state (2 ^ N) a b c = .exited ⟨"Toffoli", 3, N⟩ state) ∧
      (N < 3 → apply_fredkin_gate state (2 ^ N) a b c = .exited ⟨"Fredkin", 3, N⟩ state) := by
  have ht : N < 3 → apply_toffoli_gate state (2 ^ N) a b c =
      .exited ⟨"Toffoli", 3, N⟩ state := by
    intro h
    simp [apply_toffoli_gate, log2_lt_two_pow, log2_size_t_two_pow, h]
  have hf : N < 3 → apply_fredkin_gate state (2 ^ N) a b c =
      .exited ⟨"Fredkin", 3, N⟩ state := by
    intro h
    simp [apply_fredkin_gate, log2_lt_two_pow, log2_size_t_two_pow, h]
  refine ⟨⟨fun h => ?_, fun h => ?_⟩, ⟨fun h => ?_, fun h => ?_⟩, ht, hf⟩
  · by_contra hN
    rw [apply_toffoli_gate_of_size N (by omega),
      for_index_has_exited _ (pair_body_has_exited _ _)] at h
    exact absurd h (by decide)
  · rw [ht h]; rfl
  · by_contra hN
    rw [apply_fredkin_gate_of_size N (by omega),
      for_index_has_exited _ (pair_body_has_exited _ _)] at h
    exact absurd h (by decide)
  · rw [hf h]; rfl

theorem toffoli_fredkin_size_check_witness :
    apply_toffoli_gate [1, 0, 0, (0 : Int)] (2 ^ 2) 0 1 2 =
        .exited ⟨"Toffoli", 3, 2⟩ [1, 0, 0, 0] ∧
      apply_fredkin_gate [1, 0, 0, (0 : Int)] (2 ^ 2) 0 1 2 =
        .exited ⟨"Fredkin", 3, 2⟩ [1, 0, 0, 0] :=
  ⟨(toffoli_fredkin_size_check 2 [1, 0, 0, 0] 0 1 2).2.2.1 (by decide),
    (toffoli_fredkin_size_check 2 [1, 0, 0, 0] 0 1 2).2.2.2 (by decide)⟩

/-- C10: on a length `2 ^ N` and for every control list, `apply_multi_controlled_x` and
`apply_multi_controlled_z` exit on the size check if and only if `N < |controls| + 1`; when
they do, the diagnostic names the gate, the required count `|controls| + 1` and the actual
qubit count `N`, and the state vector is the one passed in. -/
theorem multi_controlled_size_check {α : Type} [Ring α] (N : Nat) (state : List α)
    (controls : List Nat) (target : Nat) :
    ((apply_multi_controlled_x state (2 ^ N) controls target).has_exited = true ↔
        N < controls.length + 1) ∧
      ((apply_multi_controlled_z state (2 ^ N) controls target).has_exited = true ↔
        N < controls.length + 1) ∧
      (N < controls.length + 1 → apply_multi_controlled_x state (2 ^ N) controls target =
        .exited ⟨"Multi-controlled X", controls.length + 1, N⟩ state) ∧
      (N < controls.length + 1 → apply_multi_controlled_z state (2 ^ N) controls target =
        .exited ⟨"Multi-controlled Z", controls.length + 1, N⟩ state) := by
  have hx : N < controls.length + 1 →
      apply_multi_controlled_x state (2 ^ N) controls target =
        .exited ⟨"Multi-controlled X", controls.length + 1, N⟩ state := by
    intro h
    simp only [apply_multi_controlled_x, log2_size_t_two_pow, if_pos h]
  have hz : N < controls.length + 1 →
      apply_multi_controlled_z state (2 ^ N) controls target =
        .exited ⟨"Multi-controlled Z", controls.length + 1, N⟩ state := by
    intro h
    simp only [apply_multi_controlled_z, log2_size_t_two_pow, if_pos h]
  refine ⟨⟨fun h => ?_, fun h => ?_⟩, ⟨fun h => ?_, fun h => ?_⟩, hx, hz⟩
  · by_contra hN
    rw [apply_multi_controlled_x_of_size N controls (by omega),
      for_index_has_exited _ (pair_body_has_exited _ _)] at h
    exact absurd h (by decide)
  · rw [hx h]; rfl
  · by_contra hN
    rw [apply_multi_controlled_z_of_size N controls (by omega),
      for_index_has_exited _ (phase_body_has_exited _)] at h
    exact absurd h (by decide)
  · rw [hz h]; rfl

theorem multi_controlled_size_check_witness :
    apply_multi_controlled_x [1, 0, 0, (0 : Int)] (2 ^ 2) [0, 1] 1 =
        .exited ⟨"Multi-controlled X", 3, 2⟩ [1, 0, 0, 0] ∧
      apply_multi_controlled_z [1, 0, 0, (0 : Int)] (2 ^ 2) [0, 1] 1 =
        .exited ⟨"Multi-controlled Z", 3, 2⟩ [1, 0, 0, 0] :=
  ⟨(multi_controlled_size_check 2 [1, 0, 0, 0] [0, 1] 1).2.2.1 (by decide),
    (multi_controlled_size_check 2 [1, 0, 0, 0] [0, 1] 1).2.2.2 (by decide)⟩

/-! ## What the control predicate and the controlled gates compute -/

theorem are_controls_set_iff (index : Nat) (controls : List Nat) :
    are_controls_set index controls = true ↔ ∀ c, c ∈ controls → Nat.testBit index c = true := by
  induction controls with
  | nil => simp [are_controls_set]
  | cons ctrl rest ih =>
    have hbit : Nat.testBit index ctrl = bit_is_set index ctrl :=
      (bit_is_set_eq_testBit index ctrl).symm
    simp only [are_controls_set, List.mem_cons, forall_eq_or_imp, hbit, bit_is_set]
    generalize (index >>> ctrl &&& 1) = x at *
    by_cases hx : x = 0
    · simp [hx]
    · simp [hx, ih, bne]

theorem are_controls_set_checked_of_lt (index : Nat) (controls : List Nat)
    (h : ∀ c, c ∈ controls → c < 64) :
    are_controls_set_checked index controls = some (are_controls_set index controls) := by
  induction controls with
  | nil => rfl
  | cons ctrl rest ih =>
    have hctrl : ctrl < 64 := h ctrl (List.mem_cons_self _ _)
    have hrest : ∀ c, c ∈ rest → c < 64 := fun c hc => h c (List.mem_cons_of_mem _ hc)
    simp only [are_controls_set_checked, are_controls_set, shr_checked, if_pos hctrl]
    split
    · rfl
    · exact ih hrest

/-- C15, as stated, fails for a control that is not below 64: for the index 1 and the control
list `[64]` the function evaluates `index >> 64`, a shift by the width of the type, which is
undefined, so it is not bound to return false although bit 64 of 1 is 0. -/
theorem are_controls_set_undefined_shift :
    are_controls_set_checked 1 [64] = none ∧ Nat.testBit 1 64 = false := by
  decide

/-- C15 (amended): for every index and every control list whose entries are all below 64,
`are_controls_set(index, controls)` returns a value, and it returns true if and only if bit
`c` of `index` is 1 for every `c` in `controls`; in particular it returns true for the empty
list. -/
theorem are_controls_set_spec (index : Nat) (controls : List Nat)
    (h : ∀ c, c ∈ controls → c < 64) :
    (∃ b, are_controls_set_checked index controls = some b ∧
        (b = true ↔ ∀ c, c ∈ controls → Nat.testBit index c = true)) ∧
      are_controls_set_checked index [] = some true :=
  ⟨⟨are_controls_set index controls, are_controls_set_checked_of_lt index controls h,
    are_controls_set_iff index controls⟩, rfl⟩

theorem are_controls_set_spec_witness :
    ∃ b, are_controls_set_checked 5 [0, 2] = some b ∧
      (b = true ↔ ∀ c, c ∈ [0, 2] → Nat.testBit 5 c = true) :=
  (are_controls_set_spec 5 [0, 2] (by decide)).1

theorem shl_one_eq_two_pow (q : Nat) (hq : q < 64) : shl_one q = 2 ^ q := by
  unfold shl_one
  rw [Nat.shiftLeft_eq, Nat.one_mul]
  exact Nat.mod_eq_of_lt (Nat.pow_lt_pow_right (by norm_num) hq)

theorem xor_two_pow_ne (k t : Nat) : k ^^^ 2 ^ t ≠ k := by
  intro h
  have h1 : (k ^^^ 2 ^ t).testBit t = k.testBit t := by rw [h]
  rw [Nat.testBit_xor, Nat.testBit_two_pow_self] at h1
  cases hb : k.testBit t <;> simp [hb] at h1

theorem are_controls_set_xor_two_pow (k t : Nat) (controls : List Nat) (ht : t ∉ controls) :
    are_controls_set (k ^^^ 2 ^ t) controls = are_controls_set k controls := by
  rw [Bool.eq_iff_iff, are_controls_set_iff, are_controls_set_iff]
  have key : ∀ c, c ∈ controls → (k ^^^ 2 ^ t).testBit c = k.testBit c := by
    intro c hc
    have hne : t ≠ c := fun h => ht (h ▸ hc)
    rw [Nat.testBit_xor, Nat.testBit_two_pow]
    simp [hne]
  constructor
  · intro h c hc
    rw [← key c hc]
    exact h c hc
  · intro h c hc
    rw [key c hc]
    exact h c hc

/-- Closed form of the pair loop when `f` has no fixed point and preserves the condition:
position `k` ends with the input amplitude of `f k` if `cond k` holds, and with its own
otherwise. -/
theorem pair_index_of_symmetric (cond : Nat → Bool) (f : Nat → Nat) (len k : Nat)
    (hk : k < len) (hfk : f k < len) (hff : f (f k) = k) (hne : f k ≠ k)
    (hcond : cond (f k) = cond k) :
    pair_index cond f len k = if cond k = true then f k else k := by
  unfold pair_index
  rw [hff, hcond]
  by_cases hc : cond k = true
  · rw [if_pos hc]
    rcases Nat.lt_or_gt_of_ne hne with h | h
    · rw [if_pos (Or.inr ⟨hfk, hc, h⟩)]
    · rw [if_pos (Or.inl ⟨hk, hc, h⟩)]
  · rw [if_neg hc, if_neg]
    rintro (⟨_, h, _⟩ | ⟨_, h, _⟩) <;> exact hc h

/-- C17: on a register of `N` qubits (`len = 2 ^ N` a `std::size_t`, so `N < 64`), for every
control list that passes the size check with entries below `N`, and every target below `N`
that is not a control, `apply_multi_controlled_x` returns a vector of the same length whose
amplitude at each index `i` is the input amplitude at `i XOR 2 ^ target` when all control
bits of `i` are 1, and the input amplitude at `i` otherwise. -/
theorem multi_controlled_x_spec {α : Type} (N : Nat) (state : List α) (controls : List Nat)
    (target : Nat) (hN : N < 64) (hlen : state.length = 2 ^ N)
    (hsize : controls.length + 1 ≤ N) (_hctrl : ∀ c, c ∈ controls → c < N)
    (ht : target < N) (hnot : target ∉ controls) :
    ∃ s, apply_multi_controlled_x state (2 ^ N) controls target = .returned s ∧
      s.length = 2 ^ N ∧
      ∀ i, i < 2 ^ N →
        ((∀ c, c ∈ controls → Nat.testBit i c = true) → s[i]? = state[i ^^^ 2 ^ target]?) ∧
        (¬ (∀ c, c ∈ controls → Nat.testBit i c = true) → s[i]? = state[i]?) := by
  have hshl : shl_one target = 2 ^ target := shl_one_eq_two_pow target (by omega)
  have hf : ∀ k, k < 2 ^ N → k ^^^ shl_one target < 2 ^ N :=
    fun k hk => xor_shl_one_lt k target N hk ht
  obtain ⟨s, hrun, hslen, hs⟩ :=
    for_index_pair (fun i => are_controls_set i controls) (fun i => i ^^^ shl_one target)
      (2 ^ N) state hlen hf (fun k _ => xor_shl_one_involutive k target) (2 ^ N)
      (Nat.le_refl _)
  refine ⟨s, ?_, hslen, ?_⟩
  · rw [apply_multi_controlled_x_of_size N controls hsize]
    exact hrun
  · intro i hi
    have hidx := pair_index_of_symmetric (fun i => are_controls_set i controls)
      (fun i => i ^^^ shl_one target) (2 ^ N) i hi (hf i hi)
      (xor_shl_one_involutive i target)
      (by rw [hshl]; exact xor_two_pow_ne i target)
      (by rw [hshl]; exact are_controls_set_xor_two_pow i target controls hnot)
    rw [hs i hi, hidx]
    constructor
    · intro hall
      rw [if_pos ((are_controls_set_iff i controls).mpr hall), hshl]
    · intro hnall
      rw [if_neg (fun h => hnall ((are_controls_set_iff i controls).mp h))]

theorem multi_controlled_x_spec_witness :
    ∃ s, apply_multi_controlled_x [10, 11, 12, 13, 14, 15, 16, (17 : Int)] (2 ^ 3) [0, 1] 2 =
        .returned s ∧ s.length = 2 ^ 3 ∧
      ∀ i, i < 2 ^ 3 →
        ((∀ c, c ∈ [0, 1] → Nat.testBit i c = true) →
          s[i]? = [10, 11, 12, 13, 14, 15, 16, (17 : Int)][i ^^^ 2 ^ 2]?) ∧
        (¬ (∀ c, c ∈ [0, 1] → Nat.testBit i c = true) →
          s[i]? = [10, 11, 12, 13, 14, 15, 16, (17 : Int)][i]?) :=
  multi_controlled_x_spec 3 [10, 11, 12, 13, 14, 15, 16, 17] [0, 1] 2 (by decide) (by decide)
    (by decide) (by decide) (by decide) (by decide)

/-- C18: on a register of `N` qubits, for every control list that passes the size check with
entries below `N` and every target below `N`, `apply_multi_controlled_z` returns a vector of
the same length whose amplitude at index `i` is the negated input amplitude at `i` when all
control bits and the target bit of `i` are 1, and the unchanged input amplitude at `i` at
every other index. -/
theorem multi_controlled_z_spec {α : Type} [Ring α] (N : Nat) (state : List α)
    (controls : List Nat) (target : Nat) (hlen : state.length = 2 ^ N)
    (hsize : controls.length + 1 ≤ N) (_hctrl : ∀ c, c ∈ controls → c < N)
    (_ht : target < N) :
    ∃ s, apply_multi_controlled_z state (2 ^ N) controls target = .returned s ∧
      s.length = 2 ^ N ∧
      ∀ i, i < 2 ^ N →
        (((∀ c, c ∈ controls → Nat.testBit i c = true) ∧ Nat.testBit i target = true) →
          s[i]? = state[i]?.map (fun a => -a)) ∧
        (¬ ((∀ c, c ∈ controls → Nat.testBit i c = true) ∧ Nat.testBit i target = true) →
          s[i]? = state[i]?) := by
  obtain ⟨s, hrun, hslen, hs⟩ :=
    for_index_phase (fun i => are_controls_set i controls && bit_is_set i target) (2 ^ N)
      state hlen (2 ^ N) (Nat.le_refl _)
  refine ⟨s, ?_, hslen, ?_⟩
  · rw [apply_multi_controlled_z_of_size N controls hsize]
    exact hrun
  · intro i hi
    have hcond : (are_controls_set i controls && bit_is_set i target) = true ↔
        ((∀ c, c ∈ controls → Nat.testBit i c = true) ∧ Nat.testBit i target = true) := by
      rw [Bool.and_eq_true, are_controls_set_iff, bit_is_set_eq_testBit]
    rw [hs i hi]
    constructor
    · intro h
      have hc := hcond.mpr h
      simp [hi, hc]
    · intro h
      have hc : ¬ (are_controls_set i controls && bit_is_set i target) = true :=
        fun hc => h (hcond.mp hc)
      simp [hc]

theorem multi_controlled_z_spec_witness :
    ∃ s, apply_multi_controlled_z [10, 11, 12, 13, 14, 15, 16, (17 : Int)] (2 ^ 3) [0, 1] 2 =
        .returned s ∧ s.length = 2 ^ 3 ∧
      ∀ i, i < 2 ^ 3 →
        (((∀ c, c ∈ [0, 1] → Nat.testBit i c = true) ∧ Nat.testBit i 2 = true) →
          s[i]? = [10, 11, 12, 13, 14, 15, 16, (17 : Int)][i]?.map (fun a => -a)) ∧
        (¬ ((∀ c, c ∈ [0, 1] → Nat.testBit i c = true) ∧ Nat.testBit i 2 = true) →
          s[i]? = [10, 11, 12, 13, 14, 15, 16, (17 : Int)][i]?) :=
  multi_controlled_z_spec 3 [10, 11, 12, 13, 14, 15, 16, 17] [0, 1] 2 (by decide) (by decide)
    (by decide) (by decide)

/-! ## Quantities preserved by the loops -/

theorem sum_map_set {α β : Type} [AddCommGroup β] (g : α → β) (L : List α) (n : Nat) (a : α)
    (h : n < L.length) : ((L.set n a).map g).sum = (L.map g).sum - g L[n] + g a := by
  induction L generalizing n with
  | nil => simp at h
  | cons x xs ih =>
    cases n with
    | zero => simp; abel
    | succ n =>
      have h2 : n < xs.length := by simpa using h
      simp only [List.set_cons_succ, List.map_cons, List.sum_cons, List.getElem_cons_succ,
        ih n h2]
      abel

theorem swap_amplitudes_sum {α β : Type} [AddCommGroup β] (g : α → β) (s s2 : List α)
    (i j : Nat) (h : swap_amplitudes s i j = .returned s2) :
    (s2.map g).sum = (s.map g).sum := by
  unfold swap_amplitudes at h
  by_cases hi : i < s.length
  · by_cases hj : j < s.length
    · rw [List.getElem?_eq_getElem hi, List.getElem?_eq_getElem hj] at h
      simp only [Outcome.returned.injEq] at h
      subst h
      have hj2 : j < (s.set i s[j]).length := by simpa using hj
      rw [sum_map_set g _ j _ hj2, sum_map_set g s i _ hi]
      by_cases hij : i = j
      · subst hij
        simp
      · rw [List.getElem_set_ne hij]
        abel
    · have hjn : s[j]? = none := List.getElem?_eq_none (by omega)
      rw [hjn] at h
      split at h <;> simp_all
  · have hin : s[i]? = none := List.getElem?_eq_none (by omega)
    rw [hin] at h
    split at h <;> simp_all

theorem pair_body_sum {α β : Type} [AddCommGroup β] (g : α → β) (cond : Nat → Bool)
    (f : Nat → Nat) (s s2 : List α) (i : Nat) (h : pair_body cond f s i = .returned s2) :
    (s2.map g).sum = (s.map g).sum := by
  unfold pair_body at h
  split at h
  · split at h
    · exact swap_amplitudes_sum g s s2 i (f i) h
    · simp only [Outcome.returned.injEq] at h
      rw [h]
  · simp only [Outcome.returned.injEq] at h
    rw [h]

theorem phase_body_sum {α β : Type} [Ring α] [AddCommGroup β] (g : α → β)
    (hg : ∀ a, g (a * (-1)) = g a) (cond : Nat → Bool) (s s2 : List α) (i : Nat)
    (h : phase_body cond s i = .returned s2) : (s2.map g).sum = (s.map g).sum := by
  unfold phase_body at h
  split at h
  · unfold negate_amplitude at h
    by_cases hi : i < s.length
    · rw [List.getElem?_eq_getElem hi] at h
      simp only [Outcome.returned.injEq] at h
      subst h
      rw [sum_map_set g s i _ hi, hg]
      abel
    · rw [List.getElem?_eq_none (by omega)] at h
      simp at h
  · simp only [Outcome.returned.injEq] at h
    rw [h]

/-- A property of the buffer that every iteration preserves holds when the loop returns. -/
theorem for_index_preserves {α : Type} (P : List α → Prop) (body : List α → Nat → Outcome α)
    (hbody : ∀ s i s2, P s → body s i = .returned s2 → P s2) (m : Nat) (state s2 : List α)
    (h0 : P state) (h : for_index body m state = .returned s2) : P s2 := by
  induction m generalizing s2 with
  | zero =>
    simp only [for_index, Outcome.returned.injEq] at h
    rw [← h]
    exact h0
  | succ m ih =>
    simp only [for_index] at h
    cases hm : for_index body m state with
    | returned s1 =>
      rw [hm] at h
      exact hbody s1 m s2 (ih s1 hm) h
    | exited d s1 => rw [hm] at h; simp [Outcome.andThen] at h
    | undefined => rw [hm] at h; simp [Outcome.andThen] at h

theorem for_index_pair_sum {α β : Type} [AddCommGroup β] (g : α → β) (cond : Nat → Bool)
    (f : Nat → Nat) (len : Nat) (state : List α) (hlen : state.length = len)
    (hf : ∀ k, k < len → f k < len) (hff : ∀ k, k < len → f (f k) = k) :
    ∃ s, for_index (pair_body cond f) len state = .returned s ∧
      (s.map g).sum = (state.map g).sum := by
  obtain ⟨s, hrun, _, _⟩ := for_index_pair cond f len state hlen hf hff len (Nat.le_refl _)
  refine ⟨s, hrun, ?_⟩
  exact for_index_preserves (fun l => (l.map g).sum = (state.map g).sum) _
    (fun s1 i s2 h1 h2 => (pair_body_sum g cond f s1 s2 i h2).trans h1) len state s rfl hrun

theorem for_index_phase_sum {α β : Type} [Ring α] [AddCommGroup β] (g : α → β)
    (hg : ∀ a, g (a * (-1)) = g a) (cond : Nat → Bool) (len : Nat) (state : List α)
    (hlen : state.length = len) :
    ∃ s, for_index (phase_body cond) len state = .returned s ∧
      (s.map g).sum = (state.map g).sum := by
  obtain ⟨s, hrun, _, _⟩ := for_index_phase cond len state hlen len (Nat.le_refl _)
  refine ⟨s, hrun, ?_⟩
  exact for_index_preserves (fun l => (l.map g).sum = (state.map g).sum) _
    (fun s1 i s2 h1 h2 => (phase_body_sum g hg cond s1 s2 i h2).trans h1) len state s rfl hrun

/-- C12: on a register of `N` qubits and for every state of length `2 ^ N`, each of
`apply_toffoli_gate`, `apply_fredkin_gate`, `apply_multi_controlled_x` and
`apply_multi_controlled_z` returns, for operands below `N` that pass its size check, a vector
whose sum of squared magnitudes equals that of the input. -/
theorem gates_preserve_squared_magnitude_sum (N : Nat) (state : List ℂ)
    (hlen : state.length = 2 ^ N) :
    (∀ ctrl1 ctrl2 target, 3 ≤ N → ctrl1 < N → ctrl2 < N → target < N →
        ∃ s, apply_toffoli_gate state (2 ^ N) ctrl1 ctrl2 target = .returned s ∧
          (s.map Complex.normSq).sum = (state.map Complex.normSq).sum) ∧
      (∀ ctrl target1 target2, 3 ≤ N → ctrl < N → target1 < N → target2 < N →
        ∃ s, apply_fredkin_gate state (2 ^ N) ctrl target1 target2 = .returned s ∧
          (s.map Complex.normSq).sum = (state.map Complex.normSq).sum) ∧
      (∀ controls target, controls.length + 1 ≤ N → (∀ c, c ∈ controls → c < N) →
        target < N →
        ∃ s, apply_multi_controlled_x state (2 ^ N) controls target = .returned s ∧
          (s.map Complex.normSq).sum = (state.map Complex.normSq).sum) ∧
      (∀ controls target, controls.length + 1 ≤ N → (∀ c, c ∈ controls → c < N) →
        target < N →
        ∃ s, apply_multi_controlled_z state (2 ^ N) controls target = .returned s ∧
          (s.map Complex.normSq).sum = (state.map Complex.normSq).sum) := by
  refine ⟨?_, ?_, ?_, ?_⟩
  · intro ctrl1 ctrl2 target hN _ _ ht
    rw [apply_toffoli_gate_of_size N hN]
    exact for_index_pair_sum _ _ _ (2 ^ N) state hlen
      (fun k hk => xor_shl_one_lt k target N hk ht)
      (fun k _ => xor_shl_one_involutive k target)
  · intro ctrl target1 target2 hN _ h1 h2
    rw [apply_fredkin_gate_of_size N hN]
    exact for_index_pair_sum _ _ _ (2 ^ N) state hlen
      (fun k hk => xor_two_shl_one_lt k target1 target2 N hk h1 h2)
      (fun k _ => xor_two_shl_one_involutive k target1 target2)
  · intro controls target hsize _ ht
    rw [apply_multi_controlled_x_of_size N controls hsize]
    exact for_index_pair_sum _ _ _ (2 ^ N) state hlen
      (fun k hk => xor_shl_one_lt k target N hk ht)
      (fun k _ => xor_shl_one_involutive k target)
  · intro controls target hsize _ _
    rw [apply_multi_controlled_z_of_size N controls hsize]
    exact for_index_phase_sum _ (fun a => by simp) _ (2 ^ N) state hlen

theorem gates_preserve_squared_magnitude_sum_witness :
    (∃ s, apply_toffoli_gate [1, 0, 0, 0, 0, 0, Complex.I, (0 : ℂ)] (2 ^ 3) 0 1 2 =
        .returned s ∧
      (s.map Complex.normSq).sum =
        (([1, 0, 0, 0, 0, 0, Complex.I, 0] : List ℂ).map Complex.normSq).sum) ∧
    (∃ s, apply_multi_controlled_z [1, 0, 0, 0, 0, 0, Complex.I, (0 : ℂ)] (2 ^ 3) [0, 1] 2 =
        .returned s ∧
      (s.map Complex.normSq).sum =
        (([1, 0, 0, 0, 0, 0, Complex.I, 0] : List ℂ).map Complex.normSq).sum) :=
  ⟨(gates_preserve_squared_magnitude_sum 3 [1, 0, 0, 0, 0, 0, Complex.I, 0] (by rfl)).1 0 1 2
      (by decide) (by decide) (by decide) (by decide),
    (gates_preserve_squared_magnitude_sum 3 [1, 0, 0, 0, 0, 0, Complex.I, 0]
      (by rfl)).2.2.2 [0, 1] 2 (by decide) (by decide) (by decide)⟩

/-! ## The index scattering of the Fourier transform -/

theorem qft_scatter_eq (qubits : List Nat) (num_qubits input output : Nat) :
    qft_scatter qubits num_qubits input output =
      (scatter_bits qubits input num_qubits, scatter_bits qubits output num_qubits) := by
  unfold qft_scatter
  induction num_qubits with
  | zero => rfl
  | succ m ih =>
    simp only [for_count, ih, qft_scatter_body, scatter_bits]
    by_cases hm : m ∈ qubits
    · by_cases h1 : bit_is_set input (List.indexOf m qubits) = true <;>
        by_cases h2 : bit_is_set output (List.indexOf m qubits) = true <;>
        simp [hm, h1, h2]
    · simp [hm]

theorem scatter_bits_lt (qubits : List Nat) (x m N : Nat) (hm : m ≤ N) :
    scatter_bits qubits x m < 2 ^ N := by
  induction m with
  | zero => simp only [scatter_bits]; positivity
  | succ m ih =>
    simp only [scatter_bits]
    split
    · exact Nat.or_lt_two_pow (ih (by omega)) (shl_one_lt m N (by omega))
    · exact ih (by omega)

theorem shl_one_testBit_of_ne (i b : Nat) (h : i ≠ b) : (shl_one i).testBit b = false := by
  by_cases hi : i < 64
  · rw [shl_one_eq_two_pow i hi, Nat.testBit_two_pow]
    simp [h]
  · have h0 : shl_one i = 0 := by
      unfold shl_one
      rw [Nat.shiftLeft_eq, Nat.one_mul]
      exact Nat.mod_eq_zero_of_dvd (Nat.pow_dvd_pow 2 (by omega))
    rw [h0]
    simp

/-- The scattered index has no bit outside the participating qubits. -/
theorem scatter_bits_testBit_of_not_mem (qubits : List Nat) (x m b : Nat) (hb : b ∉ qubits) :
    (scatter_bits qubits x m).testBit b = false := by
  induction m with
  | zero => simp [scatter_bits]
  | succ m ih =>
    simp only [scatter_bits]
    split
    · rename_i h
      have hne : m ≠ b := fun e => hb (e ▸ h.1)
      rw [Nat.testBit_or, ih, shl_one_testBit_of_ne m b hne]
      rfl
    · exact ih

theorem indexOf_range (n i : Nat) (hi : i < n) : (List.range n).indexOf i = i := by
  have hlen : i < (List.range n).length := by simpa using hi
  have h := List.indexOf_getElem (List.nodup_range n) i hlen
  rwa [List.getElem_range] at h

theorem mod_two_pow_succ_of_testBit (x m : Nat) :
    x % 2 ^ (m + 1) = if x.testBit m = true then x % 2 ^ m ||| 2 ^ m else x % 2 ^ m := by
  apply Nat.eq_of_testBit_eq
  intro i
  by_cases hx : x.testBit m = true
  · rw [if_pos hx, Nat.testBit_or, Nat.testBit_mod_two_pow, Nat.testBit_mod_two_pow,
      Nat.testBit_two_pow]
    by_cases him : i = m
    · subst him; simp [hx]
    · have e : (i < m + 1) ↔ (i < m) := by omega
      simp [e, Ne.symm him]
  · rw [if_neg hx, Nat.testBit_mod_two_pow, Nat.testBit_mod_two_pow]
    by_cases him : i = m
    · subst him
      simp at hx
      simp [hx]
    · have e : (i < m + 1) ↔ (i < m) := by omega
      simp [e]

/-- On the full register `[0, …, n - 1]` the scattering keeps the low bits in place. -/
theorem scatter_bits_range (n x m : Nat) (hn : n ≤ 64) (hm : m ≤ n) :
    scatter_bits (List.range n) x m = x % 2 ^ m := by
  induction m with
  | zero => simp [scatter_bits, Nat.mod_one]
  | succ m ih =>
    have hmn : m < n := by omega
    simp only [scatter_bits, ih (by omega), List.mem_range, hmn, true_and,
      indexOf_range n m hmn, bit_is_set_eq_testBit, shl_one_eq_two_pow m (by omega)]
    exact (mod_two_pow_succ_of_testBit x m).symm

theorem scatter_bits_range_of_lt (n x : Nat) (hn : n ≤ 64) (hx : x < 2 ^ n) :
    scatter_bits (List.range n) x n = x := by
  rw [scatter_bits_range n x n hn (Nat.le_refl _), Nat.mod_eq_of_lt hx]

/-! ## The accumulation loops of the Fourier transform -/

theorem qft_accumulate_returned (state ns : List ℂ) (fi fo : Nat) (phase : ℂ) (c : ℝ)
    (hfi : fi < state.length) (hfo : fo < ns.length) :
    ∃ ns2, qft_accumulate state ns fi fo phase c = .returned ns2 ∧ ns2.length = ns.length ∧
      ∀ K, ns2.getD K 0 = ns.getD K 0 + if fo = K then state.getD fi 0 * phase * c else 0 := by
  refine ⟨ns.set fo (ns[fo] + state[fi] * phase * c), ?_, by simp, ?_⟩
  · simp [qft_accumulate, List.getElem?_eq_getElem hfi, List.getElem?_eq_getElem hfo]
  · intro K
    by_cases hK : fo = K
    · subst hK
      simp [List.getD_eq_getElem?_getD, List.getElem?_set, hfo, hfi]
    · simp [List.getD_eq_getElem?_getD, List.getElem?_set, hK]

/-- A loop whose iteration `j` adds `δ j K` to the entry `K` of the buffer adds the sum of the
`δ j K` over its iterations. -/
theorem for_index_add (len : Nat) (body : List ℂ → Nat → Outcome ℂ) (δ : Nat → Nat → ℂ)
    (m : Nat)
    (hbody : ∀ ns j, ns.length = len → j < m →
      ∃ ns2, body ns j = .returned ns2 ∧ ns2.length = len ∧
        ∀ K, ns2.getD K 0 = ns.getD K 0 + δ j K)
    (ns : List ℂ) (hns : ns.length = len) :
    ∃ ns2, for_index body m ns = .returned ns2 ∧ ns2.length = len ∧
      ∀ K, ns2.getD K 0 = ns.getD K 0 + ∑ j in Finset.range m, δ j K := by
  induction m with
  | zero => exact ⟨ns, rfl, hns, fun K => by simp⟩
  | succ m ih =>
    obtain ⟨ns1, hrun, hlen1, h1⟩ := ih (fun ns j hl hj => hbody ns j hl (by omega))
    obtain ⟨ns2, hstep, hlen2, h2⟩ := hbody ns1 m hlen1 (by omega)
    refine ⟨ns2, ?_, hlen2, ?_⟩
    · simp only [for_index, hrun, Outcome.andThen, hstep]
    · intro K
      rw [h2 K, h1 K, Finset.sum_range_succ, add_assoc]

theorem for_index_copy {α : Type} (ns state : List α) (len : Nat) (h1 : ns.length = len)
    (h2 : state.length = len) : for_index (qft_copy_body ns) len state = .returned ns := by
  have key : ∀ m, m ≤ len → ∃ s, for_index (qft_copy_body ns) m state = .returned s ∧
      s.length = len ∧ ∀ k, s[k]? = if k < m then ns[k]? else state[k]? := by
    intro m
    induction m with
    | zero => exact fun _ => ⟨state, rfl, h2, fun k => by simp⟩
    | succ m ih =>
      intro hm
      obtain ⟨s, hrun, hslen, hs⟩ := ih (by omega)
      have hm1 : m < ns.length := by omega
      have hm2 : m < s.length := by omega
      refine ⟨s.set m ns[m], ?_, by simp [hslen], ?_⟩
      · simp [for_index, hrun, Outcome.andThen, qft_copy_body,
          List.getElem?_eq_getElem hm1, List.getElem?_eq_getElem hm2]
      · intro k
        rw [List.getElem?_set]
        by_cases hk : m = k
        · subst hk
          simp [hm2, List.getElem?_eq_getElem hm1]
        · rw [if_neg hk, hs k]
          have e : (k < m + 1) ↔ (k < m) := by omega
          simp only [e]
  obtain ⟨s, hrun, hslen, hs⟩ := key len (Nat.le_refl _)
  rw [hrun]
  congr 1
  apply List.ext_getElem?
  intro k
  rw [hs k]
  by_cases hk : k < len
  · rw [if_pos hk]
  · rw [if_neg hk, List.getElem?_eq_none (by omega), List.getElem?_eq_none (by omega)]

/-- Closed form of `apply_qft` on a register of `N` qubits for a non-empty qubit list: the
call returns, and entry `K` of the result is the sum, over the pairs `(output, input)` whose
scattered output index is `K`, of the input amplitude at the scattered input index times the
coefficient of the pair. -/
theorem apply_qft_closed_form (N : Nat) (state : List ℂ) (qubits : List Nat) (inverse : Bool)
    (hlen : state.length = 2 ^ N) (hne : qubits ≠ []) :
    ∃ s, apply_qft state (2 ^ N) qubits inverse = .returned s ∧ s.length = 2 ^ N ∧
      ∀ K, s.getD K 0 =
        ∑ o in Finset.range (shl_one qubits.length),
          ∑ i in Finset.range (shl_one qubits.length),
            if scatter_bits qubits o N = K then
              state.getD (scatter_bits qubits i N) 0 * qft_coefficient qubits.length inverse o i
            else 0 := by
  have hn : ¬ qubits.length = 0 := by
    intro h
    exact hne (List.length_eq_zero.mp h)
  have hinner : ∀ o ns j, ns.length = 2 ^ N → j < shl_one qubits.length →
      ∃ ns2, qft_input_body state qubits N qubits.length inverse
          (1 / Real.sqrt ((shl_one qubits.length : Nat) : ℝ)) o ns j = .returned ns2 ∧
        ns2.length = 2 ^ N ∧
        ∀ K, ns2.getD K 0 = ns.getD K 0 +
          if scatter_bits qubits o N = K then
            state.getD (scatter_bits qubits j N) 0 * qft_coefficient qubits.length inverse o j
          else 0 := by
    intro o ns j hns _
    obtain ⟨ns2, hrun, hl, hv⟩ := qft_accumulate_returned state ns
      (scatter_bits qubits j N) (scatter_bits qubits o N)
      (if inverse then (starRingEnd ℂ) (qft_phase_factor o j qubits.length)
        else qft_phase_factor o j qubits.length)
      (1 / Real.sqrt ((shl_one qubits.length : Nat) : ℝ))
      (by rw [hlen]; exact scatter_bits_lt qubits j N N (Nat.le_refl _))
      (by rw [hns]; exact scatter_bits_lt qubits o N N (Nat.le_refl _))
    refine ⟨ns2, ?_, by rw [hl, hns], ?_⟩
    · simp only [qft_input_body, qft_scatter_eq]
      exact hrun
    · intro K
      rw [hv K]
      simp only [qft_coefficient, mul_assoc]
  have houter : ∀ ns o, ns.length = 2 ^ N → o < shl_one qubits.length →
      ∃ ns2, qft_output_body state qubits N qubits.length inverse
          (1 / Real.sqrt ((shl_one qubits.length : Nat) : ℝ)) ns o = .returned ns2 ∧
        ns2.length = 2 ^ N ∧
        ∀ K, ns2.getD K 0 = ns.getD K 0 +
          ∑ i in Finset.range (shl_one qubits.length),
            if scatter_bits qubits o N = K then
              state.getD (scatter_bits qubits i N) 0 * qft_coefficient qubits.length inverse o i
            else 0 := by
    intro ns o hns _
    exact for_index_add (2 ^ N) _ _ (shl_one qubits.length) (hinner o) ns hns
  obtain ⟨ns, hrun, hnslen, hv⟩ := for_index_add (2 ^ N) _ _ (shl_one qubits.length) houter
    (List.replicate (2 ^ N) (0 : ℂ)) (by simp)
  refine ⟨ns, ?_, hnslen, ?_⟩
  · simp only [apply_qft, log2_size_t_two_pow, if_neg hn, hrun, Outcome.andThen]
    exact for_index_copy ns state (2 ^ N) hnslen hlen
  · intro K
    rw [hv K]
    have h0 : (List.replicate (2 ^ N) (0 : ℂ)).getD K 0 = 0 := by
      rw [List.getD_eq_getElem?_getD, List.getElem?_replicate]
      split <;> rfl
    rw [h0, zero_add]

/-! ## The phase factor -/

theorem mk_cos_sin_eq_exp (a : ℝ) :
    (⟨Real.cos a, Real.sin a⟩ : ℂ) = Complex.exp ((a : ℂ) * Complex.I) := by
  apply Complex.ext
  · rw [Complex.exp_ofReal_mul_I_re]
  · rw [Complex.exp_ofReal_mul_I_im]

/-- With exact real arithmetic the 64-bit wrap of `k * n` does not change the phase factor:
it is the complex exponential of `2πi · k · n / 2 ^ w` for the unbounded product. -/
theorem qft_phase_factor_eq_exp (k n w : Nat) (hw : w < 64) :
    qft_phase_factor k n w =
      Complex.exp (2 * Real.pi * Complex.I * ((k * n : Nat) : ℂ) / (2 : ℂ) ^ w) := by
  have hsplit : k * n = k * n % 2 ^ 64 + 2 ^ w * (2 ^ (64 - w) * (k * n / 2 ^ 64)) := by
    have hp : 2 ^ w * 2 ^ (64 - w) = 2 ^ 64 := by
      rw [← Nat.pow_add]
      congr 1
      omega
    rw [← Nat.mul_assoc, hp]
    exact (Nat.mod_add_div (k * n) (2 ^ 64)).symm
  have h2 : (2 : ℂ) ^ w ≠ 0 := pow_ne_zero _ (by norm_num)
  unfold qft_phase_factor
  simp only
  rw [mk_cos_sin_eq_exp, shl_one_eq_two_pow w hw]
  have hrhs : 2 * (Real.pi : ℂ) * Complex.I * ((k * n : Nat) : ℂ) / (2 : ℂ) ^ w =
      ((2 * Real.pi * (((k * n) % 2 ^ 64 : Nat) : ℝ) / (((2 ^ w : Nat) : ℝ)) : ℝ) : ℂ) *
          Complex.I +
        ((2 ^ (64 - w) * (k * n / 2 ^ 64) : Nat) : ℂ) * (2 * Real.pi * Complex.I) := by
    conv_lhs => rw [hsplit]
    push_cast
    field_simp
    ring
  rw [hrhs, Complex.exp_add, Complex.exp_nat_mul_two_pi_mul_I, mul_one]

theorem abs_qft_phase_factor (k n w : Nat) : Complex.abs (qft_phase_factor k n w) = 1 := by
  unfold qft_phase_factor
  simp only
  rw [mk_cos_sin_eq_exp, Complex.abs_exp]
  simp

/-! ## The phase factor in binary64 arithmetic -/

theorem round_half_even_error (y : ℚ) : |((round_half_even y : ℤ) : ℚ) - y| ≤ 1 / 2 := by
  have h1 : (⌊y⌋ : ℚ) ≤ y := Int.floor_le y
  have h2 : y < ⌊y⌋ + 1 := Int.lt_floor_add_one y
  unfold round_half_even
  split_ifs with ha hb hc
  · rw [abs_le]; constructor <;> linarith
  · rw [abs_le]; push_cast; constructor <;> linarith
  · rw [abs_le]; constructor <;> linarith
  · rw [abs_le]; push_cast; constructor <;> linarith

theorem round_half_even_intCast (z : ℤ) : round_half_even (z : ℚ) = z := by
  unfold round_half_even
  simp

theorem round_double_error (x : ℚ) : |round_double x - x| ≤ |x| / 2 ^ 53 := by
  unfold round_double
  split_ifs with h0
  · simp [h0]
  · have hpos : (0 : ℚ) < |x| := abs_pos.mpr h0
    have hlog : (2 : ℚ) ^ Int.log 2 |x| ≤ |x| := by
      have := @Int.zpow_log_le_self ℚ _ _ 2 |x| (by norm_num) hpos
      simpa using this
    generalize Int.log 2 |x| = e at hlog ⊢
    have hulp : (0 : ℚ) < 2 ^ (e - 52) := zpow_pos (by norm_num) _
    have herr := round_half_even_error (x / 2 ^ (e - 52))
    have hx : x = x / 2 ^ (e - 52) * 2 ^ (e - 52) := by field_simp
    have hsplit : (2 : ℚ) ^ e = 2 ^ (e - 52) * 2 ^ (52 : ℤ) := by
      rw [← zpow_add₀ (by norm_num : (2 : ℚ) ≠ 0)]
      congr 1
      ring
    calc |((round_half_even (x / 2 ^ (e - 52)) : ℤ) : ℚ) * 2 ^ (e - 52) - x|
        = |((round_half_even (x / 2 ^ (e - 52)) : ℤ) : ℚ) - x / 2 ^ (e - 52)| * 2 ^ (e - 52) := by
          have hfac : ((round_half_even (x / 2 ^ (e - 52)) : ℤ) : ℚ) * 2 ^ (e - 52) - x =
              (((round_half_even (x / 2 ^ (e - 52)) : ℤ) : ℚ) - x / 2 ^ (e - 52)) *
                2 ^ (e - 52) := by
            rw [sub_mul, ← hx]
          rw [hfac, abs_mul, abs_of_pos hulp]
      _ ≤ 1 / 2 * 2 ^ (e - 52) := mul_le_mul_of_nonneg_right herr hulp.le
      _ = 2 ^ e / 2 ^ 53 := by
          rw [hsplit]
          norm_num
          ring
      _ ≤ |x| / 2 ^ 53 := by
          apply div_le_div_of_nonneg_right hlog
          positivity

theorem round_double_dyadic (m j : ℤ) (hm : |m| < 2 ^ 53) :
    round_double ((m : ℚ) * 2 ^ j) = (m : ℚ) * 2 ^ j := by
  unfold round_double
  split_ifs with h0
  · exact h0.symm
  · have h2 : (0 : ℚ) < 2 ^ j := zpow_pos (by norm_num) _
    have hlt : |(m : ℚ) * 2 ^ j| < 2 ^ (53 + j) := by
      rw [abs_mul, abs_of_pos h2, zpow_add₀ (by norm_num : (2 : ℚ) ≠ 0)]
      apply mul_lt_mul_of_pos_right _ h2
      have hcast : ((|m| : ℤ) : ℚ) < ((2 ^ 53 : ℤ) : ℚ) := Int.cast_lt.mpr hm
      rw [Int.cast_abs] at hcast
      norm_num at hcast ⊢
      exact hcast
    have hlog : Int.log 2 |(m : ℚ) * 2 ^ j| < 53 + j := by
      rw [← @Int.lt_zpow_iff_log_lt ℚ _ _ 2 (by norm_num) _ _ (abs_pos.mpr h0)]
      simpa using hlt
    generalize Int.log 2 |(m : ℚ) * 2 ^ j| = e at hlog ⊢
    obtain ⟨t, ht⟩ : ∃ t : ℕ, j = (e - 52) + t := ⟨(j - (e - 52)).toNat, by omega⟩
    have hulp : (2 : ℚ) ^ (e - 52) ≠ 0 := zpow_ne_zero _ (by norm_num)
    have hy : (m : ℚ) * 2 ^ j / 2 ^ (e - 52) = ((m * 2 ^ t : ℤ) : ℚ) := by
      rw [ht, zpow_add₀ (by norm_num : (2 : ℚ) ≠ 0), zpow_natCast]
      push_cast
      field_simp
      ring
    rw [hy, round_half_even_intCast, ht, zpow_add₀ (by norm_num : (2 : ℚ) ≠ 0), zpow_natCast]
    push_cast
    ring

theorem round_double_natCast (p : Nat) (hp : p < 2 ^ 53) : round_double (p : ℚ) = p := by
  have h := round_double_dyadic (p : ℤ) 0 (by rw [abs_of_nonneg (by positivity)]; exact_mod_cast hp)
  simpa using h

theorem round_double_two_pow (w : Nat) : round_double ((2 : ℚ) ^ w) = 2 ^ w := by
  have h := round_double_dyadic 1 (w : ℤ) (by norm_num)
  simpa using h

theorem round_double_nonneg (x : ℚ) (hx : 0 ≤ x) : 0 ≤ round_double x := by
  have h := round_double_error x
  rw [abs_of_nonneg hx, abs_le] at h
  have h53 : x / 2 ^ 53 ≤ x := div_le_self hx (by norm_num)
  linarith [h.1]

theorem round_double_le (x : ℚ) (hx : 0 ≤ x) : round_double x ≤ x * (1 + 1 / 2 ^ 53) := by
  have h := round_double_error x
  rw [abs_of_nonneg hx, abs_le] at h
  linarith [h.2]

theorem le_round_double (x : ℚ) (hx : 0 ≤ x) : x * (1 - 1 / 2 ^ 53) ≤ round_double x := by
  have h := round_double_error x
  rw [abs_of_nonneg hx, abs_le] at h
  linarith [h.1]

theorem round_double_two_mul_M_PI : round_double (2 * M_PI) = 2 * M_PI := by
  have h := round_double_dyadic 884279719003555 (-47) (by norm_num)
  have e : (2 : ℚ) * M_PI = ((884279719003555 : ℤ) : ℚ) * 2 ^ (-47 : ℤ) := by
    unfold M_PI
    norm_num
  rw [e]
  exact h

theorem qft_angle_double_eq (k n w : Nat) (hw : w < 64) :
    qft_angle_double k n w =
      round_double
        (round_double (2 * M_PI * round_double (((k * n) % 2 ^ 64 : Nat) : ℚ)) / 2 ^ w) := by
  unfold qft_angle_double
  rw [round_double_two_mul_M_PI, shl_one_eq_two_pow w hw]
  push_cast
  rw [round_double_two_pow]

/-- Three roundings move the angle by a relative error of at most `2 ^ (-53)` each. -/
theorem qft_angle_double_bounds (k n w : Nat) (hw : w < 64) :
    2 * M_PI * (1 - 1 / 2 ^ 53) ^ 3 * ((((k * n) % 2 ^ 64 : Nat) : ℚ) / 2 ^ w) ≤
        qft_angle_double k n w ∧
      qft_angle_double k n w ≤
        2 * M_PI * (1 + 1 / 2 ^ 53) ^ 3 * ((((k * n) % 2 ^ 64 : Nat) : ℚ) / 2 ^ w) := by
  rw [qft_angle_double_eq k n w hw]
  have hp : (0 : ℚ) ≤ (((k * n) % 2 ^ 64 : Nat) : ℚ) := Nat.cast_nonneg _
  generalize (((k * n) % 2 ^ 64 : Nat) : ℚ) = p at hp ⊢
  have hc : (0 : ℚ) ≤ 2 * M_PI := by
    unfold M_PI
    norm_num
  have hlo : (0 : ℚ) ≤ 1 - 1 / 2 ^ 53 := by norm_num
  have hhi : (0 : ℚ) ≤ 1 + 1 / 2 ^ 53 := by norm_num
  have ht : (0 : ℚ) ≤ 1 / 2 ^ w := by positivity
  have hd0 : 0 ≤ round_double p := round_double_nonneg p hp
  have hx1 : 0 ≤ 2 * M_PI * round_double p := mul_nonneg hc hd0
  have hr0 : 0 ≤ round_double (2 * M_PI * round_double p) := round_double_nonneg _ hx1
  have hx2 : 0 ≤ round_double (2 * M_PI * round_double p) / 2 ^ w := by positivity
  constructor
  · calc 2 * M_PI * (1 - 1 / 2 ^ 53) ^ 3 * (p / 2 ^ w)
        = 2 * M_PI * (p * (1 - 1 / 2 ^ 53)) * (1 - 1 / 2 ^ 53) * (1 / 2 ^ w) *
            (1 - 1 / 2 ^ 53) := by ring
      _ ≤ 2 * M_PI * round_double p * (1 - 1 / 2 ^ 53) * (1 / 2 ^ w) * (1 - 1 / 2 ^ 53) := by
          gcongr
          exact le_round_double p hp
      _ ≤ round_double (2 * M_PI * round_double p) * (1 / 2 ^ w) * (1 - 1 / 2 ^ 53) := by
          gcongr
          exact le_round_double _ hx1
      _ = round_double (2 * M_PI * round_double p) / 2 ^ w * (1 - 1 / 2 ^ 53) := by
          ring
      _ ≤ round_double (round_double (2 * M_PI * round_double p) / 2 ^ w) :=
          le_round_double _ hx2
  · calc round_double (round_double (2 * M_PI * round_double p) / 2 ^ w)
        ≤ round_double (2 * M_PI * round_double p) / 2 ^ w * (1 + 1 / 2 ^ 53) :=
          round_double_le _ hx2
      _ = round_double (2 * M_PI * round_double p) * (1 / 2 ^ w) * (1 + 1 / 2 ^ 53) := by
          ring
      _ ≤ 2 * M_PI * round_double p * (1 + 1 / 2 ^ 53) * (1 / 2 ^ w) * (1 + 1 / 2 ^ 53) := by
          gcongr
          exact round_double_le _ hx1
      _ ≤ 2 * M_PI * (p * (1 + 1 / 2 ^ 53)) * (1 + 1 / 2 ^ 53) * (1 / 2 ^ w) *
            (1 + 1 / 2 ^ 53) := by
          gcongr
          exact round_double_le p hp
      _ = 2 * M_PI * (1 + 1 / 2 ^ 53) ^ 3 * (p / 2 ^ w) := by ring

theorem abs_exp_sub_exp_le (a b : ℝ) :
    Complex.abs (Complex.exp ((a : ℂ) * Complex.I) - Complex.exp ((b : ℂ) * Complex.I)) ≤
      |a - b| := by
  have hfac : Complex.exp ((a : ℂ) * Complex.I) - Complex.exp ((b : ℂ) * Complex.I) =
      Complex.exp ((b : ℂ) * Complex.I) *
        (Complex.exp (((a - b : ℝ) : ℂ) * Complex.I) - 1) := by
    rw [mul_sub, mul_one, ← Complex.exp_add]
    congr 2
    push_cast
    ring
  rw [hfac, map_mul, Complex.abs_exp_ofReal_mul_I, one_mul]
  generalize a - b = x
  have hsq : Complex.abs (Complex.exp ((x : ℂ) * Complex.I) - 1) ^ 2 = 2 - 2 * Real.cos x := by
    rw [Complex.sq_abs, Complex.normSq_apply]
    simp only [Complex.sub_re, Complex.sub_im, Complex.exp_ofReal_mul_I_re,
      Complex.exp_ofReal_mul_I_im, Complex.one_re, Complex.one_im, sub_zero]
    have := Real.sin_sq_add_cos_sq x
    nlinarith
  have hcos := Real.one_sub_sq_div_two_le_cos (x := x)
  apply abs_le_of_sq_le_sq' _ (abs_nonneg x) |>.2
  rw [hsq, sq_abs]
  linarith

/-- The constant `M_PI` and three roundings stay within `2 ^ (-48)` of `2π`. -/
theorem two_mul_M_PI_near_two_pi :
    2 * Real.pi - 1 / 2 ^ 48 ≤ ((2 * M_PI * (1 - 1 / 2 ^ 53) ^ 3 : ℚ) : ℝ) ∧
      ((2 * M_PI * (1 + 1 / 2 ^ 53) ^ 3 : ℚ) : ℝ) ≤ 2 * Real.pi + 1 / 2 ^ 48 := by
  have hlo := Real.pi_gt_d20
  have hhi := Real.pi_lt_d20
  unfold M_PI
  push_cast
  constructor
  · have h : 2 * (3.14159265358979323847 : ℝ) - 1 / 2 ^ 48 ≤
        2 * (884279719003555 / 281474976710656) * (1 - 1 / 2 ^ 53) ^ 3 := by norm_num
    linarith
  · have h : 2 * (884279719003555 / 281474976710656) * (1 + 1 / 2 ^ 53) ^ 3 ≤
        2 * (3.14159265358979323846 : ℝ) + 1 / 2 ^ 48 := by norm_num
    linarith

theorem qft_angle_double_near (k n w : Nat) (hw : w < 64) :
    |(qft_angle_double k n w : ℝ) -
        2 * Real.pi * (((k * n) % 2 ^ 64 : Nat) : ℝ) / ((shl_one w : Nat) : ℝ)| ≤
      (((k * n) % 2 ^ 64 : Nat) : ℝ) / 2 ^ w / 2 ^ 48 := by
  obtain ⟨hlo, hhi⟩ := qft_angle_double_bounds k n w hw
  obtain ⟨hplo, hphi⟩ := two_mul_M_PI_near_two_pi
  have hlo2 : ((2 * M_PI * (1 - 1 / 2 ^ 53) ^ 3 *
      ((((k * n) % 2 ^ 64 : Nat) : ℚ) / 2 ^ w) : ℚ) : ℝ) ≤ (qft_angle_double k n w : ℝ) :=
    Rat.cast_le.mpr hlo
  have hhi2 : ((qft_angle_double k n w : ℚ) : ℝ) ≤
      ((2 * M_PI * (1 + 1 / 2 ^ 53) ^ 3 * ((((k * n) % 2 ^ 64 : Nat) : ℚ) / 2 ^ w) : ℚ) : ℝ) :=
    Rat.cast_le.mpr hhi
  rw [Rat.cast_mul] at hlo2 hhi2
  rw [shl_one_eq_two_pow w hw]
  have hq : (0 : ℝ) ≤ (((k * n) % 2 ^ 64 : Nat) : ℝ) / 2 ^ w := by positivity
  have hcast : (((((k * n) % 2 ^ 64 : Nat) : ℚ) / 2 ^ w : ℚ) : ℝ) =
      (((k * n) % 2 ^ 64 : Nat) : ℝ) / 2 ^ w := by push_cast; rfl
  rw [hcast] at hlo2 hhi2
  have htheta : 2 * Real.pi * (((k * n) % 2 ^ 64 : Nat) : ℝ) / ((2 ^ w : Nat) : ℝ) =
      2 * Real.pi * ((((k * n) % 2 ^ 64 : Nat) : ℝ) / 2 ^ w) := by
    push_cast
    ring
  rw [htheta]
  generalize (((k * n) % 2 ^ 64 : Nat) : ℝ) / 2 ^ w = q at hq hlo2 hhi2 ⊢
  generalize ((2 * M_PI * (1 - 1 / 2 ^ 53) ^ 3 : ℚ) : ℝ) = clo at hplo hlo2
  generalize ((2 * M_PI * (1 + 1 / 2 ^ 53) ^ 3 : ℚ) : ℝ) = chi at hphi hhi2
  rw [abs_le]
  constructor
  · nlinarith
  · nlinarith

/-- The constant `M_PI` is the decimal `3.14159265358979323846` of `<cmath>` rounded to
`double`. -/
theorem round_double_M_PI_literal :
    round_double (314159265358979323846 / 100000000000000000000) = M_PI := by
  have hlog : Int.log 2 |(314159265358979323846 / 100000000000000000000 : ℚ)| = 1 := by
    apply le_antisymm
    · have h : Int.log 2 |(314159265358979323846 / 100000000000000000000 : ℚ)| < 2 := by
        rw [← @Int.lt_zpow_iff_log_lt ℚ _ _ 2 (by norm_num) _ _ (by norm_num)]
        norm_num [abs_of_pos]
      omega
    · rw [← @Int.zpow_le_iff_le_log ℚ _ _ 2 (by norm_num) _ _ (by norm_num)]
      norm_num [abs_of_pos]
  have hfloor : ⌊(314159265358979323846 / 100000000000000000000 : ℚ) / 2 ^ (1 - 52 : ℤ)⌋ =
      7074237752028440 := by
    rw [Int.floor_eq_iff]
    norm_num
  unfold round_double round_half_even
  rw [if_neg (by norm_num), hlog, hfloor, if_pos (by norm_num)]
  unfold M_PI
  norm_num

theorem qft_angle_double_large_product :
    qft_angle_double (2 ^ 27) (2 ^ 27) 2 = 884279719003555 * 2 ^ 5 := by
  rw [qft_angle_double_eq _ _ _ (by norm_num)]
  have hp : (((2 ^ 27 * 2 ^ 27) % 2 ^ 64 : Nat) : ℚ) = 2 ^ 54 := by norm_num
  have h1 : 2 * M_PI * (2 : ℚ) ^ 54 = ((884279719003555 : ℤ) : ℚ) * 2 ^ (7 : ℤ) := by
    unfold M_PI
    norm_num
  have h2 : ((884279719003555 : ℤ) : ℚ) * 2 ^ (7 : ℤ) / 2 ^ 2 =
      ((884279719003555 : ℤ) : ℚ) * 2 ^ (5 : ℤ) := by norm_num
  rw [hp, round_double_two_pow, h1, round_double_dyadic _ _ (by norm_num), h2,
    round_double_dyadic _ _ (by norm_num)]
  norm_num

/-- C16, as stated, fails for `k = n = 2 ^ 27` and `w = 2`, where the product `2 ^ 54` neither
wraps nor is rounded: the angle is `M_PI * 2 ^ 53` exactly, and because `M_PI` is not π its
exact cosine, the real part of `qft_phase_factor(k, n, w)`, is below `1 / 2`, whereas
`e^(2πi·k·n / 2^w)` is 1. -/
theorem qft_phase_factor_large_product :
    (qft_angle_double (2 ^ 27) (2 ^ 27) 2 : ℚ) = M_PI * 2 ^ 53 ∧
      (qft_phase_factor_double (2 ^ 27) (2 ^ 27) 2).re < 1 / 2 ∧
      Complex.exp (2 * Real.pi * Complex.I * (((2 ^ 27 : Nat) : ℂ) * ((2 ^ 27 : Nat) : ℂ)) /
        (2 : ℂ) ^ 2) = 1 := by
  refine ⟨?_, ?_, ?_⟩
  · rw [qft_angle_double_large_product]
    unfold M_PI
    norm_num
  · unfold qft_phase_factor_double
    simp only
    rw [qft_angle_double_large_product]
    have hlo := Real.pi_gt_d20
    have hhi := Real.pi_lt_d20
    have hper : Real.cos (((884279719003555 * 2 ^ 5 : ℚ) : ℝ)) =
        Real.cos ((2 ^ 52 : ℕ) * (2 * Real.pi) - ((884279719003555 * 2 ^ 5 : ℚ) : ℝ)) := by
      rw [Real.cos_nat_mul_two_pi_sub]
    rw [hper, ← Real.cos_pi_div_three]
    apply Real.cos_lt_cos_of_nonneg_of_le_pi
    · positivity
    · push_cast
      norm_num at hlo hhi ⊢
      linarith
    · push_cast
      norm_num at hlo hhi ⊢
      linarith
  · have h : 2 * (Real.pi : ℂ) * Complex.I * (((2 ^ 27 : Nat) : ℂ) * ((2 ^ 27 : Nat) : ℂ)) /
        (2 : ℂ) ^ 2 = ((2 ^ 52 : ℕ) : ℂ) * (2 * Real.pi * Complex.I) := by
      push_cast
      ring
    rw [h, Complex.exp_nat_mul_two_pi_mul_I]

/-- C16 (amended): for every width `w ≤ 63` and all `k`, `n` representable in 64 bits,
`qft_phase_factor(k, n, w)`, with the angle computed in binary64 arithmetic from the constant
`M_PI` and the functions `cos` and `sin` exact, has magnitude 1 and differs from
`e^(2πi·k·n / 2^w)` for the unbounded product `k * n` by at most
`((k * n mod 2 ^ 64) / 2 ^ w) · 2 ^ (-48)` in magnitude, also when the 64-bit product wraps;
with the exact π and exact real arithmetic for the angle as well, it equals
`e^(2πi·k·n / 2^w)`. -/
theorem qft_phase_factor_spec (k n w : Nat) (hw : w ≤ 63) (_hk : k < 2 ^ 64)
    (_hn : n < 2 ^ 64) :
    Complex.abs (qft_phase_factor_double k n w) = 1 ∧
      Complex.abs (qft_phase_factor_double k n w -
          Complex.exp (2 * Real.pi * Complex.I * ((k : ℂ) * (n : ℂ)) / (2 : ℂ) ^ w)) ≤
        (((k * n) % 2 ^ 64 : Nat) : ℝ) / 2 ^ w / 2 ^ 48 ∧
      qft_phase_factor k n w =
        Complex.exp (2 * Real.pi * Complex.I * ((k : ℂ) * (n : ℂ)) / (2 : ℂ) ^ w) := by
  have hexp : qft_phase_factor k n w =
      Complex.exp (2 * Real.pi * Complex.I * ((k : ℂ) * (n : ℂ)) / (2 : ℂ) ^ w) := by
    rw [qft_phase_factor_eq_exp k n w (by omega)]
    push_cast
    rfl
  refine ⟨?_, ?_, hexp⟩
  · unfold qft_phase_factor_double
    rw [mk_cos_sin_eq_exp, Complex.abs_exp_ofReal_mul_I]
  · rw [← hexp]
    unfold qft_phase_factor_double qft_phase_factor
    simp only
    rw [mk_cos_sin_eq_exp, mk_cos_sin_eq_exp]
    exact (abs_exp_sub_exp_le _ _).trans (qft_angle_double_near k n w (by omega))

theorem qft_phase_factor_spec_witness :
    Complex.abs (qft_phase_factor_double 3 5 3) = 1 ∧
      Complex.abs (qft_phase_factor_double 3 5 3 -
          Complex.exp (2 * Real.pi * Complex.I * (((3 : Nat) : ℂ) * ((5 : Nat) : ℂ)) /
            (2 : ℂ) ^ 3)) ≤
        (((3 * 5) % 2 ^ 64 : Nat) : ℝ) / 2 ^ 3 / 2 ^ 48 ∧
      qft_phase_factor 3 5 3 =
        Complex.exp (2 * Real.pi * Complex.I * (((3 : Nat) : ℂ) * ((5 : Nat) : ℂ)) /
          (2 : ℂ) ^ 3) :=
  qft_phase_factor_spec 3 5 3 (by decide) (by decide) (by decide)

/-! ## Orthogonality of the Fourier coefficients -/

theorem qft_phase_factor_eq_pow (a b n : Nat) (hn : n < 64) :
    qft_phase_factor a b n =
      Complex.exp (2 * Real.pi * Complex.I / ((2 ^ n : Nat) : ℂ)) ^ (a * b) := by
  rw [qft_phase_factor_eq_exp a b n hn, ← Complex.exp_nat_mul]
  congr 1
  push_cast
  ring

theorem conj_qft_phase_factor (a b n : Nat) :
    (starRingEnd ℂ) (qft_phase_factor a b n) = (qft_phase_factor a b n)⁻¹ := by
  have h : ‖qft_phase_factor a b n‖ = 1 := by
    rw [Complex.norm_eq_abs]
    exact abs_qft_phase_factor a b n
  exact (Complex.inv_eq_conj h).symm

theorem normalization_mul_self (n : Nat) (hn : n < 64) :
    ((1 / Real.sqrt ((shl_one n : Nat) : ℝ) : ℝ) : ℂ) *
        ((1 / Real.sqrt ((shl_one n : Nat) : ℝ) : ℝ) : ℂ) = 1 / ((2 ^ n : Nat) : ℂ) := by
  rw [shl_one_eq_two_pow n hn, ← Complex.ofReal_mul]
  have hpos : (0 : ℝ) ≤ ((2 ^ n : Nat) : ℝ) := Nat.cast_nonneg _
  have hne : Real.sqrt ((2 ^ n : Nat) : ℝ) ≠ 0 := by
    rw [Real.sqrt_ne_zero hpos]
    exact_mod_cast (pow_ne_zero n (by norm_num : (2 : ℕ) ≠ 0))
  have h : (1 / Real.sqrt ((2 ^ n : Nat) : ℝ)) * (1 / Real.sqrt ((2 ^ n : Nat) : ℝ)) =
      1 / ((2 ^ n : Nat) : ℝ) := by
    rw [div_mul_div_comm, one_mul, Real.mul_self_sqrt hpos]
  rw [h]
  push_cast
  rfl

/-- The rows of the forward coefficients are orthonormal to the rows of the inverse ones. -/
theorem qft_coefficient_orthogonal (n k l : Nat) (hn : n < 64) (hk : k < 2 ^ n)
    (hl : l < 2 ^ n) :
    ∑ j in Finset.range (2 ^ n), qft_coefficient n false j l * qft_coefficient n true k j =
      if l = k then 1 else 0 := by
  set ζ : ℂ := Complex.exp (2 * Real.pi * Complex.I / ((2 ^ n : Nat) : ℂ)) with hζdef
  have hM : (2 ^ n : Nat) ≠ 0 := pow_ne_zero n (by norm_num)
  have hprim : IsPrimitiveRoot ζ (2 ^ n) := Complex.isPrimitiveRoot_exp (2 ^ n) hM
  have hζ0 : ζ ≠ 0 := Complex.exp_ne_zero _
  have hterm : ∀ j, qft_coefficient n false j l * qft_coefficient n true k j =
      (1 / ((2 ^ n : Nat) : ℂ)) * (ζ ^ l * (ζ ^ k)⁻¹) ^ j := by
    intro j
    simp only [qft_coefficient, if_true, Bool.false_eq_true, if_false, conj_qft_phase_factor]
    rw [qft_phase_factor_eq_pow j l n hn, qft_phase_factor_eq_pow k j n hn, ← hζdef,
      mul_mul_mul_comm, normalization_mul_self n hn, mul_comm (_ * _) (1 / _)]
    congr 1
    rw [mul_pow, ← pow_mul, inv_pow, ← pow_mul, Nat.mul_comm j l]
  simp only [hterm, ← Finset.mul_sum]
  by_cases hlk : l = k
  · subst hlk
    rw [if_pos rfl, mul_inv_cancel₀ (pow_ne_zero l hζ0)]
    simp only [one_pow, Finset.sum_const, Finset.card_range, nsmul_eq_mul, mul_one]
    rw [one_div, inv_mul_cancel₀]
    exact_mod_cast hM
  · rw [if_neg hlk]
    have hη1 : ζ ^ l * (ζ ^ k)⁻¹ ≠ 1 := by
      intro h
      apply hlk
      apply hprim.pow_inj hl hk
      have := congrArg (fun z => z * ζ ^ k) h
      simpa [mul_assoc, inv_mul_cancel₀ (pow_ne_zero k hζ0)] using this
    have hηM : (ζ ^ l * (ζ ^ k)⁻¹) ^ (2 ^ n) = 1 := by
      rw [mul_pow, inv_pow, ← pow_mul, ← pow_mul, Nat.mul_comm l, Nat.mul_comm k, pow_mul,
        pow_mul, hprim.pow_eq_one]
      simp
    rw [geom_sum_eq hη1, hηM]
    simp

/-! ## The transform on the full register -/

/-- On the full register `[0, …, n - 1]` with `1 ≤ n < 64`, `apply_qft` returns the vector
whose entry `k` is the sum over `j` of the input amplitude at `j` times the coefficient of
the pair `(k, j)`. -/
theorem apply_qft_full_register (n : Nat) (state : List ℂ) (inverse : Bool) (hn : n < 64)
    (hpos : 0 < n) (hlen : state.length = 2 ^ n) :
    ∃ s, apply_qft state (2 ^ n) (List.range n) inverse = .returned s ∧ s.length = 2 ^ n ∧
      ∀ k, k < 2 ^ n →
        s.getD k 0 = ∑ j in Finset.range (2 ^ n), state.getD j 0 * qft_coefficient n inverse k j := by
  have hne : List.range n ≠ [] := by
    intro h
    have := congrArg List.length h
    simp at this
    omega
  obtain ⟨s, hrun, hslen, hv⟩ := apply_qft_closed_form n state (List.range n) inverse hlen hne
  refine ⟨s, hrun, hslen, ?_⟩
  intro k hk
  rw [hv k]
  simp only [List.length_range, shl_one_eq_two_pow n hn]
  have hstep : ∀ o, o ∈ Finset.range (2 ^ n) →
      (∑ i in Finset.range (2 ^ n),
        if scatter_bits (List.range n) o n = k then
          state.getD (scatter_bits (List.range n) i n) 0 * qft_coefficient n inverse o i
        else 0) =
      if o = k then ∑ i in Finset.range (2 ^ n), state.getD i 0 * qft_coefficient n inverse o i
      else 0 := by
    intro o ho
    rw [scatter_bits_range_of_lt n o (by omega) (Finset.mem_range.mp ho)]
    by_cases hok : o = k
    · simp only [hok, if_true]
      apply Finset.sum_congr rfl
      intro i hi
      rw [scatter_bits_range_of_lt n i (by omega) (Finset.mem_range.mp hi)]
    · simp only [hok, if_false, Finset.sum_const_zero]
  rw [Finset.sum_congr rfl hstep, Finset.sum_ite_eq', if_pos (Finset.mem_range.mpr hk)]

theorem getElem?_of_getD {s : List ℂ} {k : Nat} {v : ℂ} (hk : k < s.length)
    (h : s.getD k 0 = v) : s[k]? = some v := by
  rw [List.getD_eq_getElem?_getD, List.getElem?_eq_getElem hk] at h
  rw [List.getElem?_eq_getElem hk]
  simpa using h

theorem apply_qft_nil (N : Nat) (state : List ℂ) (inverse : Bool) :
    apply_qft state (2 ^ N) [] inverse = .returned state := by
  simp only [apply_qft, log2_size_t_two_pow, List.length_nil, if_true]

/-- Two successive transforms on the full register, forward then inverse, restore the state
(`1 ≤ n < 64`). -/
theorem apply_qft_round_trip_pos (n : Nat) (state : List ℂ) (hn : n < 64) (hpos : 0 < n)
    (hlen : state.length = 2 ^ n) :
    (apply_qft state (2 ^ n) (List.range n) false).andThen
      (fun s => apply_qft s (2 ^ n) (List.range n) true) = .returned state := by
  obtain ⟨s1, hrun1, hlen1, hv1⟩ := apply_qft_full_register n state false hn hpos hlen
  obtain ⟨s2, hrun2, hlen2, hv2⟩ := apply_qft_full_register n s1 true hn hpos hlen1
  simp only [hrun1, Outcome.andThen, hrun2]
  congr 1
  apply List.ext_getElem?
  intro k
  by_cases hk : k < 2 ^ n
  · have hval : s2.getD k 0 = state.getD k 0 := by
      rw [hv2 k hk]
      have h1 : ∀ j, j ∈ Finset.range (2 ^ n) →
          s1.getD j 0 * qft_coefficient n true k j =
            ∑ l in Finset.range (2 ^ n),
              state.getD l 0 * (qft_coefficient n false j l * qft_coefficient n true k j) := by
        intro j hj
        rw [hv1 j (Finset.mem_range.mp hj), Finset.sum_mul]
        apply Finset.sum_congr rfl
        intro l _
        ring
      rw [Finset.sum_congr rfl h1, Finset.sum_comm]
      have h2 : ∀ l, l ∈ Finset.range (2 ^ n) →
          (∑ j in Finset.range (2 ^ n),
            state.getD l 0 * (qft_coefficient n false j l * qft_coefficient n true k j)) =
          if l = k then state.getD l 0 else 0 := by
        intro l hl
        rw [← Finset.mul_sum, qft_coefficient_orthogonal n k l hn hk (Finset.mem_range.mp hl)]
        split <;> simp
      rw [Finset.sum_congr rfl h2, Finset.sum_ite_eq', if_pos (Finset.mem_range.mpr hk)]
    rw [getElem?_of_getD (by omega) hval, List.getD_eq_getElem?_getD,
      List.getElem?_eq_getElem (by omega : k < state.length)]
    rfl
  · rw [List.getElem?_eq_none (by omega), List.getElem?_eq_none (by omega)]

/-- C11: for every `n < 64` (in particular `n` from 1 to 4), every state vector of length
`2 ^ n` and the qubit list `[0, …, n - 1]`, `apply_qft` with `inverse = false` followed by
`apply_qft` with `inverse = true` on the same list returns, and returns exactly the original
vector (exact complex arithmetic). -/
theorem qft_round_trip (n : Nat) (state : List ℂ) (hn : n < 64)
    (hlen : state.length = 2 ^ n) :
    (apply_qft state (2 ^ n) (List.range n) false).andThen
      (fun s => apply_qft s (2 ^ n) (List.range n) true) = .returned state := by
  rcases Nat.eq_zero_or_pos n with h0 | hpos
  · subst h0
    simp only [List.range_zero, apply_qft_nil, Outcome.andThen]
  · exact apply_qft_round_trip_pos n state hn hpos hlen

theorem qft_round_trip_witness :
    (apply_qft [1, 0, Complex.I, 0] (2 ^ 2) (List.range 2) false).andThen
      (fun s => apply_qft s (2 ^ 2) (List.range 2) true) = .returned [1, 0, Complex.I, 0] :=
  qft_round_trip 2 [1, 0, Complex.I, 0] (by decide) (by rfl)

theorem qft_coefficient_eq (n : Nat) (inverse : Bool) (k j : Nat) (hn : n < 64) :
    qft_coefficient n inverse k j =
      (if inverse then
          (starRingEnd ℂ) (Complex.exp (2 * Real.pi * Complex.I * (k : ℂ) * (j : ℂ) / (2 : ℂ) ^ n))
        else Complex.exp (2 * Real.pi * Complex.I * (k : ℂ) * (j : ℂ) / (2 : ℂ) ^ n)) *
        ((1 / Real.sqrt ((2 : ℝ) ^ n) : ℝ) : ℂ) := by
  have hphase : qft_phase_factor k j n =
      Complex.exp (2 * Real.pi * Complex.I * (k : ℂ) * (j : ℂ) / (2 : ℂ) ^ n) := by
    rw [qft_phase_factor_eq_exp k j n hn]
    push_cast
    congr 1
    ring
  have hnorm : (((shl_one n : Nat) : ℝ)) = (2 : ℝ) ^ n := by
    rw [shl_one_eq_two_pow n hn]
    push_cast
    rfl
  simp only [qft_coefficient, hphase, hnorm]

theorem basis_zero_getD (m j : Nat) :
    ((1 : ℂ) :: List.replicate m 0).getD j 0 = if j = 0 then 1 else 0 := by
  cases j with
  | zero => simp
  | succ j =>
    rw [if_neg (Nat.succ_ne_zero j), List.getD_cons_succ, List.getD_eq_getElem?_getD,
      List.getElem?_replicate]
    split <;> rfl

/-- C19: for the full-register qubit list `[0, …, n - 1]` on a state of length `2 ^ n`
(`n < 64`), `apply_qft` returns a vector of the same length whose entry `k` is
`(1 / sqrt(2 ^ n)) * Σ_j state[j] * e^(2πi·k·j / 2 ^ n)`, with the complex-conjugated kernel when
`inverse` is set; in particular the basis state with amplitude 1 at index 0 is mapped to the
vector with amplitude `1 / sqrt(2 ^ n)` at every index. -/
theorem qft_full_register_spec (n : Nat) (state : List ℂ) (inverse : Bool) (hn : n < 64)
    (hlen : state.length = 2 ^ n) :
    ∃ s, apply_qft state (2 ^ n) (List.range n) inverse = .returned s ∧ s.length = 2 ^ n ∧
      (∀ k : Nat, k < 2 ^ n →
        s[k]? = some (((1 / Real.sqrt ((2 : ℝ) ^ n) : ℝ) : ℂ) *
          ∑ j in Finset.range (2 ^ n), state.getD j 0 *
            (if inverse then
              (starRingEnd ℂ)
                (Complex.exp (2 * Real.pi * Complex.I * (k : ℂ) * (j : ℂ) / (2 : ℂ) ^ n))
            else Complex.exp (2 * Real.pi * Complex.I * (k : ℂ) * (j : ℂ) / (2 : ℂ) ^ n)))) ∧
      (state = 1 :: List.replicate (2 ^ n - 1) 0 →
        ∀ k : Nat, k < 2 ^ n → s[k]? = some (((1 / Real.sqrt ((2 : ℝ) ^ n) : ℝ) : ℂ))) := by
  have hformula : ∃ s, apply_qft state (2 ^ n) (List.range n) inverse = .returned s ∧
      s.length = 2 ^ n ∧
      ∀ k : Nat, k < 2 ^ n →
        s[k]? = some (((1 / Real.sqrt ((2 : ℝ) ^ n) : ℝ) : ℂ) *
          ∑ j in Finset.range (2 ^ n), state.getD j 0 *
            (if inverse then
              (starRingEnd ℂ)
                (Complex.exp (2 * Real.pi * Complex.I * (k : ℂ) * (j : ℂ) / (2 : ℂ) ^ n))
            else Complex.exp (2 * Real.pi * Complex.I * (k : ℂ) * (j : ℂ) / (2 : ℂ) ^ n))) := by
    rcases Nat.eq_zero_or_pos n with h0 | hpos
    · subst h0
      refine ⟨state, by rw [List.range_zero, apply_qft_nil], hlen, ?_⟩
      intro k hk
      have hk0 : k = 0 := by simpa using hk
      subst hk0
      have h0len : 0 < state.length := by rw [hlen]; norm_num
      rw [List.getElem?_eq_getElem h0len]
      cases inverse <;> simp [List.getD_eq_getElem?_getD, List.getElem?_eq_getElem h0len]
    · obtain ⟨s, hrun, hslen, hv⟩ := apply_qft_full_register n state inverse hn hpos hlen
      refine ⟨s, hrun, hslen, ?_⟩
      intro k hk
      apply getElem?_of_getD (by omega)
      rw [hv k hk, Finset.mul_sum]
      apply Finset.sum_congr rfl
      intro j _
      rw [qft_coefficient_eq n inverse k j hn]
      ring
  obtain ⟨s, hrun, hslen, hv⟩ := hformula
  refine ⟨s, hrun, hslen, hv, ?_⟩
  intro hstate k hk
  rw [hv k hk, hstate]
  congr 1
  have hsum : ∑ j in Finset.range (2 ^ n), ((1 : ℂ) :: List.replicate (2 ^ n - 1) 0).getD j 0 *
      (if inverse then
        (starRingEnd ℂ)
          (Complex.exp (2 * Real.pi * Complex.I * (k : ℂ) * (j : ℂ) / (2 : ℂ) ^ n))
      else Complex.exp (2 * Real.pi * Complex.I * (k : ℂ) * (j : ℂ) / (2 : ℂ) ^ n)) = 1 := by
    rw [Finset.sum_eq_single 0]
    · cases inverse <;> simp
    · intro j _ hj
      rw [basis_zero_getD, if_neg hj, zero_mul]
    · intro h
      exact absurd (Finset.mem_range.mpr (by positivity)) h
  rw [hsum, mul_one]

theorem qft_full_register_spec_witness :
    ∃ s, apply_qft [1, 0, 0, 0] (2 ^ 2) (List.range 2) false = .returned s ∧
      ∀ k : Nat, k < 2 ^ 2 → s[k]? = some (1 / 2) := by
  obtain ⟨s, hrun, _, _, hbasis⟩ :=
    qft_full_register_spec 2 [1, 0, 0, 0] false (by decide) (by rfl)
  refine ⟨s, hrun, ?_⟩
  intro k hk
  rw [hbasis (by rfl) k hk]
  have hsqrt : Real.sqrt ((2 : ℝ) ^ 2) = 2 := Real.sqrt_sq (by norm_num)
  rw [hsqrt]
  push_cast
  rfl

/-! ## The transform on a part of the register -/

/-- The result of `apply_qft` is zero at every index that has a bit outside the participating
qubits. -/
theorem apply_qft_zero_of_spectator (N : Nat) (state : List ℂ) (qubits : List Nat)
    (inverse : Bool) (hlen : state.length = 2 ^ N) (hne : qubits ≠ []) :
    ∃ s, apply_qft state (2 ^ N) qubits inverse = .returned s ∧ s.length = 2 ^ N ∧
      ∀ K b, b ∉ qubits → Nat.testBit K b = true → s.getD K 0 = 0 := by
  obtain ⟨s, hrun, hslen, hv⟩ := apply_qft_closed_form N state qubits inverse hlen hne
  refine ⟨s, hrun, hslen, ?_⟩
  intro K b hb hK
  rw [hv K]
  apply Finset.sum_eq_zero
  intro o _
  apply Finset.sum_eq_zero
  intro i _
  rw [if_neg]
  intro h
  have hbit := scatter_bits_testBit_of_not_mem qubits o N b hb
  rw [h, hK] at hbit
  exact absurd hbit (by decide)

/-- The result of `apply_qft` depends only on the input amplitudes at the indices that have
no bit outside the participating qubits. -/
theorem apply_qft_congr_of_spectator (N : Nat) (state state2 : List ℂ) (qubits : List Nat)
    (inverse : Bool) (hlen : state.length = 2 ^ N) (hlen2 : state2.length = 2 ^ N)
    (hne : qubits ≠ [])
    (hagree : ∀ j, j < 2 ^ N → (∀ b, b ∉ qubits → Nat.testBit j b = false) →
      state2[j]? = state[j]?) :
    apply_qft state2 (2 ^ N) qubits inverse = apply_qft state (2 ^ N) qubits inverse := by
  obtain ⟨s, hrun, hslen, hv⟩ := apply_qft_closed_form N state qubits inverse hlen hne
  obtain ⟨s2, hrun2, hslen2, hv2⟩ := apply_qft_closed_form N state2 qubits inverse hlen2 hne
  rw [hrun, hrun2]
  congr 1
  apply List.ext_getElem?
  intro K
  by_cases hK : K < 2 ^ N
  · have hval : s2.getD K 0 = s.getD K 0 := by
      rw [hv K, hv2 K]
      apply Finset.sum_congr rfl
      intro o _
      apply Finset.sum_congr rfl
      intro i _
      have hin : state2.getD (scatter_bits qubits i N) 0 =
          state.getD (scatter_bits qubits i N) 0 := by
        rw [List.getD_eq_getElem?_getD, List.getD_eq_getElem?_getD,
          hagree _ (scatter_bits_lt qubits i N N (Nat.le_refl _))
            (fun b hb => scatter_bits_testBit_of_not_mem qubits i N b hb)]
      rw [hin]
    rw [getElem?_of_getD (by omega) hval, List.getD_eq_getElem?_getD,
      List.getElem?_eq_getElem (by omega : K < s.length)]
    rfl
  · rw [List.getElem?_eq_none (by omega), List.getElem?_eq_none (by omega)]

/-- C13: on a 2-qubit register with amplitude 1 at index 2 only, `apply_qft` on the qubit
list `[0]` returns the zero vector: the input has squared-magnitude sum 1 and the result has
squared-magnitude sum 0, because index 2 has the non-participating bit 1 set and no pair
`(output, input)` reads or writes such an index. -/
theorem qft_drops_spectator_amplitude :
    apply_qft [0, 0, 1, 0] (2 ^ 2) [0] false = .returned [0, 0, 0, 0] ∧
      (([0, 0, 1, 0] : List ℂ).map Complex.normSq).sum = 1 ∧
      (([0, 0, 0, 0] : List ℂ).map Complex.normSq).sum = 0 := by
  refine ⟨?_, by simp, by simp⟩
  obtain ⟨s, hrun, hslen, hv⟩ :=
    apply_qft_closed_form 2 [0, 0, 1, 0] [0] false (by rfl) (by simp)
  rw [hrun]
  congr 1
  have hzero : ∀ K, s.getD K 0 = 0 := by
    intro K
    rw [hv K]
    apply Finset.sum_eq_zero
    intro o _
    apply Finset.sum_eq_zero
    intro i _
    have hi : scatter_bits [0] i 2 = 0 ∨ scatter_bits [0] i 2 = 1 := by
      simp only [scatter_bits]
      by_cases h : bit_is_set i 0 = true <;> simp [h, shl_one]
    rcases hi with h | h <;> simp [h]
  apply List.ext_getElem?
  intro K
  by_cases hK : K < 4
  · rw [getElem?_of_getD (by omega) (hzero K)]
    have : K = 0 ∨ K = 1 ∨ K = 2 ∨ K = 3 := by omega
    rcases this with h | h | h | h <;> subst h <;> rfl
  · rw [List.getElem?_eq_none (by omega), List.getElem?_eq_none (by simp; omega)]

/-- C20, as stated, fails for the empty qubit list: on a 1-qubit register `apply_qft` with no
qubits returns the state unchanged, so the amplitude at index 1, whose non-participating bit
0 is set, is 1 and not 0. -/
theorem qft_empty_list_keeps_spectator_amplitude :
    ∃ s, apply_qft [0, 1] (2 ^ 1) [] false = .returned s ∧
      ∃ K b, K < 2 ^ 1 ∧ b < 1 ∧ b ∉ ([] : List Nat) ∧ Nat.testBit K b = true ∧
        s[K]? ≠ some 0 := by
  refine ⟨[0, 1], apply_qft_nil 1 [0, 1] false, 1, 0, by decide, by decide, by simp,
    by decide, ?_⟩
  simp

/-- C20 (amended): on a register of `N` qubits, for every non-empty list of distinct qubits
below `N` that is a proper subset of the register, `apply_qft` returns a vector of the same
length that has amplitude 0 at every index in which some non-participating bit is 1, and the
same vector is returned for every input that has the same amplitudes at the indices whose
non-participating bits are all 0. -/
theorem qft_spectator_spec (N : Nat) (state : List ℂ) (qubits : List Nat) (inverse : Bool)
    (hlen : state.length = 2 ^ N) (hne : qubits ≠ []) (_hdistinct : qubits.Nodup)
    (_hrange : ∀ q, q ∈ qubits → q < N) (_hproper : qubits.length < N) :
    ∃ s, apply_qft state (2 ^ N) qubits inverse = .returned s ∧ s.length = 2 ^ N ∧
      (∀ K, K < 2 ^ N → (∃ b, b < N ∧ b ∉ qubits ∧ Nat.testBit K b = true) →
        s[K]? = some 0) ∧
      (∀ state2 : List ℂ, state2.length = 2 ^ N →
        (∀ j, j < 2 ^ N → (∀ b, b < N → b ∉ qubits → Nat.testBit j b = false) →
          state2[j]? = state[j]?) →
        apply_qft state2 (2 ^ N) qubits inverse = .returned s) := by
  obtain ⟨s, hrun, hslen, hzero⟩ := apply_qft_zero_of_spectator N state qubits inverse hlen hne
  refine ⟨s, hrun, hslen, ?_, ?_⟩
  · rintro K hK ⟨b, _, hb, hbit⟩
    exact getElem?_of_getD (by omega) (hzero K b hb hbit)
  · intro state2 hlen2 hagree
    rw [← hrun]
    apply apply_qft_congr_of_spectator N state state2 qubits inverse hlen hlen2 hne
    intro j hj hbits
    apply hagree j hj
    intro b _ hb
    exact hbits b hb

theorem qft_spectator_spec_witness :
    ∃ s, apply_qft [1, 2, 3, 4] (2 ^ 2) [0] false = .returned s ∧ s.length = 2 ^ 2 ∧
      (∀ K, K < 2 ^ 2 → (∃ b, b < 2 ∧ b ∉ [0] ∧ Nat.testBit K b = true) → s[K]? = some 0) ∧
      (∀ state2 : List ℂ, state2.length = 2 ^ 2 →
        (∀ j, j < 2 ^ 2 → (∀ b, b < 2 → b ∉ [0] → Nat.testBit j b = false) →
          state2[j]? = ([1, 2, 3, 4] : List ℂ)[j]?) →
        apply_qft state2 (2 ^ 2) [0] false = .returned s) :=
  qft_spectator_spec 2 [1, 2, 3, 4] [0] false (by rfl) (by simp) (by simp) (by simp)
    (by simp)

/-! ## Grover's algorithm on two qubits -/

theorem apply_hadamard_four_zero (a b c d : ℂ) :
    apply_hadamard [a, b, c, d] 4 0 =
      .returned [(a + b) / Real.sqrt 2, (a - b) / Real.sqrt 2, (c + d) / Real.sqrt 2,
        (c - d) / Real.sqrt 2] := by
  rw [apply_hadamard, if_pos ⟨rfl, by decide⟩]
  simp [List.range_succ, bit_is_set, shl_one]

theorem apply_hadamard_four_one (a b c d : ℂ) :
    apply_hadamard [a, b, c, d] 4 1 =
      .returned [(a + c) / Real.sqrt 2, (b + d) / Real.sqrt 2, (a - c) / Real.sqrt 2,
        (b - d) / Real.sqrt 2] := by
  rw [apply_hadamard, if_pos ⟨rfl, by decide⟩]
  simp [List.range_succ, bit_is_set, shl_one]

theorem sqrt_two_mul_self : ((Real.sqrt 2 : ℝ) : ℂ) * ((Real.sqrt 2 : ℝ) : ℂ) = 2 := by
  rw [← Complex.ofReal_mul, Real.mul_self_sqrt (by norm_num)]
  norm_num

/-- Hadamard on qubit 0 and then on qubit 1 of a 2-qubit register. -/
theorem hadamard_two_qubits (a b c d : ℂ) :
    for_index (fun s i => apply_hadamard s 4 i) 2 [a, b, c, d] =
      .returned [(a + b + c + d) / 2, (a - b + c - d) / 2, (a + b - c - d) / 2,
        (a - b - c + d) / 2] := by
  have hadd : ∀ x y : ℂ, (x / Real.sqrt 2 + y / Real.sqrt 2) / Real.sqrt 2 = (x + y) / 2 := by
    intro x y
    rw [← add_div, div_div, sqrt_two_mul_self]
  have hsub : ∀ x y : ℂ, (x / Real.sqrt 2 - y / Real.sqrt 2) / Real.sqrt 2 = (x - y) / 2 := by
    intro x y
    rw [← sub_div, div_div, sqrt_two_mul_self]
  have hrun : for_index (fun s i => apply_hadamard s 4 i) 2 [a, b, c, d] =
      (apply_hadamard [a, b, c, d] 4 0).andThen fun s => apply_hadamard s 4 1 := rfl
  rw [hrun, apply_hadamard_four_zero]
  simp only [Outcome.andThen]
  rw [apply_hadamard_four_one, hadd, hadd, hsub, hsub]
  have e1 : a + b + (c + d) = a + b + c + d := by ring
  have e2 : a - b + (c - d) = a - b + c - d := by ring
  have e3 : a + b - (c + d) = a + b - c - d := by ring
  have e4 : a - b - (c - d) = a - b - c + d := by ring
  rw [e1, e2, e3, e4]

/-- The diffusion operator on a 2-qubit register. -/
theorem grover_diffusion_four (a b c d : ℂ) :
    grover_diffusion [a, b, c, d] 4 =
      .returned [(a - b - c - d) / 2, (-a + b - c - d) / 2, (-a - b + c - d) / 2,
        (-a - b - c + d) / 2] := by
  have hlog : log2_size_t 4 = some 2 := log2_size_t_two_pow 2
  simp only [grover_diffusion, hlog, hadamard_two_qubits, Outcome.andThen]
  have hneg : ∀ p q r s : ℂ, negate_amplitude [p, q, r, s] 0 = .returned [-p, q, r, s] := by
    intro p q r s
    simp [negate_amplitude]
  simp only [hneg, hadamard_two_qubits]
  congr 2
  · ring
  · congr 1
    · ring
    · congr 1
      · ring
      · congr 1
        ring

theorem grover_evolve_two_qubits (t : Nat) :
    grover_evolve 4 2 t 1 =
      (negate_amplitude [1 / 2, 1 / 2, 1 / 2, (1 / 2 : ℂ)] t).andThen
        fun s => grover_diffusion s 4 := by
  have hinit : (List.replicate 4 (0 : ℂ)).set 0 1 = [1, 0, 0, 0] := rfl
  have hunfold : grover_evolve 4 2 t 1 =
      (for_index (fun s i => apply_hadamard s 4 i) 2 ((List.replicate 4 (0 : ℂ)).set 0 1)).andThen
        fun s => (negate_amplitude s t).andThen fun s => grover_diffusion s 4 := rfl
  rw [hunfold, hinit, hadamard_two_qubits]
  simp only [Outcome.andThen]
  norm_num

/-- C14: with the Hadamard primitive taken as the standard single-qubit Hadamard and exact
arithmetic, `run_grover_algorithm(2, target, 1)` returns `target` for every target below 4. -/
theorem grover_two_qubits (t : Nat) (ht : t < 4) : run_grover_algorithm 2 t 1 = some t := by
  have hshl : shl_one 2 = 4 := by decide
  simp only [run_grover_algorithm, hshl, grover_evolve_two_qubits]
  interval_cases t <;>
    norm_num [negate_amplitude, grover_diffusion_four, Outcome.andThen, grover_measure,
      for_count, grover_measure_body]

theorem grover_two_qubits_witness : run_grover_algorithm 2 3 1 = some 3 :=
  grover_two_qubits 3 (by decide)

/-! ## Order of the controls, buffer bounds, and a target among the controls -/

theorem are_controls_set_perm (index : Nat) (controls controls2 : List Nat)
    (h : controls.Perm controls2) :
    are_controls_set index controls = are_controls_set index controls2 := by
  rw [Bool.eq_iff_iff, are_controls_set_iff, are_controls_set_iff]
  constructor
  · intro hall c hc
    exact hall c (h.mem_iff.mpr hc)
  · intro hall c hc
    exact hall c (h.mem_iff.mp hc)

/-- C21: for every length, state and target, `apply_multi_controlled_x` and
`apply_multi_controlled_z` have the same outcome (the same resulting vector, or the same exit)
for any two control lists that are permutations of each other. -/
theorem multi_controlled_perm {α : Type} [Ring α] (state : List α) (len target : Nat)
    (controls controls2 : List Nat) (h : controls.Perm controls2) :
    apply_multi_controlled_x state len controls target =
        apply_multi_controlled_x state len controls2 target ∧
      apply_multi_controlled_z state len controls target =
        apply_multi_controlled_z state len controls2 target := by
  have hbodyx : @multi_controlled_x_body α controls target =
      multi_controlled_x_body controls2 target := by
    funext s i
    simp only [multi_controlled_x_body, are_controls_set_perm i controls controls2 h]
  have hbodyz : @multi_controlled_z_body α _ controls target =
      multi_controlled_z_body controls2 target := by
    funext s i
    simp only [multi_controlled_z_body, are_controls_set_perm i controls controls2 h]
  constructor
  · simp only [apply_multi_controlled_x, h.length_eq, hbodyx]
  · simp only [apply_multi_controlled_z, h.length_eq, hbodyz]

theorem multi_controlled_perm_witness :
    apply_multi_controlled_x [10, 11, 12, 13, 14, 15, 16, (17 : Int)] 8 [0, 1] 2 =
        apply_multi_controlled_x [10, 11, 12, 13, 14, 15, 16, (17 : Int)] 8 [1, 0] 2 ∧
      apply_multi_controlled_z [10, 11, 12, 13, 14, 15, 16, (17 : Int)] 8 [0, 1] 2 =
        apply_multi_controlled_z [10, 11, 12, 13, 14, 15, 16, (17 : Int)] 8 [1, 0] 2 :=
  multi_controlled_perm [10, 11, 12, 13, 14, 15, 16, 17] 8 2 [0, 1] [1, 0]
    (List.Perm.swap 1 0 [])

/-- C26: for every `N ≥ 3`, every state of length `2 ^ N` and operands below `N`, every partner
index computed by `apply_toffoli_gate`, `apply_fredkin_gate` and `apply_multi_controlled_x`
from a loop index `i < len` is below `len`, and no call takes the out-of-range branch:
Toffoli and Fredkin return, and multi-controlled X returns or exits on its size check. -/
theorem gates_stay_in_bounds {α : Type} (N : Nat) (state : List α) (hN : 3 ≤ N)
    (hlen : state.length = 2 ^ N) :
    (∀ ctrl1 ctrl2 target, ctrl1 < N → ctrl2 < N → target < N →
        (∀ i, i < 2 ^ N → i ^^^ shl_one target < 2 ^ N) ∧
        ∃ s, apply_toffoli_gate state (2 ^ N) ctrl1 ctrl2 target = .returned s) ∧
      (∀ ctrl target1 target2, ctrl < N → target1 < N → target2 < N →
        (∀ i, i < 2 ^ N → (i ^^^ shl_one target1) ^^^ shl_one target2 < 2 ^ N) ∧
        ∃ s, apply_fredkin_gate state (2 ^ N) ctrl target1 target2 = .returned s) ∧
      (∀ controls target, (∀ c, c ∈ controls → c < N) → target < N →
        (∀ i, i < 2 ^ N → i ^^^ shl_one target < 2 ^ N) ∧
        apply_multi_controlled_x state (2 ^ N) controls target ≠ .undefined) := by
  refine ⟨?_, ?_, ?_⟩
  · intro ctrl1 ctrl2 target _ _ ht
    have hf : ∀ i, i < 2 ^ N → i ^^^ shl_one target < 2 ^ N :=
      fun i hi => xor_shl_one_lt i target N hi ht
    refine ⟨hf, ?_⟩
    obtain ⟨s, hrun, _, _⟩ := for_index_pair
      (fun i => bit_is_set i ctrl1 && bit_is_set i ctrl2) (fun i => i ^^^ shl_one target)
      (2 ^ N) state hlen hf (fun k _ => xor_shl_one_involutive k target) (2 ^ N)
      (Nat.le_refl _)
    exact ⟨s, by rw [apply_toffoli_gate_of_size N hN]; exact hrun⟩
  · intro ctrl target1 target2 _ h1 h2
    have hf : ∀ i, i < 2 ^ N → (i ^^^ shl_one target1) ^^^ shl_one target2 < 2 ^ N :=
      fun i hi => xor_two_shl_one_lt i target1 target2 N hi h1 h2
    refine ⟨hf, ?_⟩
    obtain ⟨s, hrun, _, _⟩ := for_index_pair (fun i => bit_is_set i ctrl)
      (fun i => (i ^^^ shl_one target1) ^^^ shl_one target2) (2 ^ N) state hlen hf
      (fun k _ => xor_two_shl_one_involutive k target1 target2) (2 ^ N) (Nat.le_refl _)
    exact ⟨s, by rw [apply_fredkin_gate_of_size N hN]; exact hrun⟩
  · intro controls target _ ht
    have hf : ∀ i, i < 2 ^ N → i ^^^ shl_one target < 2 ^ N :=
      fun i hi => xor_shl_one_lt i target N hi ht
    refine ⟨hf, ?_⟩
    by_cases hsize : controls.length + 1 ≤ N
    · obtain ⟨s, hrun, _, _⟩ := for_index_pair (fun i => are_controls_set i controls)
        (fun i => i ^^^ shl_one target) (2 ^ N) state hlen hf
        (fun k _ => xor_shl_one_involutive k target) (2 ^ N) (Nat.le_refl _)
      rw [apply_multi_controlled_x_of_size N controls hsize, hrun]
      exact fun h => Outcome.noConfusion h
    · have hlt : N < controls.length + 1 := by omega
      simp only [apply_multi_controlled_x, log2_size_t_two_pow, if_pos hlt]
      exact fun h => Outcome.noConfusion h

theorem gates_stay_in_bounds_witness :
    ∃ s, apply_toffoli_gate [10, 11, 12, 13, 14, 15, 16, (17 : Int)] (2 ^ 3) 0 1 2 =
      .returned s :=
  ((gates_stay_in_bounds 3 [10, 11, 12, 13, 14, 15, 16, (17 : Int)] (by decide)
    (by decide)).1 0 1 2 (by decide) (by decide) (by decide)).2

theorem xor_two_pow_lt_of_testBit (i t : Nat) (h : Nat.testBit i t = true) :
    i ^^^ 2 ^ t < i := by
  apply Nat.lt_of_testBit t
  · rw [Nat.testBit_xor, h, Nat.testBit_two_pow_self]
    rfl
  · exact h
  · intro j hj
    rw [Nat.testBit_xor, Nat.testBit_two_pow]
    have hne : ¬ t = j := by omega
    simp [hne]

theorem not_lt_xor_shl_one_of_testBit (i t : Nat) (h : Nat.testBit i t = true) :
    ¬ i < i ^^^ shl_one t := by
  by_cases ht : t < 64
  · rw [shl_one_eq_two_pow t ht]
    exact Nat.lt_asymm (xor_two_pow_lt_of_testBit i t h)
  · have h0 : shl_one t = 0 := by
      unfold shl_one
      rw [Nat.shiftLeft_eq, Nat.one_mul]
      exact Nat.mod_eq_zero_of_dvd (Nat.pow_dvd_pow 2 (by omega))
    rw [h0, Nat.xor_zero]
    exact Nat.lt_irrefl i

/-- A pair loop whose condition excludes `i < f i` never swaps and returns the buffer. -/
theorem for_index_pair_of_never {α : Type} (cond : Nat → Bool) (f : Nat → Nat)
    (hnever : ∀ i, cond i = true → ¬ i < f i) (m : Nat) (state : List α) :
    for_index (pair_body cond f) m state = .returned state := by
  induction m with
  | zero => rfl
  | succ m ih =>
    simp only [for_index, ih, Outcome.andThen, pair_body]
    by_cases hc : cond m = true
    · rw [if_pos hc, if_neg (hnever m hc)]
    · rw [if_neg hc]

/-- C27: when the target is one of the controls, `apply_toffoli_gate` (`target = ctrl1` or
`target = ctrl2`) and `apply_multi_controlled_x` (`target` in `controls`) return the state
vector unchanged, for operands below `N` that pass the size check. -/
theorem target_among_controls {α : Type} (N : Nat) (state : List α)
    (_hlen : state.length = 2 ^ N) :
    (∀ ctrl1 ctrl2 target, 3 ≤ N → ctrl1 < N → ctrl2 < N → target < N →
        (target = ctrl1 ∨ target = ctrl2) →
        apply_toffoli_gate state (2 ^ N) ctrl1 ctrl2 target = .returned state) ∧
      (∀ controls target, controls.length + 1 ≤ N → (∀ c, c ∈ controls → c < N) →
        target < N → target ∈ controls →
        apply_multi_controlled_x state (2 ^ N) controls target = .returned state) := by
  constructor
  · intro ctrl1 ctrl2 target hN _ _ _ htc
    rw [apply_toffoli_gate_of_size N hN]
    apply for_index_pair_of_never
    intro i hc
    simp only [Bool.and_eq_true, bit_is_set_eq_testBit] at hc
    apply not_lt_xor_shl_one_of_testBit
    rcases htc with h | h
    · rw [h]; exact hc.1
    · rw [h]; exact hc.2
  · intro controls target hsize _ _ hmem
    rw [apply_multi_controlled_x_of_size N controls hsize]
    apply for_index_pair_of_never
    intro i hc
    exact not_lt_xor_shl_one_of_testBit i target
      ((are_controls_set_iff i controls).mp hc target hmem)

theorem target_among_controls_witness :
    apply_toffoli_gate [10, 11, 12, 13, 14, 15, 16, (17 : Int)] (2 ^ 3) 0 1 1 =
        .returned [10, 11, 12, 13, 14, 15, 16, 17] ∧
      apply_multi_controlled_x [10, 11, 12, 13, 14, 15, 16, (17 : Int)] (2 ^ 3) [0, 1] 0 =
        .returned [10, 11, 12, 13, 14, 15, 16, 17] :=
  ⟨(target_among_controls 3 [10, 11, 12, 13, 14, 15, 16, 17] (by decide)).1 0 1 1
      (by decide) (by decide) (by decide) (by decide) (by decide),
    (target_among_controls 3 [10, 11, 12, 13, 14, 15, 16, 17] (by decide)).2 [0, 1] 0
      (by decide) (by decide) (by decide) (by decide)⟩

/-! ## The debug printer -/

/-- C22: for the gate list of the program with one `cnot` and one `measurenth` instruction,
`parser::debug_print` writes the line of the CNOT and nothing for the measurement: one line
for two instructions, and no line at all for a program that only measures. -/
theorem debug_print_skips_measure_nth {θ : Type} (fmt_lf : θ → String) :
    debug_print fmt_lf [.ast_cnot_gate_node 0 1, .ast_measure_nth_node 1] =
        "CNOT_GATE: [CONTROL: 0, TARGET: 1]\n" ∧
      line_count (debug_print fmt_lf [.ast_cnot_gate_node 0 1, .ast_measure_nth_node 1]) = 1 ∧
      ([.ast_cnot_gate_node 0 1, .ast_measure_nth_node 1] : List (ast_node θ)).length = 2 ∧
      debug_print fmt_lf [.ast_measure_nth_node 1] = "" := by
  refine ⟨rfl, rfl, rfl, rfl⟩

/-! ## The index lists read by the parser -/

theorem find_comma_of_not_mem (field : List Char) (h : ',' ∉ field) :
    find_comma field = none := by
  unfold find_comma
  rw [if_neg]
  rw [List.indexOf_lt_length]
  exact h

theorem find_comma_append (field rest : List Char) (h : ',' ∉ field) :
    find_comma (field ++ ',' :: rest) = some field.length := by
  have hidx : (field ++ ',' :: rest).indexOf ',' = field.length := by
    rw [List.indexOf_append_of_not_mem h, List.indexOf_cons_self, Nat.add_zero]
  unfold find_comma
  rw [hidx, if_pos (by simp)]

theorem parse_index_loop_last (fuel : Nat) (field : List Char) (controls : List Nat)
    (h : ',' ∉ field) :
    parse_index_loop (fuel + 1) field controls = some (convert_fields [field] controls) := by
  simp only [parse_index_loop, find_comma_of_not_mem field h, convert_fields]
  cases stoul field <;> rfl

theorem parse_index_loop_step (fuel : Nat) (field rest : List Char) (controls : List Nat)
    (h : ',' ∉ field) :
    parse_index_loop (fuel + 1) (field ++ ',' :: rest) controls =
      match stoul field with
      | .ok value => parse_index_loop fuel rest (controls ++ [value])
      | .invalid_argument => some .invalid_argument
      | .out_of_range => some .out_of_range := by
  have htake : (field ++ ',' :: rest).take field.length = field := by simp
  have hdrop : (field ++ ',' :: rest).drop (field.length + 1) = rest := by
    rw [← List.drop_drop]
    simp
  simp only [parse_index_loop, find_comma_append field rest h, htake, hdrop]

/-- With one unit of fuel per field, the loop converts the fields in order. -/
theorem parse_index_loop_join (fields : List (List Char)) (hne : fields ≠ [])
    (hcomma : ∀ f, f ∈ fields → ',' ∉ f) (fuel : Nat) (hfuel : fields.length ≤ fuel)
    (controls : List Nat) :
    parse_index_loop fuel (join_fields fields) controls =
      some (convert_fields fields controls) := by
  induction fields generalizing fuel controls with
  | nil => exact absurd rfl hne
  | cons f rest ih =>
    cases fuel with
    | zero => simp at hfuel
    | succ fuel =>
      cases rest with
      | nil =>
        simp only [join_fields]
        exact parse_index_loop_last fuel f controls (hcomma f (by simp))
      | cons g rest2 =>
        simp only [join_fields]
        rw [parse_index_loop_step fuel f _ controls (hcomma f (by simp))]
        simp only [convert_fields]
        cases hs : stoul f with
        | ok value =>
          simp only
          rw [ih (by simp) (fun x hx => hcomma x (List.mem_cons_of_mem _ hx)) fuel
            (by simpa using hfuel)]
          simp only [convert_fields]
        | invalid_argument => rfl
        | out_of_range => rfl

theorem length_le_join_fields (fields : List (List Char)) :
    fields.length ≤ (join_fields fields).length + 1 := by
  induction fields with
  | nil => simp
  | cons f rest ih =>
    cases rest with
    | nil => simp [join_fields]
    | cons g rest2 =>
      simp only [join_fields, List.length_cons, List.length_append] at ih ⊢
      omega

theorem parse_index_list_join (fields : List (List Char)) (hne : fields ≠ [])
    (hcomma : ∀ f, f ∈ fields → ',' ∉ f) :
    parse_index_list (String.mk (join_fields fields)) =
      some (convert_fields fields []) := by
  unfold parse_index_list
  exact parse_index_loop_join fields hne hcomma _ (length_le_join_fields fields) []

theorem isDigit_iff (c : Char) : c.isDigit = true ↔ 48 ≤ c.toNat ∧ c.toNat ≤ 57 := by
  simp [Char.isDigit, Char.toNat, UInt32.le_def, Fin.le_def]
  rfl

theorem is_space_of_isDigit (c : Char) (h : c.isDigit = true) : is_space c = false := by
  have hr := (isDigit_iff c).mp h
  unfold is_space
  have h1 : (c == ' ') = false := by
    rw [beq_eq_false_iff_ne]
    intro e
    rw [e] at hr
    exact absurd hr (by decide)
  have h2 : (c == '\t') = false := by
    rw [beq_eq_false_iff_ne]
    intro e
    rw [e] at hr
    exact absurd hr (by decide)
  have h3 : (c == '\n') = false := by
    rw [beq_eq_false_iff_ne]
    intro e
    rw [e] at hr
    exact absurd hr (by decide)
  have h4 : (c == '\r') = false := by
    rw [beq_eq_false_iff_ne]
    intro e
    rw [e] at hr
    exact absurd hr (by decide)
  have h5 : (c.toNat == 11) = false := by
    rw [beq_eq_false_iff_ne]
    omega
  have h6 : (c.toNat == 12) = false := by
    rw [beq_eq_false_iff_ne]
    omega
  rw [h1, h2, h3, h4, h5, h6]
  rfl

theorem not_sign_of_isDigit (c : Char) (h : c.isDigit = true) : c ≠ '-' ∧ c ≠ '+' := by
  have hr := (isDigit_iff c).mp h
  constructor
  · intro e
    rw [e] at hr
    exact absurd hr (by decide)
  · intro e
    rw [e] at hr
    exact absurd hr (by decide)

/-- On a non-empty run of digits whose value fits in 64 bits, `std::stoul` returns the
value. -/
theorem stoul_digits (field : List Char) (hne : field ≠ [])
    (hdig : ∀ c, c ∈ field → c.isDigit = true) (hval : decimal_value field < 2 ^ 64) :
    stoul field = .ok (decimal_value field) := by
  cases field with
  | nil => exact absurd rfl hne
  | cons c rest =>
    have hc : c.isDigit = true := hdig c (by simp)
    have hsp : is_space c = false := is_space_of_isDigit c hc
    have hsign := not_sign_of_isDigit c hc
    have hdrop : (c :: rest).dropWhile is_space = c :: rest := by
      simp [List.dropWhile, hsp]
    have htake : (c :: rest).takeWhile Char.isDigit = c :: rest := by
      rw [List.takeWhile_eq_self_iff]
      exact hdig
    have h1 : (some c == some '-') = false := by
      rw [beq_eq_false_iff_ne]
      intro e
      exact hsign.1 (Option.some.inj e)
    have h2 : (some c == some '+') = false := by
      rw [beq_eq_false_iff_ne]
      intro e
      exact hsign.2 (Option.some.inj e)
    have hlt : ¬ 2 ^ 64 ≤ decimal_value (c :: rest) := by omega
    simp only [stoul, hdrop, List.head?_cons, h1, h2, Bool.or_false, Bool.false_eq_true,
      if_false, htake, List.isEmpty_cons, if_neg hlt]

theorem convert_fields_digits (fields : List (List Char))
    (hdig : ∀ f, f ∈ fields → f ≠ [] ∧ ∀ c, c ∈ f → c.isDigit = true)
    (hval : ∀ f, f ∈ fields → decimal_value f < 2 ^ 64) (controls : List Nat) :
    convert_fields fields controls = .ok (controls ++ fields.map decimal_value) := by
  induction fields generalizing controls with
  | nil => simp [convert_fields]
  | cons f rest ih =>
    have hf := hdig f (by simp)
    simp only [convert_fields, stoul_digits f hf.1 hf.2 (hval f (by simp))]
    rw [ih (fun g hg => hdig g (List.mem_cons_of_mem _ hg))
      (fun g hg => hval g (List.mem_cons_of_mem _ hg))]
    simp

theorem convert_fields_of_empty_field (fields : List (List Char)) (h : [] ∈ fields)
    (controls l : List Nat) : convert_fields fields controls ≠ .ok l := by
  induction fields generalizing controls with
  | nil => simp at h
  | cons f rest ih =>
    simp only [convert_fields]
    rcases List.mem_cons.mp h with hf | hrest
    · rw [← hf]
      have : stoul [] = .invalid_argument := by decide
      rw [this]
      exact fun e => Thrown.noConfusion e
    · cases stoul f with
      | ok value => exact ih hrest _
      | invalid_argument => exact fun e => Thrown.noConfusion e
      | out_of_range => exact fun e => Thrown.noConfusion e

theorem not_comma_of_isDigit (c : Char) (h : c.isDigit = true) : c ≠ ',' := by
  have hr := (isDigit_iff c).mp h
  intro e
  rw [e] at hr
  exact absurd hr (by decide)

/-- A list returned by the loop extends the list it started from by at least one entry. -/
theorem parse_index_loop_length (fuel : Nat) (str : List Char) (controls l : List Nat)
    (h : parse_index_loop fuel str controls = some (.ok l)) : controls.length < l.length := by
  induction fuel generalizing str controls with
  | zero => simp [parse_index_loop] at h
  | succ fuel ih =>
    simp only [parse_index_loop] at h
    cases hf : find_comma str with
    | some pos =>
      rw [hf] at h
      simp only at h
      cases hs : stoul (str.take pos) with
      | ok value =>
        rw [hs] at h
        have := ih _ _ h
        simp at this
        omega
      | invalid_argument => rw [hs] at h; simp at h
      | out_of_range => rw [hs] at h; simp at h
    | none =>
      rw [hf] at h
      simp only at h
      cases hs : stoul str with
      | ok value =>
        rw [hs] at h
        simp only [Option.some.injEq, Thrown.ok.injEq] at h
        rw [← h]
        simp
      | invalid_argument => rw [hs] at h; simp at h
      | out_of_range => rw [hs] at h; simp at h

/-- The loop finishes within one more iteration than the operand has characters. -/
theorem parse_index_loop_terminates (fuel : Nat) (str : List Char) (controls : List Nat)
    (h : str.length < fuel) : parse_index_loop fuel str controls ≠ none := by
  induction fuel generalizing str controls with
  | zero => omega
  | succ fuel ih =>
    simp only [parse_index_loop]
    cases hf : find_comma str with
    | some pos =>
      simp only
      have hpos : pos < str.length := by
        unfold find_comma at hf
        split at hf
        · simp only [Option.some.injEq] at hf
          omega
        · simp at hf
      cases hs : stoul (str.take pos) with
      | ok value =>
        simp only
        apply ih
        rw [List.length_drop]
        omega
      | invalid_argument => simp
      | out_of_range => simp
    | none =>
      simp only
      cases hs : stoul str <;> simp

/-- C23, as stated, fails for a decimal integer that does not fit in 64 bits: for the operand
`18446744073709551616`, which is the single decimal integer `2 ^ 64`, `std::stoul` throws
`std::out_of_range` and no list is produced. -/
theorem parse_index_list_out_of_range :
    parse_index_list "18446744073709551616" = some .out_of_range ∧
      decimal_value "18446744073709551616".toList = 2 ^ 64 ∧
      "18446744073709551616" = String.mk (join_fields ["18446744073709551616".toList]) := by
  decide

/-- C23 (amended): for every operand made of `k ≥ 1` decimal integers, each at most
`2 ^ 64 - 1`, separated by single commas, the list read by `parser::perform` for `mcnot`, `mcz`
and `qft` instructions is exactly those `k` integers in the order written; whenever reading
succeeds the list is non-empty; and an empty operand or an empty field makes the reading throw
instead of yielding a list. -/
theorem parse_index_list_spec :
    (∀ fields : List (List Char), fields ≠ [] →
        (∀ f, f ∈ fields → f ≠ [] ∧ ∀ c, c ∈ f → c.isDigit = true) →
        (∀ f, f ∈ fields → decimal_value f < 2 ^ 64) →
        parse_index_list (String.mk (join_fields fields)) =
          some (.ok (fields.map decimal_value))) ∧
      (∀ operand l, parse_index_list operand = some (.ok l) → l ≠ []) ∧
      (∀ operand, parse_index_list operand ≠ none) ∧
      parse_index_list "" = some .invalid_argument ∧
      (∀ fields : List (List Char), (∀ f, f ∈ fields → ',' ∉ f) → [] ∈ fields →
        ∃ e, parse_index_list (String.mk (join_fields fields)) = some e ∧ ∀ l, e ≠ .ok l) := by
  refine ⟨?_, ?_, ?_, by decide, ?_⟩
  · intro fields hne hdig hval
    have hcomma : ∀ f, f ∈ fields → ',' ∉ f := by
      intro f hf hmem
      exact not_comma_of_isDigit ',' ((hdig f hf).2 ',' hmem) rfl
    rw [parse_index_list_join fields hne hcomma, convert_fields_digits fields hdig hval]
    simp
  · intro operand l h hl
    have := parse_index_loop_length _ _ _ _ h
    rw [hl] at this
    simp at this
  · intro operand
    exact parse_index_loop_terminates _ _ _ (Nat.lt_succ_self _)
  · intro fields hcomma hempty
    have hne : fields ≠ [] := by
      intro h
      rw [h] at hempty
      simp at hempty
    exact ⟨convert_fields fields [], parse_index_list_join fields hne hcomma,
      fun l => convert_fields_of_empty_field fields hempty [] l⟩

theorem parse_index_list_spec_witness :
    parse_index_list (String.mk (join_fields [['0'], ['1', '2'], ['7']])) =
      some (.ok [0, 12, 7]) :=
  parse_index_list_spec.1 [['0'], ['1', '2'], ['7']] (by decide) (by decide) (by decide)

/-! ## The calls issued by the decomposed transform -/

/-- A loop whose iteration `j` appends `g j` to the calls issued so far appends the `g j` in
the order of its iterations. -/
theorem for_from_append {β : Type} (body : List β → Nat → Option (List β)) (g : Nat → List β)
    (start count : Nat)
    (hbody : ∀ calls j, start ≤ j → j < start + count → body calls j = some (calls ++ g j))
    (calls : List β) :
    for_from body start count calls = some (calls ++ (List.range' start count).flatMap g) := by
  induction count with
  | zero => simp [for_from]
  | succ count ih =>
    rw [for_from, ih (fun c j h1 h2 => hbody c j h1 (by omega)), Option.some_bind,
      hbody _ (start + count) (by omega) (by omega), List.range'_concat, List.flatMap_append,
      List.flatMap_singleton, Nat.one_mul, List.append_assoc]

theorem flatMap_singleton_eq_map {α β : Type} (f : α → β) (l : List α) :
    l.flatMap (fun x => [f x]) = l.map f := by
  induction l with
  | nil => rfl
  | cons x xs ih => simp [List.flatMap_cons, ih]

/-- Once an iteration is undefined the loop is undefined, however many iterations follow. -/
theorem for_from_none {σ : Type} (body : σ → Nat → Option σ) (start count more : Nat) (s : σ)
    (h : for_from body start count s = none) : for_from body start (count + more) s = none := by
  induction more with
  | zero => exact h
  | succ more ih =>
    show (for_from body start (count + more) s).bind _ = none
    rw [ih]
    rfl

theorem shl_one_checked_of_lt (q : Nat) (h : q < 64) : shl_one_checked q = some (2 ^ q) := by
  unfold shl_one_checked
  rw [if_pos h, Nat.shiftLeft_eq, Nat.one_mul]

theorem qft_decomposed_phase_loop (qubits : List Nat) (inverse : Bool) (i : Nat)
    (hi : i < qubits.length) (hn : qubits.length ≤ 64) (calls : List primitive_call) :
    for_from (qft_decomposed_phase_body qubits inverse i) (i + 1) (qubits.length - (i + 1))
        calls =
      some (calls ++ (List.range' (i + 1) (qubits.length - (i + 1))).map (fun j =>
        primitive_call.phase_shift ((if inverse then -1 else 1) * Real.pi / 2 ^ (j - i))
          (qubits.getD i 0))) := by
  rw [← flatMap_singleton_eq_map]
  apply for_from_append
  intro c j h1 h2
  have hq : qubits[i]? = some (qubits.getD i 0) := by
    rw [List.getD_eq_getElem?_getD, List.getElem?_eq_getElem hi]
    rfl
  simp only [qft_decomposed_phase_body, shl_one_checked_of_lt (j - i) (by omega), hq]
  congr 4
  push_cast
  rfl

theorem qft_decomposed_rotation_loop (qubits : List Nat) (inverse : Bool)
    (hn : qubits.length ≤ 64) :
    for_from (qft_decomposed_rotation_body qubits inverse) 0 qubits.length [] =
      some ((List.range qubits.length).flatMap (fun i =>
        primitive_call.hadamard (qubits.getD i 0) ::
          (List.range' (i + 1) (qubits.length - (i + 1))).map (fun j =>
            primitive_call.phase_shift ((if inverse then -1 else 1) * Real.pi / 2 ^ (j - i))
              (qubits.getD i 0)))) := by
  rw [List.range_eq_range', for_from_append _ _ 0 qubits.length _ [], List.nil_append]
  intro c i _ hi
  have hi2 : i < qubits.length := by omega
  have hq : qubits[i]? = some (qubits.getD i 0) := by
    rw [List.getD_eq_getElem?_getD, List.getElem?_eq_getElem hi2]
    rfl
  simp only [qft_decomposed_rotation_body, hq]
  rw [qft_decomposed_phase_loop qubits inverse i hi2 hn, List.append_assoc]
  rfl

theorem qft_decomposed_swap_loop (qubits : List Nat) (calls : List primitive_call) :
    for_from (qft_decomposed_swap_body qubits) 0 (qubits.length / 2) calls =
      some (calls ++ (List.range (qubits.length / 2)).map (fun k =>
        primitive_call.swap (qubits.getD k 0) (qubits.getD (qubits.length - 1 - k) 0))) := by
  rw [List.range_eq_range', ← flatMap_singleton_eq_map]
  apply for_from_append
  intro c i _ hi
  have hi1 : i < qubits.length := by omega
  have hi2 : qubits.length - 1 - i < qubits.length := by omega
  have hq1 : qubits[i]? = some (qubits.getD i 0) := by
    rw [List.getD_eq_getElem?_getD, List.getElem?_eq_getElem hi1]
    rfl
  have hq2 : qubits[qubits.length - 1 - i]? = some (qubits.getD (qubits.length - 1 - i) 0) := by
    rw [List.getD_eq_getElem?_getD, List.getElem?_eq_getElem hi2]
    rfl
  simp only [qft_decomposed_swap_body, hq1, hq2]

/-- For a list of at most 64 qubits the calls issued are the expected ones. -/
theorem apply_qft_decomposed_eq_expected (qubits : List Nat) (inverse : Bool)
    (hn : qubits.length ≤ 64) :
    apply_qft_decomposed qubits inverse = some (qft_decomposed_expected qubits inverse) := by
  unfold apply_qft_decomposed qft_decomposed_expected
  by_cases h0 : qubits.length = 0
  · simp [h0]
  · simp only [h0, if_false, qft_decomposed_rotation_loop qubits inverse hn, Option.some_bind]
    cases inverse with
    | true => simp
    | false =>
      simp only [Bool.not_false, if_true, qft_decomposed_swap_loop, Bool.false_eq_true,
        if_false, Option.some_bind]

theorem countP_rotation_block (qubits : List Nat) (inverse : Bool) (i : Nat) :
    List.countP primitive_call.is_hadamard
        (primitive_call.hadamard (qubits.getD i 0) ::
          (List.range' (i + 1) (qubits.length - (i + 1))).map (fun j =>
            primitive_call.phase_shift ((if inverse then -1 else 1) * Real.pi / 2 ^ (j - i))
              (qubits.getD i 0))) = 1 ∧
      List.countP primitive_call.is_phase_shift
        (primitive_call.hadamard (qubits.getD i 0) ::
          (List.range' (i + 1) (qubits.length - (i + 1))).map (fun j =>
            primitive_call.phase_shift ((if inverse then -1 else 1) * Real.pi / 2 ^ (j - i))
              (qubits.getD i 0))) = qubits.length - (i + 1) ∧
      List.countP primitive_call.is_swap
        (primitive_call.hadamard (qubits.getD i 0) ::
          (List.range' (i + 1) (qubits.length - (i + 1))).map (fun j =>
            primitive_call.phase_shift ((if inverse then -1 else 1) * Real.pi / 2 ^ (j - i))
              (qubits.getD i 0))) = 0 := by
  refine ⟨?_, ?_, ?_⟩
  · rw [List.countP_cons, List.countP_map, List.countP_eq_zero.mpr]
    · rfl
    · intro a _
      simp [primitive_call.is_hadamard]
  · rw [List.countP_cons, List.countP_map, List.countP_eq_length.mpr]
    · simp [primitive_call.is_phase_shift]
    · intro a _
      simp [primitive_call.is_phase_shift]
  · rw [List.countP_cons, List.countP_map, List.countP_eq_zero.mpr]
    · rfl
    · intro a _
      simp [primitive_call.is_swap]

/-- Numbers of Hadamards, phase shifts and SWAPs among the rotations of the first `m`
qubits. -/
theorem countP_rotations (qubits : List Nat) (inverse : Bool) (m : Nat)
    (hm : m ≤ qubits.length) :
    List.countP primitive_call.is_hadamard
        ((List.range m).flatMap (fun i =>
          primitive_call.hadamard (qubits.getD i 0) ::
            (List.range' (i + 1) (qubits.length - (i + 1))).map (fun j =>
              primitive_call.phase_shift ((if inverse then -1 else 1) * Real.pi / 2 ^ (j - i))
                (qubits.getD i 0)))) = m ∧
      2 * List.countP primitive_call.is_phase_shift
        ((List.range m).flatMap (fun i =>
          primitive_call.hadamard (qubits.getD i 0) ::
            (List.range' (i + 1) (qubits.length - (i + 1))).map (fun j =>
              primitive_call.phase_shift ((if inverse then -1 else 1) * Real.pi / 2 ^ (j - i))
                (qubits.getD i 0)))) + m * (m + 1) = 2 * m * qubits.length ∧
      List.countP primitive_call.is_swap
        ((List.range m).flatMap (fun i =>
          primitive_call.hadamard (qubits.getD i 0) ::
            (List.range' (i + 1) (qubits.length - (i + 1))).map (fun j =>
              primitive_call.phase_shift ((if inverse then -1 else 1) * Real.pi / 2 ^ (j - i))
                (qubits.getD i 0)))) = 0 := by
  induction m with
  | zero => simp
  | succ m ih =>
    obtain ⟨ih1, ih2, ih3⟩ := ih (by omega)
    obtain ⟨b1, b2, b3⟩ := countP_rotation_block qubits inverse m
    rw [List.range_succ, List.flatMap_append, List.flatMap_singleton]
    refine ⟨?_, ?_, ?_⟩
    · rw [List.countP_append, ih1, b1]
    · rw [List.countP_append, b2]
      have hsub : qubits.length - (m + 1) + (m + 1) = qubits.length := by omega
      generalize List.countP primitive_call.is_phase_shift _ = c at ih2 ⊢
      generalize qubits.length - (m + 1) = d at hsub ⊢
      generalize qubits.length = n at hsub ih2 ⊢
      subst hsub
      nlinarith [ih2]
    · rw [List.countP_append, ih3, b3]

/-- C24, as stated, fails for a list of 65 qubits: for `i = 0` and `j = 64` the angle divides
by `1ULL << 64`, a shift by the width of the type, which is undefined, so the calls of the
claim are not what the function is bound to issue. -/
theorem qft_decomposed_undefined_shift :
    (List.replicate 65 0).length = 65 ∧ apply_qft_decomposed (List.replicate 65 0) false = none := by
  refine ⟨rfl, ?_⟩
  have hinner : ∀ calls : List primitive_call,
      qft_decomposed_phase_body (List.replicate 65 0) false 0 calls (1 + 63) = none := by
    intro calls
    simp [qft_decomposed_phase_body, shl_one_checked]
  have hphase : ∀ calls : List primitive_call,
      for_from (qft_decomposed_phase_body (List.replicate 65 0) false 0) 1 (63 + 1) calls =
        none := by
    intro calls
    show (for_from _ 1 63 calls).bind _ = none
    rw [Option.bind_eq_none]
    intro a _
    exact hinner a
  have hrot : for_from (qft_decomposed_rotation_body (List.replicate 65 0) false) 0 (1 + 64) [] =
      none := by
    apply for_from_none
    show (some ([] : List primitive_call)).bind _ = none
    rw [Option.some_bind]
    simp only [qft_decomposed_rotation_body]
    have hq : (List.replicate 65 0)[0 + 0]? = some 0 := rfl
    rw [hq]
    exact hphase _
  unfold apply_qft_decomposed
  simp only [List.length_replicate, show ¬ (65 = 0) from by decide, if_false]
  rw [show (65 : Nat) = 1 + 64 from rfl, hrot]
  rfl

/-- C24 (amended): for a qubit list of length `n` with `1 ≤ n ≤ 64`, `apply_qft_decomposed`
issues, in order for `i = 0, …, n - 1`, one Hadamard on `qubits[i]` followed by one phase
shift on `qubits[i]` of angle `π / 2 ^ (j - i)` (negated when inverse) for each
`j = i + 1, …, n - 1`, that is `n` Hadamards and `n (n - 1) / 2` phase shifts; when not inverse
it then issues the `⌊n / 2⌋` SWAPs of `qubits[k]` with `qubits[n - 1 - k]` for
`k = 0, …, ⌊n / 2⌋ - 1`, and when inverse it issues no SWAP; for an empty list it issues
nothing. -/
theorem qft_decomposed_spec (qubits : List Nat) (inverse : Bool) (h1 : 1 ≤ qubits.length)
    (h64 : qubits.length ≤ 64) :
    apply_qft_decomposed qubits inverse = some (qft_decomposed_expected qubits inverse) ∧
      List.countP primitive_call.is_hadamard (qft_decomposed_expected qubits inverse) =
        qubits.length ∧
      List.countP primitive_call.is_phase_shift (qft_decomposed_expected qubits inverse) =
        qubits.length * (qubits.length - 1) / 2 ∧
      List.countP primitive_call.is_swap (qft_decomposed_expected qubits inverse) =
        (if inverse then 0 else qubits.length / 2) ∧
      apply_qft_decomposed [] inverse = some [] := by
  obtain ⟨c1, c2, c3⟩ := countP_rotations qubits inverse qubits.length (Nat.le_refl _)
  have hswap : ∀ l : List Nat, List.countP primitive_call.is_swap
      (l.map (fun k => primitive_call.swap (qubits.getD k 0)
        (qubits.getD (qubits.length - 1 - k) 0))) = l.length ∧
      List.countP primitive_call.is_hadamard
      (l.map (fun k => primitive_call.swap (qubits.getD k 0)
        (qubits.getD (qubits.length - 1 - k) 0))) = 0 ∧
      List.countP primitive_call.is_phase_shift
      (l.map (fun k => primitive_call.swap (qubits.getD k 0)
        (qubits.getD (qubits.length - 1 - k) 0))) = 0 := by
    intro l
    refine ⟨?_, ?_, ?_⟩
    · rw [List.countP_map, List.countP_eq_length.mpr]
      intro a _
      simp [primitive_call.is_swap]
    · rw [List.countP_map, List.countP_eq_zero.mpr]
      intro a _
      simp [primitive_call.is_hadamard]
    · rw [List.countP_map, List.countP_eq_zero.mpr]
      intro a _
      simp [primitive_call.is_phase_shift]
  obtain ⟨s1, s2, s3⟩ := hswap (List.range (qubits.length / 2))
  refine ⟨apply_qft_decomposed_eq_expected qubits inverse h64, ?_, ?_, ?_, ?_⟩
  · unfold qft_decomposed_expected
    rw [List.countP_append, c1]
    cases inverse with
    | true => simp
    | false => simp only [Bool.false_eq_true, if_false, s2, Nat.add_zero]
  · unfold qft_decomposed_expected
    rw [List.countP_append]
    have hsecond : List.countP primitive_call.is_phase_shift
        (if inverse = true then []
          else (List.range (qubits.length / 2)).map (fun k =>
            primitive_call.swap (qubits.getD k 0) (qubits.getD (qubits.length - 1 - k) 0))) =
        0 := by
      cases inverse with
      | true => simp
      | false => simp only [Bool.false_eq_true, if_false, s3]
    rw [hsecond, Nat.add_zero]
    generalize List.countP primitive_call.is_phase_shift _ = c at c2 ⊢
    have hprod : qubits.length * (qubits.length - 1) = 2 * c := by
      obtain ⟨k, hk⟩ : ∃ k, qubits.length = k + 1 := ⟨qubits.length - 1, by omega⟩
      rw [hk] at c2 ⊢
      simp only [Nat.add_sub_cancel]
      nlinarith [c2]
    rw [hprod, Nat.mul_div_cancel_left c (by norm_num)]
  · unfold qft_decomposed_expected
    rw [List.countP_append, c3]
    cases inverse with
    | true => simp
    | false => simp only [Bool.false_eq_true, if_false, s1, List.length_range, Nat.zero_add]
  · simp [apply_qft_decomposed]

theorem qft_decomposed_spec_witness :
    apply_qft_decomposed [0, 1, 2] false = some (qft_decomposed_expected [0, 1, 2] false) ∧
      List.countP primitive_call.is_hadamard (qft_decomposed_expected [0, 1, 2] false) = 3 ∧
      List.countP primitive_call.is_phase_shift (qft_decomposed_expected [0, 1, 2] false) = 3 ∧
      List.countP primitive_call.is_swap (qft_decomposed_expected [0, 1, 2] false) = 1 :=
  ⟨(qft_decomposed_spec [0, 1, 2] false (by decide) (by decide)).1,
    (qft_decomposed_spec [0, 1, 2] false (by decide) (by decide)).2.1,
    (qft_decomposed_spec [0, 1, 2] false (by decide) (by decide)).2.2.1,
    (qft_decomposed_spec [0, 1, 2] false (by decide) (by decide)).2.2.2.1⟩

/-! ## The diffusion operator -/

theorem testBit_xor_two_pow_self (k q : Nat) :
    (k ^^^ 2 ^ q).testBit q = !k.testBit q := by
  rw [Nat.testBit_xor, Nat.testBit_two_pow_self]
  cases k.testBit q <;> rfl

theorem testBit_xor_two_pow_of_ne (k q p : Nat) (h : q ≠ p) :
    (k ^^^ 2 ^ q).testBit p = k.testBit p := by
  rw [Nat.testBit_xor, Nat.testBit_two_pow]
  simp [h]

theorem xor_two_pow_cancel (k q : Nat) : (k ^^^ 2 ^ q) ^^^ 2 ^ q = k :=
  Nat.xor_cancel_right _ _

theorem xor_two_pow_comm (k p q : Nat) : (k ^^^ 2 ^ p) ^^^ 2 ^ q = (k ^^^ 2 ^ q) ^^^ 2 ^ p := by
  rw [Nat.xor_assoc, Nat.xor_comm (2 ^ p), ← Nat.xor_assoc]

theorem hadamard_fn_involutive (q : Nat) (g : Nat → ℂ) :
    hadamard_fn q (hadamard_fn q g) = g := by
  funext k
  have hs := sqrt_two_mul_self
  have hs0 : ((Real.sqrt 2 : ℝ) : ℂ) ≠ 0 := by
    intro h
    rw [h] at hs
    norm_num at hs
  simp only [hadamard_fn, testBit_xor_two_pow_self, xor_two_pow_cancel]
  cases hb : k.testBit q
  · simp only [Bool.false_eq_true, if_false, Bool.not_false, if_true]
    field_simp
    linear_combination (-(g k)) * hs
  · simp only [if_true, Bool.not_true, Bool.false_eq_true, if_false]
    field_simp
    linear_combination (-(g k)) * hs

theorem hadamard_fn_comm (p q : Nat) (h : p ≠ q) (g : Nat → ℂ) :
    hadamard_fn p (hadamard_fn q g) = hadamard_fn q (hadamard_fn p g) := by
  funext k
  simp only [hadamard_fn, testBit_xor_two_pow_of_ne k p q h,
    testBit_xor_two_pow_of_ne k q p (Ne.symm h), xor_two_pow_comm k q p]
  cases k.testBit p <;> cases k.testBit q <;> simp <;> ring

theorem hadamard_fn_hadamard_all (q m : Nat) (h : m ≤ q) (g : Nat → ℂ) :
    hadamard_fn q (hadamard_all m g) = hadamard_all m (hadamard_fn q g) := by
  induction m with
  | zero => rfl
  | succ m ih =>
    simp only [hadamard_all]
    rw [hadamard_fn_comm q m (by omega), ih (by omega)]

theorem hadamard_all_involutive (m : Nat) (g : Nat → ℂ) :
    hadamard_all m (hadamard_all m g) = g := by
  induction m generalizing g with
  | zero => rfl
  | succ m ih =>
    simp only [hadamard_all]
    rw [← hadamard_fn_hadamard_all m m (Nat.le_refl _), hadamard_fn_involutive, ih]

theorem hadamard_fn_linear (q : Nat) (g h : Nat → ℂ) (c : ℂ) :
    hadamard_fn q (fun k => g k - c * h k) =
      fun k => hadamard_fn q g k - c * hadamard_fn q h k := by
  funext k
  simp only [hadamard_fn]
  split <;> ring

theorem hadamard_all_linear (m : Nat) (g h : Nat → ℂ) (c : ℂ) :
    hadamard_all m (fun k => g k - c * h k) =
      fun k => hadamard_all m g k - c * hadamard_all m h k := by
  induction m with
  | zero => rfl
  | succ m ih =>
    simp only [hadamard_all]
    rw [ih, hadamard_fn_linear]

theorem testBit_of_ge_of_lt (b m : Nat) (h1 : 2 ^ m ≤ b) (h2 : b < 2 ^ (m + 1)) :
    b.testBit m = true := by
  by_contra hb
  have hb2 : b.testBit m = false := by simpa using hb
  have : b < 2 ^ m := by
    apply Nat.lt_pow_two_of_testBit
    intro i hi
    by_cases him : i = m
    · rw [him]; exact hb2
    · apply Nat.testBit_lt_two_pow
      exact Nat.lt_of_lt_of_le h2 (Nat.pow_le_pow_right (by norm_num) (by omega))
  omega

theorem xor_two_pow_lt_of_lt_succ (b m : Nat) (h1 : b.testBit m = true)
    (h2 : b < 2 ^ (m + 1)) : b ^^^ 2 ^ m < 2 ^ m := by
  apply Nat.lt_pow_two_of_testBit
  intro i hi
  by_cases him : i = m
  · rw [him, testBit_xor_two_pow_self, h1]
    rfl
  · rw [testBit_xor_two_pow_of_ne b m i (Ne.symm him)]
    apply Nat.testBit_lt_two_pow
    exact Nat.lt_of_lt_of_le h2 (Nat.pow_le_pow_right (by norm_num) (by omega))

theorem xor_two_pow_ge_of_lt (j m : Nat) (h : j < 2 ^ m) :
    2 ^ m ≤ j ^^^ 2 ^ m ∧ j ^^^ 2 ^ m < 2 ^ (m + 1) := by
  constructor
  · apply Nat.testBit_implies_ge
    rw [testBit_xor_two_pow_self, Nat.testBit_lt_two_pow h]
    rfl
  · apply Nat.xor_lt_two_pow
    · exact Nat.lt_of_lt_of_le h (Nat.pow_le_pow_right (by norm_num) (by omega))
    · exact Nat.pow_lt_pow_right (by norm_num) (by omega)

theorem sum_xor_two_pow (m : Nat) (g : Nat → ℂ) :
    ∑ j in Finset.range (2 ^ m), g (j ^^^ 2 ^ m) =
      ∑ b in Finset.Ico (2 ^ m) (2 ^ (m + 1)), g b := by
  apply Finset.sum_nbij' (fun j => j ^^^ 2 ^ m) (fun b => b ^^^ 2 ^ m)
  · intro j hj
    rw [Finset.mem_Ico]
    exact xor_two_pow_ge_of_lt j m (Finset.mem_range.mp hj)
  · intro b hb
    rw [Finset.mem_Ico] at hb
    rw [Finset.mem_range]
    exact xor_two_pow_lt_of_lt_succ b m (testBit_of_ge_of_lt b m hb.1 hb.2) hb.2
  · intro j _
    exact xor_two_pow_cancel j m
  · intro b _
    exact xor_two_pow_cancel b m
  · intro j _
    rfl

/-- The amplitude at index 0 after the Hadamards on the qubits `0, …, m - 1` is the sum of the
first `2 ^ m` amplitudes, scaled by `(1 / sqrt 2) ^ m`. -/
theorem hadamard_all_zero (m : Nat) (g : Nat → ℂ) :
    hadamard_all m g 0 = (1 / (Real.sqrt 2 : ℂ)) ^ m * ∑ j in Finset.range (2 ^ m), g j := by
  induction m generalizing g with
  | zero => simp [hadamard_all]
  | succ m ih =>
    simp only [hadamard_all]
    rw [hadamard_fn_hadamard_all m m (Nat.le_refl _), ih]
    have hterm : ∀ j, j ∈ Finset.range (2 ^ m) →
        hadamard_fn m g j = (1 / (Real.sqrt 2 : ℂ)) * (g j + g (j ^^^ 2 ^ m)) := by
      intro j hj
      simp only [hadamard_fn, Nat.testBit_lt_two_pow (Finset.mem_range.mp hj),
        Bool.false_eq_true, if_false]
      ring
    rw [Finset.sum_congr rfl hterm, ← Finset.mul_sum, Finset.sum_add_distrib,
      sum_xor_two_pow,
      Finset.sum_range_add_sum_Ico g (Nat.pow_le_pow_right (by norm_num) (Nat.le_succ m))]
    ring

/-- The Hadamards on the qubits `0, …, m - 1` spread the basis state of index 0 evenly over
the first `2 ^ m` indices. -/
theorem hadamard_all_delta (m k : Nat) :
    hadamard_all m (fun j => if j = 0 then 1 else 0) k =
      if k < 2 ^ m then (1 / (Real.sqrt 2 : ℂ)) ^ m else 0 := by
  induction m generalizing k with
  | zero =>
    simp only [hadamard_all, pow_zero, Nat.lt_one_iff]
  | succ m ih =>
    simp only [hadamard_all, hadamard_fn, ih]
    cases hb : k.testBit m
    · simp only [Bool.false_eq_true, if_false]
      have hge := (Nat.testBit_implies_ge
        (show (k ^^^ 2 ^ m).testBit m = true by rw [testBit_xor_two_pow_self, hb]; rfl))
      rw [if_neg (by omega : ¬ k ^^^ 2 ^ m < 2 ^ m), add_zero]
      by_cases hk : k < 2 ^ m
      · have hk2 : k < 2 ^ (m + 1) :=
          Nat.lt_of_lt_of_le hk (Nat.pow_le_pow_right (by norm_num) (by omega))
        rw [if_pos hk, if_pos hk2]
        ring
      · have hk2 : ¬ k < 2 ^ (m + 1) := by
          intro h
          apply hk
          apply Nat.lt_pow_two_of_testBit
          intro i hi
          by_cases him : i = m
          · rw [him]; exact hb
          · apply Nat.testBit_lt_two_pow
            exact Nat.lt_of_lt_of_le h (Nat.pow_le_pow_right (by norm_num) (by omega))
        rw [if_neg hk, if_neg hk2, zero_div]
    · simp only [if_true]
      have hge := Nat.testBit_implies_ge hb
      rw [if_neg (by omega : ¬ k < 2 ^ m), sub_zero]
      by_cases hk2 : k < 2 ^ (m + 1)
      · rw [if_pos (xor_two_pow_lt_of_lt_succ k m hb hk2), if_pos hk2]
        ring
      · have hk : ¬ k ^^^ 2 ^ m < 2 ^ m := by
          intro h
          apply hk2
          have := Nat.xor_lt_two_pow
            (Nat.lt_of_lt_of_le h (Nat.pow_le_pow_right (by norm_num) (Nat.le_succ m)))
            (Nat.pow_lt_pow_right (by norm_num) (Nat.lt_succ_self m))
          rwa [xor_two_pow_cancel] at this
        rw [if_neg hk, if_neg hk2, zero_div]

theorem amplitudes_of_length_le (state : List ℂ) (k : Nat) (h : state.length ≤ k) :
    amplitudes state k = 0 := by
  simp only [amplitudes, List.getD_eq_getElem?_getD, List.getElem?_eq_none h]
  rfl

theorem xor_two_pow_ge_of_ge (k q n : Nat) (hq : q < n) (hk : 2 ^ n ≤ k) :
    2 ^ n ≤ k ^^^ 2 ^ q := by
  by_contra h
  have h1 : k ^^^ 2 ^ q < 2 ^ n := by omega
  have h2 := Nat.xor_lt_two_pow h1 (Nat.pow_lt_pow_right (by norm_num) hq)
  rw [xor_two_pow_cancel] at h2
  omega

/-- One call of `apply_hadamard` on a state of length `2 ^ n` returns, and acts on the
amplitudes as `hadamard_fn`. -/
theorem apply_hadamard_amplitudes (n q : Nat) (state : List ℂ) (hlen : state.length = 2 ^ n)
    (hq : q < n) (hq64 : q < 64) :
    ∃ s, apply_hadamard state (2 ^ n) q = .returned s ∧ s.length = 2 ^ n ∧
      amplitudes s = hadamard_fn q (amplitudes state) := by
  have hguard : state.length = 2 ^ n ∧ ∀ k, k < 2 ^ n → k ^^^ shl_one q < 2 ^ n :=
    ⟨hlen, fun k hk => xor_shl_one_lt k q n hk hq⟩
  refine ⟨_, by rw [apply_hadamard, if_pos hguard], by simp, ?_⟩
  funext k
  by_cases hk : k < 2 ^ n
  · simp only [amplitudes, hadamard_fn, List.getD_eq_getElem?_getD, List.getElem?_map,
      List.getElem?_range hk, Option.map_some', Option.getD_some, bit_is_set_eq_testBit,
      shl_one_eq_two_pow q hq64]
  · have hk2 : 2 ^ n ≤ k := by omega
    rw [amplitudes_of_length_le _ k (by simp; omega)]
    simp only [hadamard_fn, amplitudes_of_length_le state k (by omega),
      amplitudes_of_length_le state (k ^^^ 2 ^ q)
        (by rw [hlen]; exact xor_two_pow_ge_of_ge k q n hq hk2)]
    split <;> simp

theorem for_index_hadamard (n m : Nat) (state : List ℂ) (hlen : state.length = 2 ^ n)
    (hm : m ≤ n) (hn : n ≤ 64) :
    ∃ s, for_index (fun s i => apply_hadamard s (2 ^ n) i) m state = .returned s ∧
      s.length = 2 ^ n ∧ amplitudes s = hadamard_all m (amplitudes state) := by
  induction m with
  | zero => exact ⟨state, rfl, hlen, rfl⟩
  | succ m ih =>
    obtain ⟨s1, hrun1, hlen1, hamp1⟩ := ih (by omega)
    obtain ⟨s2, hrun2, hlen2, hamp2⟩ :=
      apply_hadamard_amplitudes n m s1 hlen1 (by omega) (by omega)
    refine ⟨s2, ?_, hlen2, ?_⟩
    · simp only [for_index, hrun1, Outcome.andThen, hrun2]
    · rw [hamp2, hamp1]
      rfl

theorem negate_amplitude_zero_amplitudes (s : List ℂ) (h : 0 < s.length) :
    ∃ s2, negate_amplitude s 0 = .returned s2 ∧ s2.length = s.length ∧
      amplitudes s2 =
        fun k => amplitudes s k - (2 * amplitudes s 0) * (if k = 0 then 1 else 0) := by
  refine ⟨_, negate_amplitude_returned s 0 h, by simp, ?_⟩
  funext k
  by_cases hk : k = 0
  · subst hk
    simp only [amplitudes, List.getD_eq_getElem?_getD, List.getElem?_set, h, if_true,
      List.getElem?_eq_getElem h, Option.getD_some]
    ring
  · simp only [amplitudes, List.getD_eq_getElem?_getD, List.getElem?_set, Ne.symm hk,
      if_false, hk]
    ring

/-- The diffusion operator on a state of length `2 ^ n` subtracts twice the mean from every
amplitude. -/
theorem grover_diffusion_amplitudes (n : Nat) (state : List ℂ) (hn : n < 64)
    (hlen : state.length = 2 ^ n) :
    ∃ s, grover_diffusion state (2 ^ n) = .returned s ∧ s.length = 2 ^ n ∧
      ∀ i, i < 2 ^ n →
        amplitudes s i =
          amplitudes state i - 2 * ((∑ j in Finset.range (2 ^ n), amplitudes state j) / 2 ^ n) := by
  obtain ⟨s1, hrun1, hlen1, hamp1⟩ := for_index_hadamard n n state hlen (Nat.le_refl _)
    (by omega)
  obtain ⟨s2, hrun2, hlen2, hamp2⟩ := negate_amplitude_zero_amplitudes s1
    (by rw [hlen1]; positivity)
  obtain ⟨s3, hrun3, hlen3, hamp3⟩ := for_index_hadamard n n s2 (by rw [hlen2, hlen1])
    (Nat.le_refl _) (by omega)
  refine ⟨s3, ?_, hlen3, ?_⟩
  · simp only [grover_diffusion, log2_size_t_two_pow, hrun1, Outcome.andThen, hrun2, hrun3]
  · intro i hi
    rw [hamp3, hamp2, hadamard_all_linear, hamp1, hadamard_all_involutive, hadamard_all_zero]
    simp only [hadamard_all_delta, if_pos hi]
    have hc : (1 / (Real.sqrt 2 : ℂ)) ^ n * (1 / (Real.sqrt 2 : ℂ)) ^ n = 1 / 2 ^ n := by
      rw [← mul_pow, div_mul_div_comm, one_mul, sqrt_two_mul_self, one_div, one_div, inv_pow]
    have h2 : ((2 : ℂ) ^ n) ≠ 0 := pow_ne_zero _ (by norm_num)
    calc amplitudes state i -
          2 * ((1 / (Real.sqrt 2 : ℂ)) ^ n * ∑ j in Finset.range (2 ^ n), amplitudes state j) *
            (1 / (Real.sqrt 2 : ℂ)) ^ n
        = amplitudes state i - 2 * (((1 / (Real.sqrt 2 : ℂ)) ^ n * (1 / (Real.sqrt 2 : ℂ)) ^ n) *
            ∑ j in Finset.range (2 ^ n), amplitudes state j) := by ring
      _ = amplitudes state i -
            2 * ((∑ j in Finset.range (2 ^ n), amplitudes state j) / 2 ^ n) := by
          rw [hc]
          ring

/-- C25, as stated, fails on the uniform superposition of 2 qubits: `grover_diffusion` maps
the state with amplitude 1/2 at every index to the state with amplitude -1/2 at every index,
not to itself, whereas `2 * mean(v) - v_i` is 1/2. -/
theorem grover_diffusion_negates_uniform :
    grover_diffusion [1 / 2, 1 / 2, 1 / 2, 1 / 2] (2 ^ 2) =
        .returned [-(1 / 2), -(1 / 2), -(1 / 2), -(1 / 2)] ∧
      (-(1 / 2) : ℂ) ≠ 2 * ((1 / 2 + 1 / 2 + 1 / 2 + 1 / 2) / 4) - 1 / 2 := by
  constructor
  · have h := grover_diffusion_four (1 / 2) (1 / 2) (1 / 2) (1 / 2)
    norm_num at h ⊢
    exact h
  · norm_num

/-- C25 (amended): with the standard Hadamard primitive and exact arithmetic,
`grover_diffusion` on every state of length `2 ^ n` (`n < 64`) returns the state in which each
amplitude `v_i` has become `v_i - 2 * mean(v)`, the negative of the reflection about the
uniform superposition `s`: a state with the same amplitude at every index, such as `s`, is
mapped to its negative, and a state whose amplitudes sum to zero, that is one orthogonal to
`s`, is returned unchanged. -/
theorem grover_diffusion_spec (n : Nat) (state : List ℂ) (hn : n < 64)
    (hlen : state.length = 2 ^ n) :
    ∃ s, grover_diffusion state (2 ^ n) = .returned s ∧ s.length = 2 ^ n ∧
      (∀ i : Nat, i < 2 ^ n →
        s[i]? = some (state.getD i 0 -
          2 * ((∑ j in Finset.range (2 ^ n), state.getD j 0) / 2 ^ n))) ∧
      (∀ c : ℂ, (∀ j : Nat, j < 2 ^ n → state[j]? = some c) →
        ∀ i : Nat, i < 2 ^ n → s[i]? = some (-c)) ∧
      ((∑ j in Finset.range (2 ^ n), state.getD j 0) = 0 → s = state) := by
  obtain ⟨s, hrun, hslen, hs⟩ := grover_diffusion_amplitudes n state hn hlen
  have hformula : ∀ i : Nat, i < 2 ^ n →
      s[i]? = some (state.getD i 0 -
        2 * ((∑ j in Finset.range (2 ^ n), state.getD j 0) / 2 ^ n)) := by
    intro i hi
    exact getElem?_of_getD (by omega) (hs i hi)
  refine ⟨s, hrun, hslen, hformula, ?_, ?_⟩
  · intro c hc i hi
    rw [hformula i hi]
    have hget : ∀ j, j ∈ Finset.range (2 ^ n) → state.getD j 0 = c := by
      intro j hj
      rw [List.getD_eq_getElem?_getD, hc j (Finset.mem_range.mp hj)]
      rfl
    have h2 : ((2 : ℂ) ^ n) ≠ 0 := pow_ne_zero _ (by norm_num)
    rw [Finset.sum_congr rfl hget, hget i (Finset.mem_range.mpr hi), Finset.sum_const,
      Finset.card_range, nsmul_eq_mul]
    congr 1
    push_cast
    field_simp
    ring
  · intro hsum
    apply List.ext_getElem?
    intro k
    by_cases hk : k < 2 ^ n
    · rw [hformula k hk, hsum, List.getD_eq_getElem?_getD,
        List.getElem?_eq_getElem (by omega : k < state.length)]
      simp
    · rw [List.getElem?_eq_none (by omega), List.getElem?_eq_none (by omega)]

theorem grover_diffusion_spec_witness :
    ∃ s, grover_diffusion [1, 0, 0, 0] (2 ^ 2) = .returned s ∧ s.length = 2 ^ 2 ∧
      ∀ i : Nat, i < 2 ^ 2 →
        s[i]? = some (([1, 0, 0, 0] : List ℂ).getD i 0 -
          2 * ((∑ j in Finset.range (2 ^ 2), ([1, 0, 0, 0] : List ℂ).getD j 0) / 2 ^ 2)) := by
  obtain ⟨s, hrun, hslen, hformula, _, _⟩ :=
    grover_diffusion_spec 2 [1, 0, 0, 0] (by decide) (by rfl)
  exact ⟨s, hrun, hslen, hformula⟩

end simulator
